import Mathlib

/-!
The store block_fs: a keyed blob store in one data file.

A shallow embedding of `devel/libutil/src/block_fs.c`.

Conventions of the embedding.

* The data file is the list of its bytes.  A stream is that list together with a position,
  which the functions pass around explicitly.  The stream `block_fs->data_stream` is
  buffered: the field `data_stream` of the store is the content which a read through that
  stream sees, the bytes of the file together with the bytes which the stream holds in its
  buffer.  The bytes which the file itself holds when a write stops are those of
  `block_fs_fwrite_crash`, and `block_fs_preload`, which opens a stream of its own on the
  file, takes the content of the file as an argument.
* C integers (`int`, `long int`, `size_t`) are mathematical integers: sizes are assumed to stay
  inside the range of their C type.  Only the places where the C code converts a signed value
  to `size_t` (`size_t_cast`), the four byte encoding of an `int` on disk
  (`int_to_bytes`, `bytes_to_int`) and the function `block_fs_get_new_node_int`, which
  computes the size of a new node as the C code does in `int` (`int_cast`), are width aware.
  Integers on disk are little endian.
* The nodes are owned by the vector `file_nodes`; the index and the free list refer to a node
  by its position in that vector (a handle), which plays the role of the C pointer.
* The doubly linked free list (`free_nodes`, `next`, `prev`) is the list of the handles in
  link order, head first.
* `util_abort`, and the operations of `util.c` and `hash.c` which abort, end the computation
  with an error of type `block_fs_error`.
* `fsync`, the locks and the printing are not part of the state.
-/

namespace BlockFs

/-- One byte of the data file or of a payload. -/
abbrev Byte := Fin 256

/-- File names are the bytes of a C string in front of its terminating NUL. -/
abbrev filename := List Byte

/-- The ways in which an operation can end without returning. -/
inductive block_fs_error where
  /-- The `util_abort` of `block_fs_aquire_wlock` on a store which is not data owner. -/
  | read_only
  /-- A `hash_get` or `hash_pop` with a key which is not in the table. -/
  | not_found
  /-- The `util_abort` of `file_node_fwrite` for a node of size zero. -/
  | zero_size
  /-- The `util_abort` of `fseek__`. -/
  | seek_failed
  /-- The `util_abort` of `util_fread` when the file is too short. -/
  | short_read
  /-- A read through a NULL pointer or beyond the end of the cache. -/
  | bad_memory
  /-- The `div` of `block_fs_get_new_node` with block size zero. -/
  | div_by_zero
  /-- The `util_abort` in the `switch` of `block_fs_build_index`. -/
  | bad_status
  /-- The call of `block_fs_rotate__`, which this development does not embed. -/
  | rotate
  /-- The loop of `block_fs_build_index` did not end within the given number of rounds. -/
  | out_of_fuel
  /-- The `util_abort` of `block_fs_alloc_empty` for a mount file without the magic number. -/
  | mount_map
  deriving DecidableEq, Repr

deriving instance DecidableEq for Except

/-! ## Constants -/

def MOUNT_MAP_MAGIC_INT : Int := 8861290
def NODE_IN_USE_BYTE : Byte := 85
def NODE_FREE_BYTE : Byte := 170
def WRITE_START__ : Int := 77162
def NODE_END_TAG : Int := 16711935
def NODE_WRITE_ACTIVE_START : Int := WRITE_START__
def NODE_WRITE_ACTIVE_END : Int := 776512

/-- The enumeration `node_status_type`. -/
inductive node_status_type where
  | NODE_IN_USE
  | NODE_FREE
  | NODE_WRITE_ACTIVE
  | NODE_INVALID
  deriving DecidableEq, Repr

/-- The integer value of an enumerator of `node_status_type`. -/
def node_status_type.toInt : node_status_type → Int
  | .NODE_IN_USE => 1431655765
  | .NODE_FREE => -1431655766
  | .NODE_WRITE_ACTIVE => WRITE_START__
  | .NODE_INVALID => 13

/-! ## Integers and streams -/

/-- The conversion of a signed C integer to `size_t` (64 bit). -/
def size_t_cast (x : Int) : Int := if x < 0 then x + 18446744073709551616 else x

/-- Modelled from the spec: `util_size_t_max` of `util.c`, which is not among the sources at
hand; with it `data_file_size` is "the highest `node_offset + node_size` observed". The
maximum is taken of the two values as `size_t`. -/
def util_size_t_max (a b : Int) : Int := if size_t_cast a < size_t_cast b then b else a

/-- The four bytes of an `int`, least significant byte first. -/
def int_to_bytes (v : Int) : List Byte :=
  let u := (v % 4294967296).toNat
  [Fin.ofNat u, Fin.ofNat (u / 256), Fin.ofNat (u / 65536), Fin.ofNat (u / 16777216)]

/-- The `int` held by four bytes, least significant byte first. -/
def bytes_to_int : List Byte → Int
  | [b0, b1, b2, b3] =>
    let u : Int := (b0.val + 256 * b1.val + 65536 * b2.val + 16777216 * b3.val : Nat)
    if 2147483648 ≤ u then u - 4294967296 else u
  | _ => 0

/-- The function `fseek__` with `SEEK_SET`: a seek to a negative offset aborts. -/
def fseek__ (arg : Int) : Except block_fs_error Int :=
  if arg < 0 then .error .seek_failed else .ok arg

/-- The bytes `fread` delivers for `n` bytes at position `pos`, when the file has that many. -/
def fread (stream : List Byte) (pos : Int) (n : Nat) : Option (List Byte) :=
  if 0 ≤ pos ∧ pos.toNat + n ≤ stream.length then some ((stream.drop pos.toNat).take n) else none

/-- The position of a stream after an `fread` which came up short. -/
def fread_eof (stream : List Byte) (pos : Int) : Int := max pos stream.length

/-- The file after `fwrite` of the bytes `bs` at position `pos`: a write behind the end of the
file fills the gap with zero bytes, a write of no bytes leaves the file as it is. -/
def fwrite (stream : List Byte) (pos : Int) (bs : List Byte) : List Byte :=
  if bs = [] then stream
  else stream.take pos.toNat ++ List.replicate (pos.toNat - stream.length) 0 ++ bs
    ++ stream.drop (pos.toNat + bs.length)

/-- Modelled from the spec: `util_fwrite_int` of `util.c`, which is not among the sources at
hand; "all integers are native-endian fixed-width". The result is the file and the new
position. -/
def util_fwrite_int (value : Int) (stream : List Byte) (pos : Int) : List Byte × Int :=
  (fwrite stream pos (int_to_bytes value), pos + 4)

/-- Modelled from the spec: `util_fread_int` of `util.c`, which is not among the sources at
hand; a short read of a header field is an error. -/
def util_fread_int (stream : List Byte) (pos : Int) : Except block_fs_error (Int × Int) :=
  match fread stream pos 4 with
  | some bs => .ok (bytes_to_int bs, pos + 4)
  | none => .error .short_read

/-- Modelled from the spec: `util_fwrite_string` of `util.c`, which is not among the sources
at hand; "the name is written as length-prefixed with trailing NUL". -/
def util_fwrite_string (s : filename) (stream : List Byte) (pos : Int) : List Byte × Int :=
  let r := util_fwrite_int s.length stream pos
  (fwrite r.1 r.2 (s ++ [0]), r.2 + (s.length + 1))

/-- Modelled from the spec: `util_fread_realloc_string` of `util.c`, which is not among the
sources at hand; it reads the length and then that many characters and the NUL of a name
"written as length-prefixed with trailing NUL". The C string read ends at its first NUL. -/
def util_fread_realloc_string (stream : List Byte) (pos : Int) :
    Except block_fs_error (filename × Int) :=
  match util_fread_int stream pos with
  | .error e => .error e
  | .ok (len, pos1) =>
    if len + 1 < 0 then .error .bad_memory
    else match fread stream pos1 (len + 1).toNat with
      | some bs => .ok (bs.takeWhile (fun b => b ≠ 0), pos1 + (len + 1))
      | none => .error .short_read

/-! ## File nodes -/

/-- The structure `file_node_struct`; the links `next` and `prev` are carried by the list
`free_nodes` of the store. A present `cache` is the content of the allocated block. -/
structure file_node_type where
  node_offset : Int
  data_offset : Int
  node_size : Int
  data_size : Int
  status : node_status_type
  cache : Option (List Byte)
  cache_size : Int
  deriving DecidableEq, Repr

def file_node_alloc (status : node_status_type) (offset : Int) (node_size : Int) :
    file_node_type :=
  { node_offset := offset, node_size := node_size, data_size := 0, data_offset := 0,
    status := status, cache := none, cache_size := 0 }

def file_node_clear_cache (file_node : file_node_type) : file_node_type :=
  match file_node.cache with
  | some _ => { file_node with cache_size := 0, cache := none }
  | none => file_node

/-- The function `util_realloc_copy` of `util.c`, which is not among the sources at hand: a
block which holds the first `byte_size` bytes of `src`. Whether a request for zero bytes
gives NULL or a block of no bytes is a parameter: `null_on_zero` says which. -/
def util_realloc_copy (null_on_zero : Bool) (src : List Byte) (byte_size : Int) :
    Option (List Byte) :=
  if byte_size = 0 ∧ null_on_zero = true then none else some (src.take byte_size.toNat)

/-- The function `file_node_update_cache`. Its `memcpy` branch runs with equal sizes, where a
NULL cache has size zero and nothing is copied. -/
def file_node_update_cache (null_on_zero : Bool) (file_node : file_node_type) (data_size : Int)
    (data : List Byte) : file_node_type :=
  if data_size ≠ file_node.cache_size then
    { file_node with cache := util_realloc_copy null_on_zero data data_size,
                     cache_size := data_size }
  else
    { file_node with
      cache := file_node.cache.map
        (fun c => data.take data_size.toNat ++ c.drop data_size.toNat) }

/-- The result of `memcmp(ptr, cache, n) == 0`; no byte is compared when `n` is zero, also for
a NULL cache. -/
def memcmp_eq (ptr : List Byte) (cache : Option (List Byte)) (n : Int) : Bool :=
  decide (ptr.take n.toNat = (cache.getD []).take n.toNat)

def file_node_verify_end_tag (file_node : file_node_type) (stream : List Byte) :
    Except block_fs_error (Bool × Int) :=
  match fseek__ (file_node.node_offset + file_node.node_size - 4) with
  | .error e => .error e
  | .ok pos =>
    match fread stream pos 4 with
    | some bs => .ok (decide (bytes_to_int bs = NODE_END_TAG), pos + 4)
    | none => .ok (false, fread_eof stream pos)

/-- The raw status word of the disk as held by the variable `status` of
`file_node_fread_alloc` after its tests. -/
def status_of_int (status : Int) : node_status_type :=
  if status = node_status_type.NODE_IN_USE.toInt then .NODE_IN_USE
  else if status = node_status_type.NODE_FREE.toInt then .NODE_FREE
  else if status ≠ node_status_type.NODE_WRITE_ACTIVE.toInt then .NODE_INVALID
  else .NODE_WRITE_ACTIVE

/-- The function `file_node_fread_alloc`: the node read at position `pos` (none at the end of
the file), the key and the position of the stream afterwards. -/
def file_node_fread_alloc (stream : List Byte) (pos : Int) (key : Option filename) :
    Except block_fs_error (Option file_node_type × Option filename × Int) :=
  let node_offset := pos
  match fread stream pos 4 with
  | none => .ok (none, key, fread_eof stream pos)
  | some bs =>
    let status := bytes_to_int bs
    let pos1 := pos + 4
    if status = node_status_type.NODE_IN_USE.toInt then
      match util_fread_realloc_string stream pos1 with
      | .error e => .error e
      | .ok (key1, pos2) =>
        match util_fread_int stream pos2 with
        | .error e => .error e
        | .ok (node_size, pos3) =>
          let file_node := file_node_alloc .NODE_IN_USE node_offset node_size
          match util_fread_int stream pos3 with
          | .error e => .error e
          | .ok (data_size, pos4) =>
            .ok (some { file_node with data_size := data_size, data_offset := pos4 },
                 some key1, pos4)
    else if status = node_status_type.NODE_FREE.toInt then
      match util_fread_int stream pos1 with
      | .error e => .error e
      | .ok (node_size, pos2) =>
        .ok (some (file_node_alloc .NODE_FREE node_offset node_size), none, pos2)
    else
      .ok (some (file_node_alloc (status_of_int status) node_offset 0), key, pos1)

/-- The function `file_node_fwrite`: the header of the node and the end tag, as they stand in
the stream when the function returns. -/
def file_node_fwrite (file_node : file_node_type) (key : Option filename)
    (stream : List Byte) : Except block_fs_error (List Byte) :=
  if file_node.node_size = 0 then .error .zero_size
  else
    match fseek__ file_node.node_offset with
    | .error e => .error e
    | .ok pos0 =>
      let r1 := util_fwrite_int file_node.status.toInt stream pos0
      let r2 : Except block_fs_error (List Byte × Int) :=
        if file_node.status = .NODE_IN_USE then
          match key with
          | some k => .ok (util_fwrite_string k r1.1 r1.2)
          | none => .error .bad_memory
        else .ok r1
      match r2 with
      | .error e => .error e
      | .ok r2 =>
        let r3 := util_fwrite_int file_node.node_size r2.1 r2.2
        let r4 := util_fwrite_int file_node.data_size r3.1 r3.2
        match fseek__ (file_node.node_offset + file_node.node_size - 4) with
        | .error e => .error e
        | .ok pos5 => .ok (util_fwrite_int NODE_END_TAG r4.1 pos5).1

/-- The function `file_node_init_fwrite`: the two tags of a write in progress. -/
def file_node_init_fwrite (file_node : file_node_type) (stream : List Byte) :
    Except block_fs_error (List Byte) :=
  match fseek__ file_node.node_offset with
  | .error e => .error e
  | .ok pos0 =>
    let r1 := util_fwrite_int NODE_WRITE_ACTIVE_START stream pos0
    match fseek__ (file_node.node_offset + file_node.node_size - 4) with
    | .error e => .error e
    | .ok pos1 => .ok (util_fwrite_int NODE_WRITE_ACTIVE_END r1.1 pos1).1

/-- The function `file_node_header_size`; `strlen` is the length of the name. -/
def file_node_header_size (name : filename) : Int :=
  4 + 4 + 4 + 4 + 4 + name.length + 1

def file_node_set_data_offset (file_node : file_node_type) (name : filename) : file_node_type :=
  { file_node with data_offset := file_node.node_offset + file_node_header_size name - 4 }

/-! ## The store -/

/-- The structure `block_fs_struct`. The data stream is the content of the data file as the
stream of the store sees it; the names of the files, the version, the descriptors and the
locks are left out. The fragmentation limit is the number one of `block_fs_alloc_empty`. -/
structure block_fs_type where
  data_stream : List Byte
  data_file_size : Int
  free_size : Int
  block_size : Int
  num_free_nodes : Int
  index : List (filename × Nat)
  free_nodes : List Nat
  file_nodes : List file_node_type
  write_count : Int
  max_cache_size : Int
  fragmentation_limit : Int
  data_owner : Bool
  deriving DecidableEq, Repr

/-- The node behind a handle. -/
def node_at (file_nodes : List file_node_type) (h : Nat) : file_node_type :=
  (file_nodes[h]?).getD (file_node_alloc .NODE_INVALID 0 0)

/-- Modelled from the spec: the string-key hash map of `hash.c`, which is not part of the
sources at hand, is "a standard associative container"; this is its lookup. -/
def hash_lookup : List (filename × Nat) → filename → Option Nat
  | [], _ => none
  | (k, v) :: rest, key => if k = key then some v else hash_lookup rest key

/-- Modelled from the spec: the removal of a key from the standard associative container. -/
def hash_remove : List (filename × Nat) → filename → List (filename × Nat)
  | [], _ => []
  | (k, v) :: rest, key => if k = key then hash_remove rest key else (k, v) :: hash_remove rest key

/-- Modelled from the spec: `hash_has_key` of the standard associative container. -/
def hash_has_key (index : List (filename × Nat)) (key : filename) : Bool :=
  (hash_lookup index key).isSome

/-- Modelled from the spec: `hash_get` of the standard associative container; a missing key
is the error `NotFound`. -/
def hash_get (index : List (filename × Nat)) (key : filename) : Except block_fs_error Nat :=
  match hash_lookup index key with
  | some v => .ok v
  | none => .error .not_found

/-- Modelled from the spec: `hash_insert_ref` of the standard associative container; the new
reference takes the place of an old one under the same key. -/
def hash_insert_ref (index : List (filename × Nat)) (key : filename) (v : Nat) :
    List (filename × Nat) :=
  (key, v) :: hash_remove index key

def block_fs_insert_index_node (block_fs : block_fs_type) (name : filename) (file_node : Nat) :
    block_fs_type :=
  { block_fs with index := hash_insert_ref block_fs.index name file_node }

/-- The loop of `block_fs_insert_free_node` together with the relinking: the new node goes in
front of the first node which is not smaller, or to the end of the list. -/
def free_list_insert (file_nodes : List file_node_type) (new : Nat) : List Nat → List Nat
  | [] => [new]
  | current :: rest =>
    if (node_at file_nodes current).node_size < (node_at file_nodes new).node_size then
      current :: free_list_insert file_nodes new rest
    else new :: current :: rest

/-- The test `(free_size * 1.0 / data_file_size) > fragmentation_limit` of
`block_fs_insert_free_node`, with the quotient taken exactly. -/
def fragmentation_exceeded (free_size data_file_size limit : Int) : Bool :=
  if 0 < data_file_size then decide (limit * data_file_size < free_size)
  else if data_file_size = 0 then decide (0 < free_size)
  else decide (free_size < limit * data_file_size)

/-- The function `block_fs_insert_free_node` for a node which is not linked into the list.
When the fragmentation test holds the C code goes on with `block_fs_rotate__`; here that is
the error `rotate`. -/
def block_fs_insert_free_node (block_fs : block_fs_type) (new : Nat) :
    Except block_fs_error block_fs_type :=
  let fs1 : block_fs_type :=
    { block_fs with
      free_nodes := free_list_insert block_fs.file_nodes new block_fs.free_nodes,
      num_free_nodes := block_fs.num_free_nodes + 1,
      free_size := block_fs.free_size + (node_at block_fs.file_nodes new).node_size }
  if fragmentation_exceeded fs1.free_size fs1.data_file_size fs1.fragmentation_limit = true then
    .error .rotate
  else .ok fs1

def block_fs_install_node (block_fs : block_fs_type) (node : file_node_type) : block_fs_type :=
  { block_fs with
    data_file_size := util_size_t_max block_fs.data_file_size (node.node_offset + node.node_size),
    file_nodes := block_fs.file_nodes ++ [node] }

/-- The function `block_fs_unlink_free_node` for a node of the list. -/
def block_fs_unlink_free_node (block_fs : block_fs_type) (node : Nat) : block_fs_type :=
  { block_fs with
    free_nodes := block_fs.free_nodes.erase node,
    num_free_nodes := block_fs.num_free_nodes - 1,
    free_size := block_fs.free_size - (node_at block_fs.file_nodes node).node_size }

/-- The loop of `block_fs_get_new_node`: the first node of the free list whose size, taken as
`size_t`, is not below `min_size`. -/
def free_list_first_fit (file_nodes : List file_node_type) (min_size : Int) :
    List Nat → Option Nat
  | [] => none
  | current :: rest =>
    if size_t_cast (node_at file_nodes current).node_size < min_size then
      free_list_first_fit file_nodes min_size rest
    else some current

/-- The function `block_fs_get_new_node`: the store and the handle of the node it returns.
The sizes are integers without a width here; `block_fs_get_new_node_int` computes the size of
the new node with the widths of the C types. -/
def block_fs_get_new_node (block_fs : block_fs_type) (min_size : Int) :
    Except block_fs_error (block_fs_type × Nat) :=
  match free_list_first_fit block_fs.file_nodes min_size block_fs.free_nodes with
  | some current => .ok (block_fs_unlink_free_node block_fs current, current)
  | none =>
    if block_fs.block_size = 0 then .error .div_by_zero
    else
      let quot := Int.tdiv min_size block_fs.block_size
      let rem := Int.tmod min_size block_fs.block_size
      let node_size :=
        if rem ≠ 0 then quot * block_fs.block_size + block_fs.block_size
        else quot * block_fs.block_size
      let offset := block_fs.data_file_size
      let new_node := file_node_alloc .NODE_IN_USE offset node_size
      .ok (block_fs_install_node block_fs new_node, block_fs.file_nodes.length)

/-- The conversion of an integer to a C `int` of 32 bits: the value modulo 2^32, in the range
from -2^31 to 2^31 - 1. -/
def int_cast (x : Int) : Int := (x + 2147483648) % 4294967296 - 2147483648

def block_fs_has_file (block_fs : block_fs_type) (name : filename) : Bool :=
  hash_has_key block_fs.index name

/-- The function `block_fs_unlink_file__`; the data stream of a mounted store is open. -/
def block_fs_unlink_file__ (block_fs : block_fs_type) (name : filename) :
    Except block_fs_error block_fs_type :=
  match hash_get block_fs.index name with
  | .error e => .error e
  | .ok h =>
    let node : file_node_type :=
      { node_at block_fs.file_nodes h with
        status := .NODE_FREE, data_offset := 0, data_size := 0 }
    match fseek__ node.node_offset with
    | .error e => .error e
    | .ok _ =>
      match file_node_fwrite node none block_fs.data_stream with
      | .error e => .error e
      | .ok stream =>
        block_fs_insert_free_node
          { block_fs with
            index := hash_remove block_fs.index name,
            file_nodes := block_fs.file_nodes.set h node,
            data_stream := stream } h

def block_fs_unlink_file (block_fs : block_fs_type) (name : filename) :
    Except block_fs_error block_fs_type :=
  if block_fs.data_owner = true then block_fs_unlink_file__ block_fs name
  else .error .read_only

/-- The function `block_fs_fwrite__`; the payload `ptr` has `data_size` bytes, a number in
the range of the `int` which the function takes. -/
def block_fs_fwrite__ (null_on_zero : Bool) (block_fs : block_fs_type) (name : filename)
    (h : Nat) (ptr : List Byte) : Except block_fs_error block_fs_type :=
  let node := node_at block_fs.file_nodes h
  let data_size : Int := ptr.length
  if node.cache_size = data_size ∧ memcmp_eq ptr node.cache data_size = true then
    .ok block_fs
  else
    match fseek__ node.node_offset with
    | .error e => .error e
    | .ok _ =>
      let node1 := file_node_set_data_offset
        { node with status := .NODE_IN_USE, data_size := data_size } name
      match file_node_init_fwrite node1 block_fs.data_stream with
      | .error e => .error e
      | .ok stream1 =>
        match fseek__ node1.data_offset with
        | .error e => .error e
        | .ok pos =>
          let stream2 := fwrite stream1 pos ptr
          match file_node_fwrite node1 (some name) stream2 with
          | .error e => .error e
          | .ok stream3 =>
            match fseek__ block_fs.data_file_size with
            | .error e => .error e
            | .ok _ =>
              let node2 :=
                if data_size ≤ block_fs.max_cache_size then
                  file_node_update_cache null_on_zero node1 data_size ptr
                else file_node_clear_cache node1
              .ok { block_fs with
                    data_stream := stream3,
                    file_nodes := block_fs.file_nodes.set h node2,
                    write_count := block_fs.write_count + 1 }

/-- The function `block_fs_fwrite_file`; the payload `ptr` has `data_size` bytes. -/
def block_fs_fwrite_file (null_on_zero : Bool) (block_fs : block_fs_type) (name : filename)
    (ptr : List Byte) : Except block_fs_error block_fs_type :=
  if block_fs.data_owner = true then
    let min_size : Int := ptr.length + file_node_header_size name
    if block_fs_has_file block_fs name = true then
      match hash_get block_fs.index name with
      | .error e => .error e
      | .ok file_node =>
        if size_t_cast (node_at block_fs.file_nodes file_node).node_size < min_size then
          match block_fs_unlink_file__ block_fs name with
          | .error e => .error e
          | .ok fs1 =>
            match block_fs_get_new_node fs1 min_size with
            | .error e => .error e
            | .ok (fs2, new_node) =>
              match block_fs_fwrite__ null_on_zero fs2 name new_node ptr with
              | .error e => .error e
              | .ok fs3 => .ok (block_fs_insert_index_node fs3 name new_node)
        else block_fs_fwrite__ null_on_zero block_fs name file_node ptr
    else
      match block_fs_get_new_node block_fs min_size with
      | .error e => .error e
      | .ok (fs2, new_node) =>
        match block_fs_fwrite__ null_on_zero fs2 name new_node ptr with
        | .error e => .error e
        | .ok fs3 => .ok (block_fs_insert_index_node fs3 name new_node)
  else .error .read_only

/-- The function `block_fs_fread__`: the `read_bytes` bytes it copies to the caller. -/
def block_fs_fread__ (block_fs : block_fs_type) (file_node : file_node_type)
    (read_bytes : Int) : Except block_fs_error (List Byte) :=
  match file_node.cache with
  | some c =>
    if (size_t_cast read_bytes).toNat ≤ c.length then .ok (c.take (size_t_cast read_bytes).toNat)
    else .error .bad_memory
  | none =>
    match fseek__ file_node.data_offset with
    | .error e => .error e
    | .ok pos =>
      match fread block_fs.data_stream pos (size_t_cast read_bytes).toNat with
      | some bs => .ok bs
      | none => .error .short_read

def block_fs_fread_file (block_fs : block_fs_type) (name : filename) :
    Except block_fs_error (List Byte) :=
  match hash_get block_fs.index name with
  | .error e => .error e
  | .ok h =>
    let node := node_at block_fs.file_nodes h
    block_fs_fread__ block_fs node node.data_size

def block_fs_get_filesize (block_fs : block_fs_type) (name : filename) :
    Except block_fs_error Int :=
  match hash_get block_fs.index name with
  | .error e => .error e
  | .ok h => .ok (node_at block_fs.file_nodes h).data_size

/-- The function `block_fs_alloc_empty`; `data_owner` is the outcome of `util_try_lockf`. The
fragmentation limit is one, whatever the caller asks for. -/
def block_fs_alloc_empty (block_size max_cache_size : Int) (data_owner : Bool) : block_fs_type :=
  { data_stream := [], data_file_size := 0, free_size := 0, block_size := block_size,
    num_free_nodes := 0, index := [], free_nodes := [], file_nodes := [], write_count := 0,
    max_cache_size := max_cache_size, fragmentation_limit := 1, data_owner := data_owner }

/-- The store `block_fs_mount` returns for a mount file which does not exist yet, when the
lock is acquired: `block_fs_alloc_empty` and a new, empty data file. -/
def block_fs_mount_empty (block_size max_cache_size : Int) : block_fs_type :=
  block_fs_alloc_empty block_size max_cache_size true

/-! ## The recovery scan -/

/-- The loop of `block_fs_fseek_valid_node`; every round reads one byte, so a number of rounds
above the length of the file is never used up. The result is the return value and the
position of the stream. -/
def block_fs_fseek_valid_node_loop (stream : List Byte) : Nat → Int → Bool × Int
  | 0, _ => (false, stream.length)
  | fuel + 1, pos =>
    match fread stream pos 1 with
    | some [byte] =>
      let pos1 := pos + 1
      if byte = NODE_IN_USE_BYTE ∨ byte = NODE_FREE_BYTE then
        match fread stream (pos1 - 1) 4 with
        | some bs =>
          let status := bytes_to_int bs
          if status = node_status_type.NODE_IN_USE.toInt ∨ status = (NODE_FREE_BYTE.val : Int) then
            (true, pos1 - 1 + 4 - 4)
          else block_fs_fseek_valid_node_loop stream fuel pos1
        | none => (false, stream.length)
      else block_fs_fseek_valid_node_loop stream fuel pos1
    | _ => (false, stream.length)

def block_fs_fseek_valid_node (stream : List Byte) (pos : Int) : Bool × Int :=
  block_fs_fseek_valid_node_loop stream (stream.length + 1) pos

/-- The loop of `block_fs_build_index`, run for at most `fuel` rounds, on the stream
`block_fs.data_stream` at position `pos`. The result is the store, the position of the
stream and the list of the offsets in error. -/
def block_fs_build_index_loop : Nat → block_fs_type → Int → Option filename → List Int →
    Except block_fs_error (block_fs_type × Int × List Int)
  | 0, _, _, _, _ => .error .out_of_fuel
  | fuel + 1, block_fs, pos, name, error_offset =>
    match file_node_fread_alloc block_fs.data_stream pos name with
    | .error e => .error e
    | .ok (none, _, pos1) => .ok (block_fs, pos1, error_offset)
    | .ok (some file_node, name1, pos1) =>
      if file_node.status = .NODE_INVALID ∨ file_node.status = .NODE_WRITE_ACTIVE then
        block_fs_build_index_loop fuel block_fs
          (block_fs_fseek_valid_node block_fs.data_stream pos1).2 name1
          (error_offset ++ [file_node.node_offset])
      else
        match file_node_verify_end_tag file_node block_fs.data_stream with
        | .error e => .error e
        | .ok (true, _) =>
          match fseek__ (file_node.node_offset + file_node.node_size) with
          | .error e => .error e
          | .ok pos2 =>
            let fs1 := block_fs_install_node block_fs file_node
            let h := block_fs.file_nodes.length
            match file_node.status with
            | .NODE_IN_USE =>
              match name1 with
              | some key =>
                block_fs_build_index_loop fuel (block_fs_insert_index_node fs1 key h) pos2 name1
                  error_offset
              | none => .error .bad_memory
            | .NODE_FREE =>
              match block_fs_insert_free_node fs1 h with
              | .error e => .error e
              | .ok fs2 => block_fs_build_index_loop fuel fs2 pos2 name1 error_offset
            | _ => .error .bad_status
        | .ok (false, pos2) =>
          block_fs_build_index_loop fuel block_fs
            (block_fs_fseek_valid_node block_fs.data_stream pos2).2 name1
            (error_offset ++ [file_node.node_offset])

/-- The function `block_fs_build_index` on a stream which has just been opened. -/
def block_fs_build_index (fuel : Nat) (block_fs : block_fs_type) (error_offset : List Int) :
    Except block_fs_error (block_fs_type × Int × List Int) :=
  block_fs_build_index_loop fuel block_fs 0 none error_offset

/-- The first part of `block_fs_mount` for a data file with the content `stream`:
`block_fs_alloc_empty`, `block_fs_open_data` and `block_fs_build_index`. -/
def block_fs_mount_scan (fuel : Nat) (block_size max_cache_size : Int) (data_owner : Bool)
    (stream : List Byte) : Except block_fs_error (block_fs_type × Int × List Int) :=
  block_fs_build_index fuel
    { block_fs_alloc_empty block_size max_cache_size data_owner with data_stream := stream } []

/-- The stores reached from a freshly mounted empty owner store by calls of
`block_fs_fwrite_file` and `block_fs_unlink_file` which return. -/
inductive reachable (null_on_zero : Bool) (block_size max_cache_size : Int) :
    block_fs_type → Prop where
  | mount : reachable null_on_zero block_size max_cache_size
      (block_fs_mount_empty block_size max_cache_size)
  | fwrite {s s1 : block_fs_type} (name : filename) (ptr : List Byte) :
      reachable null_on_zero block_size max_cache_size s →
      block_fs_fwrite_file null_on_zero s name ptr = .ok s1 →
      reachable null_on_zero block_size max_cache_size s1
  | unlink {s s1 : block_fs_type} (name : filename) :
      reachable null_on_zero block_size max_cache_size s →
      block_fs_unlink_file s name = .ok s1 →
      reachable null_on_zero block_size max_cache_size s1

/-! ## The points at which a write can stop -/

/-- The data file after the first `n` steps of `file_node_fwrite`: the writes of the status,
of the key (for a node in use), of the node size and of the data size, the seek to the last
word of the node, and the write of the end tag. The stream is buffered: the words of the
header stay in its buffer and reach the file together at the seek, the fifth step. -/
def file_node_fwrite_upto (n : Nat) (file_node : file_node_type) (key : Option filename)
    (stream : List Byte) : Except block_fs_error (List Byte) :=
  if file_node.node_size = 0 then .error .zero_size
  else
    match fseek__ file_node.node_offset with
    | .error e => .error e
    | .ok pos0 =>
      if n = 0 then .ok stream
      else
        let r1 := util_fwrite_int file_node.status.toInt stream pos0
        if n = 1 then .ok stream
        else
          let r2 : Except block_fs_error (List Byte × Int) :=
            if file_node.status = .NODE_IN_USE then
              match key with
              | some k => .ok (util_fwrite_string k r1.1 r1.2)
              | none => .error .bad_memory
            else .ok r1
          match r2 with
          | .error e => .error e
          | .ok r2 =>
            if n ≤ 4 then .ok stream
            else
              let r3 := util_fwrite_int file_node.node_size r2.1 r2.2
              let r4 := util_fwrite_int file_node.data_size r3.1 r3.2
              match fseek__ (file_node.node_offset + file_node.node_size - 4) with
              | .error e => .error e
              | .ok pos5 =>
                if n = 5 then .ok r4.1
                else .ok (util_fwrite_int NODE_END_TAG r4.1 pos5).1

/-- The points between the two `fsync` calls of `block_fs_fwrite__`, behind
`file_node_init_fwrite`, at which the data file is looked at. The stream is buffered, and
what has been written to it reaches the file at the next seek at the latest: `start` is the
file with the first tag of `file_node_init_fwrite`, while the second tag is in the buffer;
`payload k` is the file with both tags and the first `k` bytes of the payload; `header n` is
the file with both tags and the payload after the first `n` steps of `file_node_fwrite`. -/
inductive crash_point where
  | start
  | payload (k : Nat)
  | header (n : Nat)
  deriving DecidableEq, Repr

/-- The data file when `block_fs_fwrite__` stops at the point `c` (none when the call does not
get there). -/
def block_fs_fwrite_crash (block_fs : block_fs_type) (name : filename) (h : Nat)
    (ptr : List Byte) (c : crash_point) : Option (List Byte) :=
  let node := node_at block_fs.file_nodes h
  let data_size : Int := ptr.length
  if node.cache_size = data_size ∧ memcmp_eq ptr node.cache data_size = true then none
  else
    match fseek__ node.node_offset with
    | .error _ => none
    | .ok _ =>
      let node1 := file_node_set_data_offset
        { node with status := .NODE_IN_USE, data_size := data_size } name
      match file_node_init_fwrite node1 block_fs.data_stream with
      | .error _ => none
      | .ok stream1 =>
        match fseek__ node1.data_offset with
        | .error _ => none
        | .ok pos =>
          match c with
          | .start =>
            some (util_fwrite_int NODE_WRITE_ACTIVE_START block_fs.data_stream
              node1.node_offset).1
          | .payload k => if k ≤ ptr.length then some (fwrite stream1 pos (ptr.take k)) else none
          | .header n =>
            if 1 ≤ n ∧ n ≤ 5 then
              match file_node_fwrite_upto n node1 (some name) (fwrite stream1 pos ptr) with
              | .ok stream => some stream
              | .error _ => none
            else none

/-- The data file when `block_fs_fwrite_file`, called with a name which is not in the index,
stops at the point `c` of its `block_fs_fwrite__`. -/
def block_fs_fwrite_file_crash (block_fs : block_fs_type) (name : filename) (ptr : List Byte)
    (c : crash_point) : Option (List Byte) :=
  if block_fs.data_owner = true ∧ block_fs_has_file block_fs name = false then
    match block_fs_get_new_node block_fs (ptr.length + file_node_header_size name) with
    | .error _ => none
    | .ok (fs2, new_node) => block_fs_fwrite_crash fs2 name new_node ptr c
  else none


/-! ## The lock, the mount map and the preload -/

/-- The function `block_fs_aquire_wlock`, the first statement of `block_fs_fwrite_file` and
of `block_fs_unlink_file`: it returns on a data owner and aborts otherwise. The lock is no
part of the state, so the function has no effect on the store. -/
def block_fs_aquire_wlock (block_fs : block_fs_type) : Except block_fs_error Unit :=
  if block_fs.data_owner = true then .ok () else .error .read_only

/-- The function `block_fs_fwrite_mount_info__`: the content of the mount file, which is
opened with the mode "w". -/
def block_fs_fwrite_mount_info__ (version : Int) : List Byte :=
  let r1 := util_fwrite_int MOUNT_MAP_MAGIC_INT [] 0
  (util_fwrite_int version r1.1 r1.2).1

/-- The block of `block_fs_alloc_empty` which reads the mount file: the version of the store,
and the abort when the first word is not `MOUNT_MAP_MAGIC_INT`. -/
def block_fs_alloc_empty_mount_info (mount_file : List Byte) : Except block_fs_error Int :=
  match util_fread_int mount_file 0 with
  | .error e => .error e
  | .ok (id, pos) =>
    match util_fread_int mount_file pos with
    | .error e => .error e
    | .ok (version, _) =>
      if id ≠ MOUNT_MAP_MAGIC_INT then .error .mount_map else .ok version

/-- The first statement of `block_fs_mount`: a mount file which does not exist (`none`) is
written by `block_fs_fwrite_mount_info__` with the version 0. The result is the mount file
which `block_fs_alloc_empty` reads. -/
def block_fs_mount_mount_file (mount_file : Option (List Byte)) : List Byte :=
  match mount_file with
  | none => block_fs_fwrite_mount_info__ 0
  | some f => f

/-- The loop of `block_fs_preload` over the nodes of the index, in the order of the list
`index`; `buffer` holds the data file. The bytes `&buffer[node->data_offset]` which
`file_node_update_cache` copies have to lie in the buffer. -/
def block_fs_preload_loop (null_on_zero : Bool) (max_cache_size : Int) (buffer : List Byte) :
    List (filename × Nat) → List file_node_type → Except block_fs_error (List file_node_type)
  | [], file_nodes => .ok file_nodes
  | (_, h) :: rest, file_nodes =>
    let node := node_at file_nodes h
    if node.data_size < max_cache_size then
      if node.data_size = 0 ∨ (0 < node.data_size ∧ 0 ≤ node.data_offset ∧
          node.data_offset + node.data_size ≤ buffer.length) then
        block_fs_preload_loop null_on_zero max_cache_size buffer rest
          (file_nodes.set h (file_node_update_cache null_on_zero node node.data_size
            (buffer.drop node.data_offset.toNat)))
      else .error .bad_memory
    else block_fs_preload_loop null_on_zero max_cache_size buffer rest file_nodes

/-- The function `block_fs_preload`; `malloc_ok` says whether `malloc` has returned a buffer
for the data file. The function opens a stream of its own on the file `block_fs->data_file`
and reads the file in one go from its start: `data_file` is the content of that file, in
which the bytes that a write has left in the buffer of `block_fs->data_stream` are not. -/
def block_fs_preload (null_on_zero malloc_ok : Bool) (block_fs : block_fs_type)
    (data_file : List Byte) : Except block_fs_error block_fs_type :=
  if 0 < block_fs.max_cache_size then
    if malloc_ok = true then
      match fread data_file 0 (size_t_cast block_fs.data_file_size).toNat with
      | none => .error .short_read
      | some buffer =>
        match block_fs_preload_loop null_on_zero block_fs.max_cache_size buffer block_fs.index
            block_fs.file_nodes with
        | .error e => .error e
        | .ok file_nodes => .ok { block_fs with file_nodes := file_nodes }
    else .ok block_fs
  else .ok block_fs

/-- The function `block_fs_mount` for a mount file which does not exist yet, with the lock
acquired. `block_fs_alloc_empty` gets the argument `fragmentation_limit` and does not use it:
its assignment is `block_fs->fragmentation_limit = 1.0; //fragmentation_limit`. The data file
is new and empty, so that `block_fs_build_index`, `block_fs_fix_nodes` and `block_fs_preload`
find nothing to do, whatever `preload` is. -/
def block_fs_mount_new (block_size max_cache_size : Int) (_fragmentation_limit : Rat)
    (_preload : Bool) : block_fs_type :=
  block_fs_mount_empty block_size max_cache_size

/-! ## The repair of the nodes in error -/

/-- The function `block_fs_lookup_free_node`: the first node of the free list at the offset
`node_offset`, none for NULL. -/
def block_fs_lookup_free_node (block_fs : block_fs_type) (node_offset : Int) : Option Nat :=
  block_fs.free_nodes.find?
    (fun current => decide ((node_at block_fs.file_nodes current).node_offset = node_offset))

/-- One round of the loop of `block_fs_fix_nodes`, for the offset `node_offset` of the list;
`key` is the variable of that name. A node which `file_node_fread_alloc` does not return is
NULL, and the use of its status is the error `bad_memory`. The result is the store and the
key. -/
def block_fs_fix_node (block_fs : block_fs_type) (key : Option filename) (node_offset : Int) :
    Except block_fs_error (block_fs_type × Option filename) :=
  match fseek__ node_offset with
  | .error e => .error e
  | .ok pos =>
    match file_node_fread_alloc block_fs.data_stream pos key with
    | .error e => .error e
    | .ok (none, _, _) => .error .bad_memory
    | .ok (some file_node, key1, pos1) =>
      let file_node1 : file_node_type :=
        if file_node.status = .NODE_INVALID ∨ file_node.status = .NODE_WRITE_ACTIVE then
          let node_end := (block_fs_fseek_valid_node block_fs.data_stream pos1).2
          { file_node with node_size := node_end - node_offset }
        else file_node
      let file_node2 : file_node_type :=
        { file_node1 with status := .NODE_FREE, data_size := 0, data_offset := 0 }
      let r : Except block_fs_error block_fs_type :=
        if block_fs_lookup_free_node block_fs node_offset = none then
          block_fs_insert_free_node (block_fs_install_node block_fs file_node2)
            block_fs.file_nodes.length
        else .ok block_fs
      match r with
      | .error e => .error e
      | .ok fs1 =>
        match fseek__ node_offset with
        | .error e => .error e
        | .ok _ =>
          match file_node_fwrite file_node2 none fs1.data_stream with
          | .error e => .error e
          | .ok stream => .ok ({ fs1 with data_stream := stream }, key1)

/-- The loop of `block_fs_fix_nodes` over the offsets of the list. -/
def block_fs_fix_nodes_loop :
    block_fs_type → Option filename → List Int → Except block_fs_error block_fs_type
  | block_fs, _, [] => .ok block_fs
  | block_fs, key, node_offset :: rest =>
    match block_fs_fix_node block_fs key node_offset with
    | .error e => .error e
    | .ok (fs1, key1) => block_fs_fix_nodes_loop fs1 key1 rest

/-- The function `block_fs_fix_nodes`: a store which is not the owner of the data is left as
it is. -/
def block_fs_fix_nodes (block_fs : block_fs_type) (offset_list : List Int) :
    Except block_fs_error block_fs_type :=
  if block_fs.data_owner = true then block_fs_fix_nodes_loop block_fs none offset_list
  else .ok block_fs
/-! ## Predicates on stores -/

/-- The offset and the size of every node of the vector, in the order of the vector. -/
def geometry (file_nodes : List file_node_type) : List (Int × Int) :=
  file_nodes.map (fun n => (n.node_offset, n.node_size))

/-- The size of the node behind a handle. -/
def node_size_at (file_nodes : List file_node_type) (h : Nat) : Int :=
  (node_at file_nodes h).node_size

/-- The regions `(offset, size)` lie one after the other from `start` to `stop`, each of them
large enough for a header. -/
def tiles : List (Int × Int) → Int → Int → Prop
  | [], start, stop => start = stop
  | g :: rest, start, stop => g.1 = start ∧ 21 ≤ g.2 ∧ tiles rest (start + g.2) stop

/-- The sum of the node sizes over a list of handles. -/
def size_sum (file_nodes : List file_node_type) (l : List Nat) : Int :=
  (l.map (node_size_at file_nodes)).sum

/-- The handles to which the index refers. -/
def handles (index : List (filename × Nat)) : List Nat := index.map Prod.snd

/-- The free list is in the order of non-decreasing node size. -/
def free_list_sorted (file_nodes : List file_node_type) (l : List Nat) : Prop :=
  l.Pairwise (fun a b => node_size_at file_nodes a ≤ node_size_at file_nodes b)

/-- The invariant of the store between and inside the operations; `out` lists the nodes which
an operation has taken in hand and which are at that moment neither in the index nor in the
free list. -/
structure store_inv (s : block_fs_type) (out : List Nat) : Prop where
  owner : s.data_owner = true
  block : 0 < s.block_size
  limit : s.fragmentation_limit = 1
  tiling : tiles (geometry s.file_nodes) 0 s.data_file_size
  perm : List.Perm (handles s.index ++ s.free_nodes ++ out) (List.range s.file_nodes.length)
  keys : (s.index.map Prod.fst).Nodup
  num_free : s.num_free_nodes = s.free_nodes.length
  free_size_eq : s.free_size = size_sum s.file_nodes s.free_nodes
  sorted : free_list_sorted s.file_nodes s.free_nodes

/-- The store `s1` differs from `s` at most in the data file, in the write count and in the
fields of the nodes other than offset and size. -/
structure same_layout (s s1 : block_fs_type) : Prop where
  index : s1.index = s.index
  free_nodes : s1.free_nodes = s.free_nodes
  free_size : s1.free_size = s.free_size
  num_free : s1.num_free_nodes = s.num_free_nodes
  geometry : geometry s1.file_nodes = geometry s.file_nodes
  length : s1.file_nodes.length = s.file_nodes.length
  data_file_size : s1.data_file_size = s.data_file_size
  block_size : s1.block_size = s.block_size
  max_cache_size : s1.max_cache_size = s.max_cache_size
  limit : s1.fragmentation_limit = s.fragmentation_limit
  owner : s1.data_owner = s.data_owner

/-- Every successful read of `f` gives the same bytes on `g`. -/
def reads_kept (f g : List Byte) : Prop :=
  ∀ pos n bs, fread f pos n = some bs → fread g pos n = some bs

/-- The node `n` of the vector stands in the data file as a committed node: at its offset
`file_node_fread_alloc` reads a node of the same size which is free, or in use under a key
of the index, and `file_node_verify_end_tag` finds its end tag. -/
def node_committed (stream : List Byte) (index : List (filename × Nat)) (n : file_node_type) :
    Bool :=
  match file_node_fread_alloc stream n.node_offset none with
  | .ok (some n1, key1, _) =>
    decide (n1.node_size = n.node_size) &&
    (match n1.status, key1 with
      | .NODE_IN_USE, some k => hash_has_key index k
      | .NODE_FREE, _ => true
      | _, _ => false) &&
    (match file_node_verify_end_tag n1 stream with
      | .ok (true, _) => true
      | _ => false)
  | _ => false

/-- Every node of the vector stands in the data file as a committed node, and the data file
ends where the last node ends. -/
def disk_committed (s : block_fs_type) : Bool :=
  s.file_nodes.all (node_committed s.data_stream s.index) &&
    decide ((s.data_stream.length : Int) = s.data_file_size)

/-- The file after a row of writes, each given by its position and its bytes. -/
def write_list (stream : List Byte) : List (Int × List Byte) → List Byte
  | [] => stream
  | w :: rest => write_list (fwrite stream w.1 w.2) rest

/-- The writes of a `block_fs_fwrite__` which is carried out, for a node at the offset `a`
with the size `ns`: those of `file_node_init_fwrite`, the payload, and those of
`file_node_fwrite`. -/
def fwrite_writes (a ns : Int) (name : filename) (ptr : List Byte) : List (Int × List Byte) :=
  [(a, int_to_bytes NODE_WRITE_ACTIVE_START),
   (a + ns - 4, int_to_bytes NODE_WRITE_ACTIVE_END),
   (a + file_node_header_size name - 4, ptr),
   (a, int_to_bytes node_status_type.NODE_IN_USE.toInt),
   (a + 4, int_to_bytes name.length),
   (a + 4 + 4, name ++ [0]),
   (a + 4 + 4 + (name.length + 1), int_to_bytes ns),
   (a + 4 + 4 + (name.length + 1) + 4, int_to_bytes ptr.length),
   (a + ns - 4, int_to_bytes NODE_END_TAG)]

/-- The writes of the `file_node_fwrite` of `block_fs_unlink_file__` for a node at the offset
`a` with the size `ns`. -/
def unlink_writes (a ns : Int) : List (Int × List Byte) :=
  [(a, int_to_bytes node_status_type.NODE_FREE.toInt),
   (a + 4, int_to_bytes ns),
   (a + 4 + 4, int_to_bytes 0),
   (a + ns - 4, int_to_bytes NODE_END_TAG)]

/-- The file `g` holds at the offset `a` the header of a node in use of the size `ns` under
the name `name`, and the end tag in the last word of the node. -/
structure in_use_on_disk (g : List Byte) (a ns : Int) (name : filename) : Prop where
  status : fread g a 4 = some (int_to_bytes node_status_type.NODE_IN_USE.toInt)
  name_length : fread g (a + 4) 4 = some (int_to_bytes name.length)
  name_bytes : fread g (a + 4 + 4) (name.length + 1) = some (name ++ [0])
  node_size : fread g (a + 4 + 4 + (name.length + 1)) 4 = some (int_to_bytes ns)
  data_size : ∃ x, fread g (a + 4 + 4 + (name.length + 1) + 4) 4 = some x
  tail : fread g (a + ns - 4) 4 = some (int_to_bytes NODE_END_TAG)
  fits : (name.length : Int) + 21 ≤ ns

/-- The file `g` holds at the offset `a` the header of a free node of the size `ns`, and the
end tag in the last word of the node. -/
structure free_on_disk (g : List Byte) (a ns : Int) : Prop where
  status : fread g a 4 = some (int_to_bytes node_status_type.NODE_FREE.toInt)
  node_size : fread g (a + 4) 4 = some (int_to_bytes ns)
  tail : fread g (a + ns - 4) 4 = some (int_to_bytes NODE_END_TAG)
  fits : 21 ≤ ns

/-- Every node of the vector is on disk what it is in the store: a node of the index is on
disk a node in use under its name, a node of the free list is on disk a free node; the data
file ends at `data_file_size`, which is in the range of a C `int`. -/
structure disk_inv (s : block_fs_type) : Prop where
  length : (s.data_stream.length : Int) = s.data_file_size
  range : s.data_file_size ≤ 2147483647
  nodes : ∀ h, h < s.file_nodes.length →
    (∃ name, hash_lookup s.index name = some h ∧ (0 : Byte) ∉ name ∧
      in_use_on_disk s.data_stream (node_at s.file_nodes h).node_offset
        (node_at s.file_nodes h).node_size name) ∨
    (h ∈ s.free_nodes ∧
      free_on_disk s.data_stream (node_at s.file_nodes h).node_offset
        (node_at s.file_nodes h).node_size)

/-- The stores reached from a freshly mounted empty owner store by calls of
`block_fs_unlink_file` and by calls of `block_fs_fwrite_file` which are carried out: the
call counts a write, the name is a C string, and the data file stays in the range of a C
`int`. -/
inductive reachable_in_full (null_on_zero : Bool) (block_size max_cache_size : Int) :
    block_fs_type → Prop where
  | mount : reachable_in_full null_on_zero block_size max_cache_size
      (block_fs_mount_empty block_size max_cache_size)
  | fwrite {s s1 : block_fs_type} (name : filename) (ptr : List Byte) :
      reachable_in_full null_on_zero block_size max_cache_size s →
      (0 : Byte) ∉ name →
      block_fs_fwrite_file null_on_zero s name ptr = .ok s1 →
      s1.write_count = s.write_count + 1 →
      s1.data_file_size ≤ 2147483647 →
      reachable_in_full null_on_zero block_size max_cache_size s1
  | unlink {s s1 : block_fs_type} (name : filename) :
      reachable_in_full null_on_zero block_size max_cache_size s →
      block_fs_unlink_file s name = .ok s1 →
      reachable_in_full null_on_zero block_size max_cache_size s1


/-- The cache of the node `n` is in step with the sizes of the node and with the data file
`stream`: a node without cache has the cache size zero; a cache has `cache_size` bytes, at
most `max_cache_size`; and the node of a cache has either no payload, or a payload of the
size of the cache which lies in the region of the node and consists, in the data file, of the
bytes of the cache. -/
structure node_cache_ok (stream : List Byte) (max_cache_size : Int) (n : file_node_type) :
    Prop where
  absent : n.cache = none → n.cache_size = 0
  length : ∀ c, n.cache = some c → (c.length : Int) = n.cache_size
  bound : ∀ c, n.cache = some c → n.cache_size ≤ max_cache_size
  disk : ∀ c, n.cache = some c →
    (n.data_size = 0 ∧ 0 ≤ n.data_offset ∧ n.data_offset ≤ stream.length) ∨
    (n.data_size = n.cache_size ∧ n.node_offset ≤ n.data_offset ∧
      n.data_offset + n.data_size ≤ n.node_offset + n.node_size ∧
      fread stream n.data_offset n.data_size.toNat = some c)

/-- The caches of all nodes are in step with the data file, and every node of the index has
room for the header of its name and for as many bytes as its cache size says. -/
structure cache_inv (s : block_fs_type) : Prop where
  nodes : ∀ h, h < s.file_nodes.length →
    node_cache_ok s.data_stream s.max_cache_size (node_at s.file_nodes h)
  room : ∀ name h, hash_lookup s.index name = some h →
    file_node_header_size name + (node_at s.file_nodes h).cache_size
      ≤ (node_at s.file_nodes h).node_size

/-- A store as `block_fs_preload` finds it after the scan of a data file which holds the
payload of every node of the index: no node has a cache, the index refers to the nodes of
the vector, to each of them once, the data file `data_file` has `data_file_size` bytes or
more, and the payload of every node of the index lies in the first `data_file_size` bytes. -/
structure preload_ready (s : block_fs_type) (data_file : List Byte) : Prop where
  fresh : ∀ h, h < s.file_nodes.length →
    (node_at s.file_nodes h).cache = none ∧ (node_at s.file_nodes h).cache_size = 0
  nodup : (handles s.index).Nodup
  valid : ∀ h ∈ handles s.index, h < s.file_nodes.length
  file : 0 ≤ s.data_file_size ∧ s.data_file_size ≤ data_file.length
  payload : ∀ h ∈ handles s.index, 0 ≤ (node_at s.file_nodes h).data_size ∧
    0 ≤ (node_at s.file_nodes h).data_offset ∧
    (node_at s.file_nodes h).data_offset + (node_at s.file_nodes h).data_size
      ≤ s.data_file_size

/-- The node as a `block_fs_fwrite__` which is carried out leaves it: status, data size and
data offset are set, and the cache is updated or cleared. -/
def fwrite_node (null_on_zero : Bool) (max_cache_size : Int) (node : file_node_type)
    (name : filename) (ptr : List Byte) : file_node_type :=
  if (ptr.length : Int) ≤ max_cache_size then
    file_node_update_cache null_on_zero
      (file_node_set_data_offset
        { node with status := .NODE_IN_USE, data_size := (ptr.length : Int) } name)
      ptr.length ptr
  else
    file_node_clear_cache
      (file_node_set_data_offset
        { node with status := .NODE_IN_USE, data_size := (ptr.length : Int) } name)

/-- The files `f` and `g` have the same length and the same bytes from the position `p`
on. -/
def agree_from (p : Int) (f g : List Byte) : Prop :=
  f.length = g.length ∧ ∀ q n, p ≤ q → fread f q n = fread g q n

/-- The node size which a round of `block_fs_fix_nodes` gives to the node at `node_offset`:
for a status word which is not known or which is that of a write in progress, the distance
to the position at which `block_fs_fseek_valid_node` stops; for a node in use or a free node,
the node size of the header. -/
def fix_node_size (stream : List Byte) (node_offset : Int) : Option Int :=
  match file_node_fread_alloc stream node_offset none with
  | .ok (some file_node, _, pos1) =>
    if file_node.status = .NODE_INVALID ∨ file_node.status = .NODE_WRITE_ACTIVE then
      some ((block_fs_fseek_valid_node stream pos1).2 - node_offset)
    else some file_node.node_size
  | _ => none

/-- The offsets of the list are in ascending order from `lo` on, the size of the region
which `block_fs_fix_nodes` gives to each of them is 16 bytes or more and in the range of a C
`int`, the region ends at or in front of the next offset, and no insert into the free list
meets the fragmentation test; `free_size` and `data_file_size` are those of the store in
front of the round. -/
def fix_regions (stream : List Byte) (limit : Int) :
    Int → Int → Int → List Int → Bool
  | _, _, _, [] => true
  | lo, free_size, data_file_size, node_offset :: rest =>
    match fix_node_size stream node_offset with
    | some node_size =>
      decide (lo ≤ node_offset) && decide (16 ≤ node_size) &&
      decide (node_size ≤ 2147483647) &&
      !fragmentation_exceeded (free_size + node_size)
        (util_size_t_max data_file_size (node_offset + node_size)) limit &&
      fix_regions stream limit (node_offset + node_size) (free_size + node_size)
        (util_size_t_max data_file_size (node_offset + node_size)) rest
    | none => false

/-- The file `g` holds at the offset `a` a well-formed free region of the size `ns`: the
status word `NODE_FREE`, the node size, the data size 0, and the end tag in the last word. -/
structure free_region (g : List Byte) (a ns : Int) : Prop where
  status : fread g a 4 = some (int_to_bytes node_status_type.NODE_FREE.toInt)
  node_size : fread g (a + 4) 4 = some (int_to_bytes ns)
  data_size : fread g (a + 4 + 4) 4 = some (int_to_bytes 0)
  tail : fread g (a + ns - 4) 4 = some (int_to_bytes NODE_END_TAG)

/-- A call of the interface which changes the store. -/
inductive block_fs_call where
  | fwrite_file (name : filename) (ptr : List Byte)
  | unlink_file (name : filename)
  deriving DecidableEq, Repr

/-- The store after a sequence of calls, when all of them return. -/
def run_calls (null_on_zero : Bool) :
    block_fs_type → List block_fs_call → Except block_fs_error block_fs_type
  | s, [] => .ok s
  | s, .fwrite_file name ptr :: rest =>
    match block_fs_fwrite_file null_on_zero s name ptr with
    | .ok s1 => run_calls null_on_zero s1 rest
    | .error e => .error e
  | s, .unlink_file name :: rest =>
    match block_fs_unlink_file s name with
    | .ok s1 => run_calls null_on_zero s1 rest
    | .error e => .error e

/-- The store with block size 32 and no cache after the write of the three bytes 1, 2, 3
under the name "a". -/
def store_a : block_fs_type :=
  { data_stream := [85, 85, 85, 85, 1, 0, 0, 0, 97, 0, 32, 0, 0, 0, 3, 0, 0, 0, 1, 2, 3, 0, 0,
      0, 0, 0, 0, 0, 255, 0, 255, 0],
    data_file_size := 32, free_size := 0, block_size := 32, num_free_nodes := 0,
    index := [([97], 0)], free_nodes := [],
    file_nodes := [{ node_offset := 0, data_offset := 18, node_size := 32, data_size := 3,
                     status := .NODE_IN_USE, cache := none, cache_size := 0 }],
    write_count := 1, max_cache_size := 0, fragmentation_limit := 1, data_owner := true }

/-- The store `store_a` after the unlink of the name "a". -/
def store_a_unlinked : block_fs_type :=
  { data_stream := [170, 170, 170, 170, 32, 0, 0, 0, 0, 0, 0, 0, 0, 0, 3, 0, 0, 0, 1, 2, 3, 0,
      0, 0, 0, 0, 0, 0, 255, 0, 255, 0],
    data_file_size := 32, free_size := 32, block_size := 32, num_free_nodes := 1,
    index := [], free_nodes := [0],
    file_nodes := [{ node_offset := 0, data_offset := 0, node_size := 32, data_size := 0,
                     status := .NODE_FREE, cache := none, cache_size := 0 }],
    write_count := 1, max_cache_size := 0, fragmentation_limit := 1, data_owner := true }

/-- The data file of `store_a` with the region of a write of 1, 2, 3 under the new name "b"
behind it: the two tags of `file_node_init_fwrite` and the first two bytes of the payload
are in the file. -/
def store_a_crash_payload : List Byte :=
  [85, 85, 85, 85, 1, 0, 0, 0, 97, 0, 32, 0, 0, 0, 3, 0, 0, 0, 1, 2, 3, 0, 0, 0, 0, 0, 0, 0,
    255, 0, 255, 0, 106, 45, 1, 0, 0, 0, 0, 0, 0, 0, 0, 0, 0, 0, 0, 0, 0, 0, 1, 2, 0, 0, 0, 0,
    0, 0, 0, 0, 64, 217, 11, 0]

/-- The store with block size 64 and no cache after the write of the three bytes 1, 2, 3
under the name "a". -/
def store_a64 : block_fs_type :=
  { data_stream := [85, 85, 85, 85, 1, 0, 0, 0, 97, 0, 64, 0, 0, 0, 3, 0, 0, 0, 1, 2, 3]
      ++ List.replicate 39 0 ++ [255, 0, 255, 0],
    data_file_size := 64, free_size := 0, block_size := 64, num_free_nodes := 0,
    index := [([97], 0)], free_nodes := [],
    file_nodes := [{ node_offset := 0, data_offset := 18, node_size := 64, data_size := 3,
                     status := .NODE_IN_USE, cache := none, cache_size := 0 }],
    write_count := 1, max_cache_size := 0, fragmentation_limit := 1, data_owner := true }

/-- The store with block size 32 and a cache of 8 bytes after the write of the three bytes
1, 2, 3 under the name "a". -/
def store_a_cached : block_fs_type :=
  { data_stream := [85, 85, 85, 85, 1, 0, 0, 0, 97, 0, 32, 0, 0, 0, 3, 0, 0, 0, 1, 2, 3, 0, 0,
      0, 0, 0, 0, 0, 255, 0, 255, 0],
    data_file_size := 32, free_size := 0, block_size := 32, num_free_nodes := 0,
    index := [([97], 0)], free_nodes := [],
    file_nodes := [{ node_offset := 0, data_offset := 18, node_size := 32, data_size := 3,
                     status := .NODE_IN_USE, cache := some [1, 2, 3], cache_size := 3 }],
    write_count := 1, max_cache_size := 8, fragmentation_limit := 1, data_owner := true }

/-- The data file after the write of 1, 2, 3 and then of no bytes under the name "a", with
block size 32 and a cache of 8 bytes: the node of "a" has the data size 0. -/
def data_file_a_empty : List Byte :=
  [85, 85, 85, 85, 1, 0, 0, 0, 97, 0, 32, 0, 0, 0, 0, 0, 0, 0, 1, 2, 3, 0, 0, 0, 0, 0, 0, 0,
    255, 0, 255, 0]

/-- The store which the scan of the data file of `store_a` builds, with a cache of 8 bytes:
the node of "a" with its payload of 3 bytes and without cache. -/
def store_a_scanned : block_fs_type :=
  { store_a with write_count := 0, max_cache_size := 8 }

/-- A damaged data file of 32 bytes: the word `NODE_IN_USE` at the offset 0, zero bytes in
the place of the name and of the node size, the bytes 1, 2, 3 at the offset 18 and the word
`NODE_WRITE_ACTIVE_END` in the last four bytes. -/
def crash_status_image : List Byte :=
  [85, 85, 85, 85, 0, 0, 0, 0, 0, 0, 0, 0, 0, 0, 0, 0, 0, 0, 1, 2, 3, 0, 0, 0, 0, 0, 0, 0,
    64, 217, 11, 0]

/-- A damaged data file: the node of `store_a` with zero bytes in the place of its end tag,
and four more zero bytes behind it. -/
def damaged_a_image : List Byte :=
  [85, 85, 85, 85, 1, 0, 0, 0, 97, 0, 32, 0, 0, 0, 3, 0, 0, 0, 1, 2, 3, 0, 0, 0, 0, 0, 0, 0,
    0, 0, 0, 0, 0, 0, 0, 0]

/-- A damaged data file of 64 bytes: the node of "a" of `store_a`, and behind it the header
of a node in use under the name "b" with the node size 64, which ends 32 bytes behind the
end of the file. -/
def short_node_image : List Byte :=
  [85, 85, 85, 85, 1, 0, 0, 0, 97, 0, 32, 0, 0, 0, 3, 0, 0, 0, 1, 2, 3, 0, 0, 0, 0, 0, 0, 0,
    255, 0, 255, 0, 85, 85, 85, 85, 1, 0, 0, 0, 98, 0, 64, 0, 0, 0, 3, 0, 0, 0, 1, 2, 3, 0, 0,
    0, 0, 0, 0, 0, 0, 0, 0, 0]

/-- The store which the scan builds of the data file `store_a_crash_payload`: the node of
"a", and behind it the region of the write which has stopped. -/
def store_a_torn : block_fs_type :=
  { store_a with data_stream := store_a_crash_payload, write_count := 0 }

/-- The data file of `store_a` when the next write stops in `file_node_init_fwrite`, after
the tag at the start of the new node and before the tag at its end: the file ends with the
four bytes of `NODE_WRITE_ACTIVE_START`. -/
def torn_start_image : List Byte :=
  store_a.data_stream ++ [106, 45, 1, 0]

/-- A damaged data file of 64 bytes: the node of "a" of `store_a`, and behind it the word
`NODE_IN_USE`, zero bytes in the place of the name and of the node size, the bytes 1, 2, 3
and the word `NODE_WRITE_ACTIVE_END` in the last four bytes. -/
def store_a_crash_status : List Byte :=
  [85, 85, 85, 85, 1, 0, 0, 0, 97, 0, 32, 0, 0, 0, 3, 0, 0, 0, 1, 2, 3, 0, 0, 0, 0, 0, 0, 0,
    255, 0, 255, 0, 85, 85, 85, 85, 0, 0, 0, 0, 0, 0, 0, 0, 0, 0, 0, 0, 0, 0, 1, 2, 3, 0, 0,
    0, 0, 0, 0, 0, 64, 217, 11, 0]
/-! ## Lemmas on nodes, handles and regions -/

theorem node_at_append_left (nodes : List file_node_type) (n : file_node_type) (h : Nat)
    (hh : h < nodes.length) : node_at (nodes ++ [n]) h = node_at nodes h := by
  unfold node_at
  rw [List.getElem?_append_left hh]

theorem node_at_append_length (nodes : List file_node_type) (n : file_node_type) :
    node_at (nodes ++ [n]) nodes.length = n := by
  unfold node_at
  rw [List.getElem?_append_right (Nat.le_refl _)]
  simp

theorem node_at_set_self (nodes : List file_node_type) (n : file_node_type) (h : Nat)
    (hh : h < nodes.length) : node_at (nodes.set h n) h = n := by
  unfold node_at
  rw [List.getElem?_set_self hh]
  rfl

theorem node_at_set_ne (nodes : List file_node_type) (n : file_node_type) (h k : Nat)
    (hk : h ≠ k) : node_at (nodes.set h n) k = node_at nodes k := by
  unfold node_at
  rw [List.getElem?_set_ne hk]

theorem geometry_set (nodes : List file_node_type) (h : Nat) (n : file_node_type)
    (ho : n.node_offset = (node_at nodes h).node_offset)
    (hs : n.node_size = (node_at nodes h).node_size) :
    geometry (nodes.set h n) = geometry nodes := by
  by_cases hh : h < nodes.length
  · unfold geometry
    apply List.ext_getElem?
    intro i
    by_cases hi : h = i
    · subst hi
      have e : node_at nodes h = nodes[h] := by
        unfold node_at
        rw [List.getElem?_eq_getElem hh]
        rfl
      rw [e] at ho hs
      rw [List.getElem?_map, List.getElem?_set_self hh, List.getElem?_map,
        List.getElem?_eq_getElem hh]
      simp [ho, hs]
    · rw [List.getElem?_map, List.getElem?_set_ne hi, List.getElem?_map]
  · rw [List.set_eq_of_length_le (Nat.le_of_not_lt hh)]

theorem node_size_at_eq_geometry (nodes : List file_node_type) (h : Nat) :
    node_size_at nodes h = (((geometry nodes)[h]?).getD (0, 0)).2 := by
  unfold node_size_at node_at geometry
  by_cases hh : h < nodes.length
  · simp [List.getElem?_eq_getElem hh]
  · simp [List.getElem?_eq_none (Nat.le_of_not_lt hh), file_node_alloc]

theorem node_size_at_congr (nodes nodes1 : List file_node_type)
    (hg : geometry nodes1 = geometry nodes) (h : Nat) :
    node_size_at nodes1 h = node_size_at nodes h := by
  rw [node_size_at_eq_geometry, node_size_at_eq_geometry, hg]

theorem node_offset_eq_geometry (nodes : List file_node_type) (h : Nat) :
    (node_at nodes h).node_offset = (((geometry nodes)[h]?).getD (0, 0)).1 := by
  unfold node_at geometry
  by_cases hh : h < nodes.length
  · simp [List.getElem?_eq_getElem hh]
  · simp [List.getElem?_eq_none (Nat.le_of_not_lt hh), file_node_alloc]

theorem size_sum_congr (nodes nodes1 : List file_node_type) (l : List Nat)
    (hg : ∀ h ∈ l, node_size_at nodes1 h = node_size_at nodes h) :
    size_sum nodes1 l = size_sum nodes l := by
  unfold size_sum
  rw [List.map_congr_left hg]

theorem free_list_sorted_congr (nodes nodes1 : List file_node_type) (l : List Nat)
    (hg : ∀ h ∈ l, node_size_at nodes1 h = node_size_at nodes h)
    (hs : free_list_sorted nodes l) : free_list_sorted nodes1 l := by
  unfold free_list_sorted at *
  refine List.Pairwise.imp_of_mem ?_ hs
  intro a b ha hb hab
  rw [hg a ha, hg b hb]
  exact hab

theorem tiles_append (G : List (Int × Int)) (g : Int × Int) (a b : Int) :
    tiles (G ++ [g]) a b ↔ ∃ m, tiles G a m ∧ g.1 = m ∧ 21 ≤ g.2 ∧ b = m + g.2 := by
  induction G generalizing a with
  | nil =>
    simp only [List.nil_append, tiles]
    constructor
    · rintro ⟨h1, h2, h3⟩
      exact ⟨a, rfl, h1, h2, h3.symm⟩
    · rintro ⟨m, h1, h2, h3, h4⟩
      subst h1
      exact ⟨h2, h3, h4.symm⟩
  | cons x rest ih =>
    have e : (x :: rest) ++ [g] = x :: (rest ++ [g]) := rfl
    rw [e]
    simp only [tiles]
    rw [ih]
    constructor
    · rintro ⟨h1, h2, m, h3, h4⟩
      exact ⟨m, ⟨h1, h2, h3⟩, h4⟩
    · rintro ⟨m, ⟨h1, h2, h3⟩, h4⟩
      exact ⟨h1, h2, m, h3, h4⟩

theorem tiles_le (G : List (Int × Int)) (a b : Int) (ht : tiles G a b) : a ≤ b := by
  induction G generalizing a with
  | nil => simp only [tiles] at ht; omega
  | cons x rest ih =>
    obtain ⟨_, h2, h3⟩ := ht
    have := ih _ h3
    omega

theorem tiles_mem (G : List (Int × Int)) (a b : Int) (ht : tiles G a b) (g : Int × Int)
    (hg : g ∈ G) : a ≤ g.1 ∧ 21 ≤ g.2 ∧ g.1 + g.2 ≤ b := by
  induction G generalizing a with
  | nil => simp at hg
  | cons x rest ih =>
    obtain ⟨h1, h2, h3⟩ := ht
    rcases List.mem_cons.mp hg with e | e
    · subst e
      have := tiles_le _ _ _ h3
      omega
    · have := ih _ h3 e
      omega

theorem tiles_sum (G : List (Int × Int)) (a b : Int) (ht : tiles G a b) :
    (G.map Prod.snd).sum = b - a := by
  induction G generalizing a with
  | nil => simp only [tiles] at ht; simp; omega
  | cons x rest ih =>
    obtain ⟨_, _, h3⟩ := ht
    have := ih _ h3
    simp only [List.map_cons, List.sum_cons]
    omega

theorem geometry_getElem? (nodes : List file_node_type) (h : Nat) (hh : h < nodes.length) :
    (((geometry nodes)[h]?).getD (0, 0)) ∈ geometry nodes := by
  have hl : h < (geometry nodes).length := by simpa [geometry] using hh
  rw [List.getElem?_eq_getElem hl]
  exact List.getElem_mem hl

theorem node_size_at_ge (nodes : List file_node_type) (a b : Int)
    (ht : tiles (geometry nodes) a b) (h : Nat) (hh : h < nodes.length) :
    21 ≤ node_size_at nodes h ∧ a ≤ (node_at nodes h).node_offset ∧
      (node_at nodes h).node_offset + node_size_at nodes h ≤ b := by
  have hm := tiles_mem _ _ _ ht _ (geometry_getElem? nodes h hh)
  rw [node_size_at_eq_geometry, node_offset_eq_geometry]
  omega

theorem node_size_at_nonneg (nodes : List file_node_type) (a b : Int)
    (ht : tiles (geometry nodes) a b) (h : Nat) : 0 ≤ node_size_at nodes h := by
  by_cases hh : h < nodes.length
  · have := node_size_at_ge nodes a b ht h hh
    omega
  · unfold node_size_at node_at
    simp [List.getElem?_eq_none (Nat.le_of_not_lt hh), file_node_alloc]

theorem size_sum_nonneg (nodes : List file_node_type) (a b : Int)
    (ht : tiles (geometry nodes) a b) (l : List Nat) : 0 ≤ size_sum nodes l := by
  induction l with
  | nil => simp [size_sum]
  | cons x rest ih =>
    have := node_size_at_nonneg nodes a b ht x
    simp only [size_sum, List.map_cons, List.sum_cons] at *
    omega

theorem size_sum_range (nodes : List file_node_type) :
    size_sum nodes (List.range nodes.length) = ((geometry nodes).map Prod.snd).sum := by
  have : (List.range nodes.length).map (node_size_at nodes) = (geometry nodes).map Prod.snd := by
    apply List.ext_getElem?
    intro i
    by_cases hi : i < nodes.length
    · simp [List.getElem?_map, List.getElem?_range hi, node_size_at, node_at, geometry,
        List.getElem?_eq_getElem hi]
    · have h1 : ((List.range nodes.length).map (node_size_at nodes)).length ≤ i := by
        simp; omega
      have h2 : ((geometry nodes).map Prod.snd).length ≤ i := by
        simp [geometry]; omega
      rw [List.getElem?_eq_none h1, List.getElem?_eq_none h2]
  unfold size_sum
  rw [this]

theorem size_sum_append (nodes : List file_node_type) (l1 l2 : List Nat) :
    size_sum nodes (l1 ++ l2) = size_sum nodes l1 + size_sum nodes l2 := by
  simp [size_sum]

theorem size_sum_perm (nodes : List file_node_type) (l1 l2 : List Nat) (hp : List.Perm l1 l2) :
    size_sum nodes l1 = size_sum nodes l2 :=
  (hp.map _).sum_eq

/-! ## Lemmas on the index and on the free list -/

theorem hash_lookup_remove_self (idx : List (filename × Nat)) (k : filename) :
    hash_lookup (hash_remove idx k) k = none := by
  induction idx with
  | nil => rfl
  | cons x rest ih =>
    obtain ⟨k1, v⟩ := x
    by_cases e : k1 = k
    · simp only [hash_remove, e, if_true, ih]
    · simp only [hash_remove, e, if_false, hash_lookup, ih]

theorem hash_lookup_remove_ne (idx : List (filename × Nat)) (k k2 : filename) (hk : k2 ≠ k) :
    hash_lookup (hash_remove idx k) k2 = hash_lookup idx k2 := by
  induction idx with
  | nil => rfl
  | cons x rest ih =>
    obtain ⟨k1, v⟩ := x
    by_cases e : k1 = k
    · have e2 : ¬ k1 = k2 := fun e3 => hk (e3.symm.trans e)
      simp only [hash_remove, e, if_true, ih, hash_lookup]
      rw [if_neg (e ▸ e2)]
    · simp only [hash_remove, e, if_false, hash_lookup, ih]

theorem hash_lookup_none_iff (idx : List (filename × Nat)) (k : filename) :
    hash_lookup idx k = none ↔ k ∉ idx.map Prod.fst := by
  induction idx with
  | nil => simp [hash_lookup]
  | cons x rest ih =>
    obtain ⟨k1, v⟩ := x
    by_cases e : k1 = k
    · simp [hash_lookup, e]
    · have e2 : ¬ k = k1 := fun e3 => e e3.symm
      simp [hash_lookup, e, e2, ih]

theorem hash_remove_of_none (idx : List (filename × Nat)) (k : filename)
    (hn : hash_lookup idx k = none) : hash_remove idx k = idx := by
  induction idx with
  | nil => rfl
  | cons x rest ih =>
    obtain ⟨k1, v⟩ := x
    by_cases e : k1 = k
    · simp [hash_lookup, e] at hn
    · simp only [hash_lookup, e, if_false] at hn
      simp only [hash_remove, e, if_false, ih hn]

theorem hash_lookup_mem (idx : List (filename × Nat)) (k : filename) (h : Nat)
    (hl : hash_lookup idx k = some h) : h ∈ handles idx := by
  induction idx with
  | nil => simp [hash_lookup] at hl
  | cons x rest ih =>
    obtain ⟨k1, v⟩ := x
    by_cases e : k1 = k
    · simp only [hash_lookup, e, if_true, Option.some.injEq] at hl
      simp [handles, hl]
    · simp only [hash_lookup, e, if_false] at hl
      have := ih hl
      simp only [handles, List.map_cons, List.mem_cons] at *
      exact Or.inr this

theorem hash_remove_keys_sublist (idx : List (filename × Nat)) (k : filename) :
    ((hash_remove idx k).map Prod.fst).Sublist (idx.map Prod.fst) := by
  induction idx with
  | nil => exact List.Sublist.refl _
  | cons x rest ih =>
    obtain ⟨k1, v⟩ := x
    by_cases e : k1 = k
    · simp only [hash_remove, e, if_true, List.map_cons]
      exact List.Sublist.cons _ ih
    · simp only [hash_remove, e, if_false, List.map_cons]
      exact List.Sublist.cons₂ _ ih

theorem handles_remove_perm (idx : List (filename × Nat)) (k : filename) (h : Nat)
    (hk : (idx.map Prod.fst).Nodup) (hl : hash_lookup idx k = some h) :
    List.Perm (handles idx) (h :: handles (hash_remove idx k)) := by
  induction idx with
  | nil => simp [hash_lookup] at hl
  | cons x rest ih =>
    obtain ⟨k1, v⟩ := x
    simp only [List.map_cons, List.nodup_cons] at hk
    by_cases e : k1 = k
    · simp only [hash_lookup, e, if_true, Option.some.injEq] at hl
      have hn : hash_lookup rest k = none := (hash_lookup_none_iff rest k).mpr (e ▸ hk.1)
      simp only [hash_remove, e, if_true, hash_remove_of_none rest k hn, handles, List.map_cons,
        hl]
      exact List.Perm.refl _
    · simp only [hash_lookup, e, if_false] at hl
      simp only [hash_remove, e, if_false, handles, List.map_cons]
      exact (List.Perm.cons v (ih hk.2 hl)).trans (List.Perm.swap h v _)

theorem free_list_insert_perm (nodes : List file_node_type) (new : Nat) (l : List Nat) :
    List.Perm (free_list_insert nodes new l) (new :: l) := by
  induction l with
  | nil => exact List.Perm.refl _
  | cons x rest ih =>
    simp only [free_list_insert]
    split
    · exact (List.Perm.cons x ih).trans (List.Perm.swap new x _)
    · exact List.Perm.refl _

theorem free_list_insert_sorted (nodes : List file_node_type) (new : Nat) (l : List Nat)
    (hs : free_list_sorted nodes l) : free_list_sorted nodes (free_list_insert nodes new l) := by
  unfold free_list_sorted node_size_at at *
  induction l with
  | nil => simp [free_list_insert]
  | cons x rest ih =>
    rw [List.pairwise_cons] at hs
    simp only [free_list_insert]
    split
    · rename_i hlt
      rw [List.pairwise_cons]
      refine ⟨?_, ih hs.2⟩
      intro b hb
      rcases List.mem_cons.mp ((free_list_insert_perm nodes new rest).mem_iff.mp hb) with e | e
      · subst e; exact Int.le_of_lt hlt
      · exact hs.1 b e
    · rename_i hge
      rw [List.pairwise_cons, List.pairwise_cons]
      refine ⟨?_, hs.1, hs.2⟩
      intro b hb
      rcases List.mem_cons.mp hb with e | e
      · subst e; omega
      · have := hs.1 b e
        omega

theorem free_list_first_fit_some (nodes : List file_node_type) (m : Int) (l : List Nat)
    (h : Nat) (hf : free_list_first_fit nodes m l = some h) :
    h ∈ l ∧ ¬ size_t_cast (node_size_at nodes h) < m := by
  induction l with
  | nil => simp [free_list_first_fit] at hf
  | cons x rest ih =>
    simp only [free_list_first_fit] at hf
    split at hf
    · have := ih hf
      exact ⟨List.mem_cons_of_mem _ this.1, this.2⟩
    · rename_i hge
      simp only [Option.some.injEq] at hf
      subst hf
      exact ⟨List.mem_cons_self _ _, hge⟩

theorem size_t_cast_of_nonneg (x : Int) (hx : 0 ≤ x) : size_t_cast x = x := by
  unfold size_t_cast
  rw [if_neg (by omega)]

/-! ## The operations keep the invariant -/

theorem fseek_ok (arg : Int) (h : 0 ≤ arg) : fseek__ arg = .ok arg := by
  unfold fseek__
  rw [if_neg (by omega)]

theorem file_node_fwrite_ok (node : file_node_type) (key : Option filename)
    (stream : List Byte) (h0 : 0 ≤ node.node_offset) (h1 : 4 ≤ node.node_size)
    (hk : node.status = .NODE_IN_USE → key.isSome = true) :
    ∃ st, file_node_fwrite node key stream = .ok st := by
  unfold file_node_fwrite
  rw [if_neg (by omega), fseek_ok _ h0, fseek_ok _ (by omega)]
  by_cases hs : node.status = .NODE_IN_USE
  · obtain ⟨k, hk2⟩ := Option.isSome_iff_exists.mp (hk hs)
    subst hk2
    simp only [hs, if_true]
    exact ⟨_, rfl⟩
  · simp only [hs, if_false]
    exact ⟨_, rfl⟩

theorem file_node_init_fwrite_ok (node : file_node_type) (stream : List Byte)
    (h0 : 0 ≤ node.node_offset) (h1 : 4 ≤ node.node_size) :
    ∃ st, file_node_init_fwrite node stream = .ok st := by
  unfold file_node_init_fwrite
  rw [fseek_ok _ h0, fseek_ok _ (by omega)]
  exact ⟨_, rfl⟩

theorem store_inv_total (s : block_fs_type) (out : List Nat) (hi : store_inv s out) :
    size_sum s.file_nodes (handles s.index) + s.free_size + size_sum s.file_nodes out
      = s.data_file_size := by
  have h1 := size_sum_perm s.file_nodes _ _ hi.perm
  rw [size_sum_range, tiles_sum _ _ _ hi.tiling, size_sum_append, size_sum_append] at h1
  rw [hi.free_size_eq]
  omega

theorem store_inv_valid (s : block_fs_type) (out : List Nat) (hi : store_inv s out) (h : Nat)
    (hm : h ∈ handles s.index ++ s.free_nodes ++ out) : h < s.file_nodes.length :=
  List.mem_range.mp (hi.perm.mem_iff.mp hm)

/-- The store after `block_fs_unlink_file__` for the name of the node `h`. -/
theorem unlink_file_spec (s : block_fs_type) (name : filename) (h : Nat)
    (hi : store_inv s []) (hl : hash_lookup s.index name = some h) :
    ∃ s1, block_fs_unlink_file__ s name = .ok s1 ∧ store_inv s1 [] ∧
      s1.index = hash_remove s.index name ∧
      geometry s1.file_nodes = geometry s.file_nodes ∧
      s1.file_nodes.length = s.file_nodes.length ∧
      s1.data_file_size = s.data_file_size ∧
      s1.free_nodes = free_list_insert s1.file_nodes h s.free_nodes ∧
      s1.free_size = s.free_size + node_size_at s.file_nodes h ∧
      s1.block_size = s.block_size ∧ s1.max_cache_size = s.max_cache_size := by
  have hmem : h ∈ handles s.index := hash_lookup_mem _ _ _ hl
  have hv : h < s.file_nodes.length :=
    store_inv_valid s [] hi h (by simp [hmem])
  have hge := node_size_at_ge s.file_nodes 0 s.data_file_size hi.tiling h hv
  have hp := handles_remove_perm s.index name h hi.keys hl
  have htot := store_inv_total s [] hi
  have hrest := size_sum_nonneg s.file_nodes 0 s.data_file_size hi.tiling
    (handles (hash_remove s.index name))
  have hsplit : size_sum s.file_nodes (handles s.index)
      = node_size_at s.file_nodes h + size_sum s.file_nodes (handles (hash_remove s.index name)) := by
    rw [size_sum_perm _ _ _ hp]
    simp [size_sum]
  generalize hnode : ({ node_at s.file_nodes h with
      status := node_status_type.NODE_FREE, data_offset := 0, data_size := 0 } : file_node_type)
      = node
  have hno : node.node_offset = (node_at s.file_nodes h).node_offset := by rw [← hnode]
  have hns : node.node_size = (node_at s.file_nodes h).node_size := by rw [← hnode]
  have hstat : node.status = .NODE_FREE := by rw [← hnode]
  have hgeo := geometry_set s.file_nodes h node hno hns
  have hsz : ∀ k, node_size_at (s.file_nodes.set h node) k = node_size_at s.file_nodes k :=
    node_size_at_congr _ _ hgeo
  obtain ⟨st, hst⟩ := file_node_fwrite_ok node none s.data_stream
    (by rw [hno]; omega) (by rw [hns]; unfold node_size_at at hge; omega)
    (by rw [hstat]; intro e; cases e)
  have hsum0 : size_sum s.file_nodes ([] : List Nat) = 0 := by simp [size_sum]
  refine ⟨{ s with
      index := hash_remove s.index name,
      file_nodes := s.file_nodes.set h node,
      data_stream := st,
      free_nodes := free_list_insert (s.file_nodes.set h node) h s.free_nodes,
      num_free_nodes := s.num_free_nodes + 1,
      free_size := s.free_size + (node_at (s.file_nodes.set h node) h).node_size },
    ?_, ?_, rfl, ?_, ?_, rfl, rfl, ?_, rfl, rfl⟩
  · unfold block_fs_unlink_file__ hash_get
    rw [hl]
    simp only [hnode]
    rw [fseek_ok _ (by omega)]
    simp only [hst]
    unfold block_fs_insert_free_node
    simp only
    rw [if_neg]
    unfold fragmentation_exceeded
    have e1 : node_size_at (s.file_nodes.set h node) h = node_size_at s.file_nodes h := hsz h
    unfold node_size_at at e1 hge
    rw [e1, hi.limit, if_pos (by omega)]
    simp only [decide_eq_true_eq]
    unfold node_size_at at hsplit
    omega
  · constructor
    · exact hi.owner
    · exact hi.block
    · exact hi.limit
    · show tiles (geometry (s.file_nodes.set h node)) 0 s.data_file_size
      rw [hgeo]; exact hi.tiling
    · show List.Perm (handles (hash_remove s.index name) ++
        free_list_insert (s.file_nodes.set h node) h s.free_nodes ++ [])
        (List.range (s.file_nodes.set h node).length)
      rw [List.length_set]
      refine List.Perm.trans ?_ hi.perm
      rw [List.append_nil, List.append_nil]
      refine List.Perm.trans (List.Perm.append_left _ (free_list_insert_perm _ _ _)) ?_
      refine List.Perm.trans List.perm_middle ?_
      exact List.Perm.append_right _ hp.symm
    · exact (hash_remove_keys_sublist s.index name).nodup hi.keys
    · show s.num_free_nodes + 1 = ((free_list_insert (s.file_nodes.set h node) h s.free_nodes).length : Int)
      rw [(free_list_insert_perm _ _ _).length_eq, hi.num_free]
      simp
    · show s.free_size + (node_at (s.file_nodes.set h node) h).node_size
        = size_sum (s.file_nodes.set h node) (free_list_insert (s.file_nodes.set h node) h s.free_nodes)
      have e1 : size_sum (s.file_nodes.set h node) (h :: s.free_nodes)
          = node_size_at (s.file_nodes.set h node) h
            + size_sum (s.file_nodes.set h node) s.free_nodes := by
        simp [size_sum]
      rw [size_sum_perm _ _ _ (free_list_insert_perm _ _ _), hi.free_size_eq, e1,
        size_sum_congr _ _ _ (fun k _ => hsz k)]
      unfold node_size_at
      omega
    · show free_list_sorted (s.file_nodes.set h node)
        (free_list_insert (s.file_nodes.set h node) h s.free_nodes)
      exact free_list_insert_sorted _ _ _
        (free_list_sorted_congr _ _ _ (fun k _ => hsz k) hi.sorted)
  · exact hgeo
  · show (s.file_nodes.set h node).length = s.file_nodes.length
    exact List.length_set _ _ _
  · show s.free_size + (node_at (s.file_nodes.set h node) h).node_size = _
    have := hsz h
    unfold node_size_at at *
    omega

theorem same_layout_refl (s : block_fs_type) : same_layout s s :=
  ⟨rfl, rfl, rfl, rfl, rfl, rfl, rfl, rfl, rfl, rfl, rfl⟩

theorem store_inv_same_layout (s s1 : block_fs_type) (out : List Nat) (hi : store_inv s out)
    (hf : same_layout s s1) : store_inv s1 out := by
  have hsz : ∀ k, node_size_at s1.file_nodes k = node_size_at s.file_nodes k :=
    node_size_at_congr _ _ hf.geometry
  constructor
  · rw [hf.owner]; exact hi.owner
  · rw [hf.block_size]; exact hi.block
  · rw [hf.limit]; exact hi.limit
  · rw [hf.geometry, hf.data_file_size]; exact hi.tiling
  · rw [hf.index, hf.free_nodes, hf.length]; exact hi.perm
  · rw [hf.index]; exact hi.keys
  · rw [hf.num_free, hf.free_nodes]; exact hi.num_free
  · rw [hf.free_size, hf.free_nodes, size_sum_congr _ _ _ (fun k _ => hsz k)]
    exact hi.free_size_eq
  · rw [hf.free_nodes]
    exact free_list_sorted_congr _ _ _ (fun k _ => hsz k) hi.sorted

theorem file_node_update_cache_geometry (nz : Bool) (node : file_node_type) (n : Int)
    (data : List Byte) :
    (file_node_update_cache nz node n data).node_offset = node.node_offset ∧
    (file_node_update_cache nz node n data).node_size = node.node_size := by
  unfold file_node_update_cache
  split <;> exact ⟨rfl, rfl⟩

theorem file_node_clear_cache_geometry (node : file_node_type) :
    (file_node_clear_cache node).node_offset = node.node_offset ∧
    (file_node_clear_cache node).node_size = node.node_size := by
  unfold file_node_clear_cache
  split <;> exact ⟨rfl, rfl⟩

/-- A call of `block_fs_fwrite__` which returns leaves the layout of the store as it is. -/
theorem fwrite_same_layout (nz : Bool) (s s1 : block_fs_type) (name : filename) (h : Nat)
    (ptr : List Byte) (hw : block_fs_fwrite__ nz s name h ptr = .ok s1) : same_layout s s1 := by
  unfold block_fs_fwrite__ at hw
  simp only at hw
  split at hw
  · cases hw
    exact same_layout_refl s
  · split at hw
    · cases hw
    · split at hw
      · cases hw
      · split at hw
        · cases hw
        · split at hw
          · cases hw
          · split at hw
            · cases hw
            · cases hw
              refine ⟨rfl, rfl, rfl, rfl, ?_, ?_, rfl, rfl, rfl, rfl, rfl⟩
              · apply geometry_set
                · split
                  · exact (file_node_update_cache_geometry _ _ _ _).1
                  · exact (file_node_clear_cache_geometry _).1
                · split
                  · exact (file_node_update_cache_geometry _ _ _ _).2
                  · exact (file_node_clear_cache_geometry _).2
              · exact List.length_set _ _ _

/-- A call of `block_fs_fwrite__` for a node which has room for the header and the payload
returns. -/
theorem fwrite_ok (nz : Bool) (s : block_fs_type) (name : filename) (h : Nat) (ptr : List Byte)
    (h0 : 0 ≤ (node_at s.file_nodes h).node_offset)
    (h1 : file_node_header_size name + ptr.length ≤ (node_at s.file_nodes h).node_size)
    (h2 : 0 ≤ s.data_file_size) :
    ∃ s1, block_fs_fwrite__ nz s name h ptr = .ok s1 := by
  unfold block_fs_fwrite__
  simp only
  split
  · exact ⟨_, rfl⟩
  · have hhs : file_node_header_size name = 21 + name.length := by
      unfold file_node_header_size; omega
    rw [fseek_ok _ h0]
    simp only
    obtain ⟨st1, hst1⟩ := file_node_init_fwrite_ok
      (file_node_set_data_offset { node_at s.file_nodes h with
        status := .NODE_IN_USE, data_size := (ptr.length : Int) } name) s.data_stream
      (by simpa [file_node_set_data_offset] using h0)
      (by simp only [file_node_set_data_offset]; omega)
    rw [hst1]
    simp only
    rw [fseek_ok _ (by simp only [file_node_set_data_offset]; omega)]
    simp only
    obtain ⟨st3, hst3⟩ := file_node_fwrite_ok
      (file_node_set_data_offset { node_at s.file_nodes h with
        status := .NODE_IN_USE, data_size := (ptr.length : Int) } name) (some name)
      (fwrite st1 ((node_at s.file_nodes h).node_offset + file_node_header_size name - 4) ptr)
      (by simpa [file_node_set_data_offset] using h0)
      (by simp only [file_node_set_data_offset]; omega)
      (fun _ => rfl)
    simp only [file_node_set_data_offset] at hst3 ⊢
    rw [hst3]
    simp only
    rw [fseek_ok _ h2]
    exact ⟨_, rfl⟩

theorem geometry_append (nodes : List file_node_type) (n : file_node_type) :
    geometry (nodes ++ [n]) = geometry nodes ++ [(n.node_offset, n.node_size)] := by
  simp [geometry]

theorem node_size_at_append_left (nodes : List file_node_type) (n : file_node_type) (h : Nat)
    (hh : h < nodes.length) : node_size_at (nodes ++ [n]) h = node_size_at nodes h := by
  unfold node_size_at
  rw [node_at_append_left nodes n h hh]

theorem block_round_up (m bs : Int) (hm : 0 ≤ m) (hb : 0 < bs) :
    m ≤ (if Int.tmod m bs ≠ 0 then Int.tdiv m bs * bs + bs else Int.tdiv m bs * bs) ∧
    (if Int.tmod m bs ≠ 0 then Int.tdiv m bs * bs + bs else Int.tdiv m bs * bs) < m + bs := by
  have h1 := Int.tdiv_add_tmod m bs
  have h2 := Int.tmod_lt_of_pos m hb
  have h3 := Int.tmod_nonneg bs hm
  rw [Int.mul_comm] at h1
  split
  · rename_i h4
    constructor <;> omega
  · rename_i h4
    have : Int.tmod m bs = 0 := by
      by_contra h5
      exact h4 h5
    constructor <;> omega

/-- The store and the node after `block_fs_get_new_node`. -/
theorem get_new_node_spec (s : block_fs_type) (m : Int) (hi : store_inv s []) (hm : 21 ≤ m) :
    ∃ s1 h, block_fs_get_new_node s m = .ok (s1, h) ∧ store_inv s1 [h] ∧
      h < s1.file_nodes.length ∧ m ≤ node_size_at s1.file_nodes h ∧
      s1.index = s.index ∧ s1.data_stream = s.data_stream ∧
      s1.max_cache_size = s.max_cache_size ∧ s1.block_size = s.block_size := by
  unfold block_fs_get_new_node
  cases hf : free_list_first_fit s.file_nodes m s.free_nodes with
  | some h =>
    obtain ⟨hmem, hfit⟩ := free_list_first_fit_some _ _ _ _ hf
    have hv : h < s.file_nodes.length := store_inv_valid s [] hi h (by simp [hmem])
    have hge := node_size_at_ge s.file_nodes 0 s.data_file_size hi.tiling h hv
    rw [size_t_cast_of_nonneg _ (by omega)] at hfit
    have hp : List.Perm s.free_nodes (h :: s.free_nodes.erase h) := List.perm_cons_erase hmem
    refine ⟨block_fs_unlink_free_node s h, h, rfl, ?_, hv,
      (by show m ≤ node_size_at s.file_nodes h; omega), rfl, rfl, rfl, rfl⟩
    constructor
    · exact hi.owner
    · exact hi.block
    · exact hi.limit
    · exact hi.tiling
    · show List.Perm (handles s.index ++ s.free_nodes.erase h ++ [h])
        (List.range s.file_nodes.length)
      refine List.Perm.trans ?_ hi.perm
      rw [List.append_nil, List.append_assoc]
      refine List.Perm.append_left _ ?_
      exact (List.perm_append_comm.trans hp.symm)
    · exact hi.keys
    · show s.num_free_nodes - 1 = ((s.free_nodes.erase h).length : Int)
      have := List.length_erase_of_mem hmem
      have := List.length_pos_of_mem hmem
      rw [hi.num_free]
      omega
    · show s.free_size - (node_at s.file_nodes h).node_size
        = size_sum s.file_nodes (s.free_nodes.erase h)
      have e1 := size_sum_perm s.file_nodes _ _ hp
      have e2 : size_sum s.file_nodes (h :: s.free_nodes.erase h)
          = node_size_at s.file_nodes h + size_sum s.file_nodes (s.free_nodes.erase h) := by
        simp [size_sum]
      rw [hi.free_size_eq]
      unfold node_size_at at e2
      omega
    · show free_list_sorted s.file_nodes (s.free_nodes.erase h)
      exact List.Pairwise.sublist (List.erase_sublist h s.free_nodes) hi.sorted
  | none =>
    have hb := hi.block
    simp only
    rw [if_neg (by omega)]
    have hup := (block_round_up m s.block_size (by omega) hb).1
    generalize hns : (if Int.tmod m s.block_size ≠ 0
      then Int.tdiv m s.block_size * s.block_size + s.block_size
      else Int.tdiv m s.block_size * s.block_size) = ns at hup
    have hd := tiles_le _ _ _ hi.tiling
    have hmax : util_size_t_max s.data_file_size (s.data_file_size + ns)
        = s.data_file_size + ns := by
      unfold util_size_t_max
      rw [size_t_cast_of_nonneg _ hd, size_t_cast_of_nonneg _ (by omega), if_pos (by omega)]
    have hold : ∀ k ∈ s.free_nodes,
        node_size_at (s.file_nodes ++ [file_node_alloc .NODE_IN_USE s.data_file_size ns]) k
          = node_size_at s.file_nodes k := by
      intro k hk
      exact node_size_at_append_left _ _ _ (store_inv_valid s [] hi k (by simp [hk]))
    refine ⟨block_fs_install_node s (file_node_alloc .NODE_IN_USE s.data_file_size ns),
      s.file_nodes.length, rfl, ?_, ?_, ?_, rfl, rfl, rfl, rfl⟩
    · constructor
      · exact hi.owner
      · exact hi.block
      · exact hi.limit
      · show tiles (geometry (s.file_nodes ++ [file_node_alloc .NODE_IN_USE s.data_file_size ns]))
          0 (util_size_t_max s.data_file_size
            ((file_node_alloc .NODE_IN_USE s.data_file_size ns).node_offset
              + (file_node_alloc .NODE_IN_USE s.data_file_size ns).node_size))
        rw [geometry_append, tiles_append]
        simp only [file_node_alloc]
        rw [hmax]
        exact ⟨s.data_file_size, hi.tiling, rfl, by omega, rfl⟩
      · show List.Perm (handles s.index ++ s.free_nodes ++ [s.file_nodes.length])
          (List.range (s.file_nodes ++ [file_node_alloc .NODE_IN_USE s.data_file_size ns]).length)
        rw [List.length_append, List.length_singleton, List.range_succ]
        have := hi.perm
        rw [List.append_nil] at this
        exact List.Perm.append_right _ this
      · exact hi.keys
      · exact hi.num_free
      · show s.free_size
          = size_sum (s.file_nodes ++ [file_node_alloc .NODE_IN_USE s.data_file_size ns])
              s.free_nodes
        rw [size_sum_congr _ _ _ hold]
        exact hi.free_size_eq
      · show free_list_sorted
          (s.file_nodes ++ [file_node_alloc .NODE_IN_USE s.data_file_size ns]) s.free_nodes
        exact free_list_sorted_congr _ _ _ hold hi.sorted
    · show s.file_nodes.length
        < (s.file_nodes ++ [file_node_alloc .NODE_IN_USE s.data_file_size ns]).length
      simp
    · show m ≤ node_size_at (s.file_nodes ++ [file_node_alloc .NODE_IN_USE s.data_file_size ns])
        s.file_nodes.length
      unfold node_size_at
      rw [node_at_append_length]
      simpa [file_node_alloc] using hup

/-- The store after `block_fs_insert_index_node` for a new name and a node in hand. -/
theorem insert_index_node_inv (s : block_fs_type) (name : filename) (h : Nat)
    (hi : store_inv s [h]) (hn : hash_lookup s.index name = none) :
    store_inv (block_fs_insert_index_node s name h) [] := by
  have hidx : hash_insert_ref s.index name h = (name, h) :: s.index := by
    unfold hash_insert_ref
    rw [hash_remove_of_none _ _ hn]
  constructor
  · exact hi.owner
  · exact hi.block
  · exact hi.limit
  · exact hi.tiling
  · show List.Perm (handles (hash_insert_ref s.index name h) ++ s.free_nodes ++ [])
      (List.range s.file_nodes.length)
    rw [hidx, List.append_nil]
    refine List.Perm.trans ?_ hi.perm
    show List.Perm (h :: (handles s.index ++ s.free_nodes)) (handles s.index ++ s.free_nodes ++ [h])
    exact @List.perm_append_comm _ [h] (handles s.index ++ s.free_nodes)
  · show ((hash_insert_ref s.index name h).map Prod.fst).Nodup
    rw [hidx, List.map_cons, List.nodup_cons]
    exact ⟨(hash_lookup_none_iff _ _).mp hn, hi.keys⟩
  · exact hi.num_free
  · exact hi.free_size_eq
  · exact hi.sorted

theorem header_size_ge (name : filename) (ptr : List Byte) :
    21 ≤ (ptr.length : Int) + file_node_header_size name := by
  unfold file_node_header_size
  omega

/-- The part of `block_fs_fwrite_file` after the node has been chosen by
`block_fs_get_new_node`. -/
theorem fwrite_new_node_spec (nz : Bool) (s : block_fs_type) (name : filename)
    (ptr : List Byte) (hi : store_inv s []) (hn : hash_lookup s.index name = none) :
    ∃ s2 h s3, block_fs_get_new_node s (ptr.length + file_node_header_size name) = .ok (s2, h) ∧
      block_fs_fwrite__ nz s2 name h ptr = .ok s3 ∧
      store_inv (block_fs_insert_index_node s3 name h) [] ∧
      s3.block_size = s.block_size ∧ s3.max_cache_size = s.max_cache_size := by
  obtain ⟨s2, h, hg, hi2, hv, hsz, hidx, _, hmc, hbs⟩ :=
    get_new_node_spec s _ hi (header_size_ge name ptr)
  have hge := node_size_at_ge s2.file_nodes 0 s2.data_file_size hi2.tiling h hv
  obtain ⟨s3, hw⟩ := fwrite_ok nz s2 name h ptr (by omega)
    (by unfold node_size_at at hsz; omega) (tiles_le _ _ _ hi2.tiling)
  have hf := fwrite_same_layout nz s2 s3 name h ptr hw
  have hi3 := store_inv_same_layout s2 s3 [h] hi2 hf
  refine ⟨s2, h, s3, hg, hw, ?_, ?_, ?_⟩
  · apply insert_index_node_inv s3 name h hi3
    rw [hf.index, hidx]
    exact hn
  · rw [hf.block_size, hbs]
  · rw [hf.max_cache_size, hmc]

/-- Every call of `block_fs_fwrite_file` on a store with the invariant returns, and the
invariant holds afterwards. -/
theorem fwrite_file_spec (nz : Bool) (s : block_fs_type) (name : filename) (ptr : List Byte)
    (hi : store_inv s []) :
    ∃ s1, block_fs_fwrite_file nz s name ptr = .ok s1 ∧ store_inv s1 [] ∧
      s1.block_size = s.block_size ∧ s1.max_cache_size = s.max_cache_size := by
  unfold block_fs_fwrite_file
  rw [if_pos hi.owner]
  simp only
  cases hl : hash_lookup s.index name with
  | none =>
    have hh : block_fs_has_file s name = false := by
      unfold block_fs_has_file hash_has_key
      rw [hl]; rfl
    rw [hh]
    simp only [Bool.false_eq_true, if_false]
    obtain ⟨s2, h, s3, hg, hw, hi3, hbs, hmc⟩ := fwrite_new_node_spec nz s name ptr hi hl
    rw [hg]
    simp only
    rw [hw]
    exact ⟨_, rfl, hi3, hbs, hmc⟩
  | some h =>
    have hh : block_fs_has_file s name = true := by
      unfold block_fs_has_file hash_has_key
      rw [hl]; rfl
    rw [hh]
    simp only [if_true]
    unfold hash_get
    rw [hl]
    simp only
    have hv : h < s.file_nodes.length :=
      store_inv_valid s [] hi h (by simp [hash_lookup_mem _ _ _ hl])
    have hge := node_size_at_ge s.file_nodes 0 s.data_file_size hi.tiling h hv
    unfold node_size_at at hge
    rw [size_t_cast_of_nonneg _ (by omega)]
    split
    · obtain ⟨s1, hu, hi1, hidx1, _, _, _, _, _, hbs1, hmc1⟩ := unlink_file_spec s name h hi hl
      rw [hu]
      simp only
      have hn1 : hash_lookup s1.index name = none := by
        rw [hidx1]; exact hash_lookup_remove_self _ _
      obtain ⟨s2, h2, s3, hg, hw, hi3, hbs, hmc⟩ := fwrite_new_node_spec nz s1 name ptr hi1 hn1
      rw [hg]
      simp only
      rw [hw]
      exact ⟨_, rfl, hi3, by rw [← hbs1]; exact hbs, by rw [← hmc1]; exact hmc⟩
    · rename_i hfit
      obtain ⟨s1, hw⟩ := fwrite_ok nz s name h ptr (by omega) (by omega)
        (tiles_le _ _ _ hi.tiling)
      have hf := fwrite_same_layout nz s s1 name h ptr hw
      exact ⟨s1, hw, store_inv_same_layout s s1 [] hi hf, hf.block_size, hf.max_cache_size⟩

/-- A call of `block_fs_unlink_file` which returns keeps the invariant. -/
theorem unlink_file_inv (s s1 : block_fs_type) (name : filename) (hi : store_inv s [])
    (hu : block_fs_unlink_file s name = .ok s1) : store_inv s1 [] := by
  unfold block_fs_unlink_file at hu
  rw [if_pos hi.owner] at hu
  cases hl : hash_lookup s.index name with
  | none =>
    unfold block_fs_unlink_file__ hash_get at hu
    rw [hl] at hu
    cases hu
  | some h =>
    obtain ⟨s2, hu2, hi2, _⟩ := unlink_file_spec s name h hi hl
    rw [hu2] at hu
    cases hu
    exact hi2

theorem mount_empty_inv (block_size max_cache_size : Int) (hb : 0 < block_size) :
    store_inv (block_fs_mount_empty block_size max_cache_size) [] := by
  constructor
  · rfl
  · exact hb
  · rfl
  · show tiles [] 0 0
    rfl
  · exact List.Perm.refl _
  · exact List.nodup_nil
  · rfl
  · rfl
  · exact List.Pairwise.nil

/-- Every reachable store has the invariant. -/
theorem reachable_inv (nz : Bool) (block_size max_cache_size : Int) (hb : 0 < block_size)
    (s : block_fs_type) (hr : reachable nz block_size max_cache_size s) : store_inv s [] := by
  induction hr with
  | mount => exact mount_empty_inv block_size max_cache_size hb
  | fwrite name ptr _ hw ih =>
    obtain ⟨s2, hw2, hi2, _⟩ := fwrite_file_spec nz _ name ptr ih
    rw [hw2] at hw
    cases hw
    exact hi2
  | unlink name _ hu ih => exact unlink_file_inv _ _ name ih hu

/-! ## Regions -/

theorem tiles_pairwise (G : List (Int × Int)) (a b : Int) (ht : tiles G a b) :
    G.Pairwise (fun g1 g2 => g1.1 + g1.2 ≤ g2.1) := by
  induction G generalizing a with
  | nil => exact List.Pairwise.nil
  | cons g rest ih =>
    obtain ⟨h1, h2, h3⟩ := ht
    rw [List.pairwise_cons]
    refine ⟨?_, ih _ h3⟩
    intro g2 hg2
    have := tiles_mem _ _ _ h3 g2 hg2
    omega

theorem node_at_geometry (nodes : List file_node_type) (i : Nat) (hi : i < nodes.length) :
    ∃ hl : i < (geometry nodes).length,
      (geometry nodes)[i] = ((node_at nodes i).node_offset, (node_at nodes i).node_size) := by
  have hl : i < (geometry nodes).length := by simpa [geometry] using hi
  refine ⟨hl, ?_⟩
  unfold node_at geometry
  simp [List.getElem?_eq_getElem hi]

theorem tiles_ordered (nodes : List file_node_type) (a b : Int)
    (ht : tiles (geometry nodes) a b) (i j : Nat) (hij : i < j) (hj : j < nodes.length) :
    (node_at nodes i).node_offset + (node_at nodes i).node_size ≤ (node_at nodes j).node_offset := by
  have hp := tiles_pairwise _ _ _ ht
  rw [List.pairwise_iff_getElem] at hp
  obtain ⟨hli, ei⟩ := node_at_geometry nodes i (by omega)
  obtain ⟨hlj, ej⟩ := node_at_geometry nodes j hj
  have := hp i j hli hlj hij
  rw [ei, ej] at this
  exact this

/-! ## Reading and writing the data file -/

theorem fwrite_nil (f : List Byte) (pos : Int) : fwrite f pos [] = f := by
  unfold fwrite
  rw [if_pos rfl]

theorem fwrite_length (f : List Byte) (pos : Int) (bs : List Byte) (hb : bs ≠ []) :
    (fwrite f pos bs).length = max f.length (pos.toNat + bs.length) := by
  unfold fwrite
  rw [if_neg hb]
  simp only [List.length_append, List.length_take, List.length_replicate, List.length_drop]
  omega

theorem fwrite_length_le (f : List Byte) (pos : Int) (bs : List Byte) :
    f.length ≤ (fwrite f pos bs).length := by
  by_cases hb : bs = []
  · rw [hb, fwrite_nil]
  · rw [fwrite_length f pos bs hb]
    omega

/-- The byte at the place `i` of the file after a write. -/
theorem fwrite_getElem? (f : List Byte) (pos : Int) (bs : List Byte) (hb : bs ≠ []) (i : Nat) :
    (fwrite f pos bs)[i]? =
      if i < pos.toNat then (if i < f.length then f[i]? else some 0)
      else if i < pos.toNat + bs.length then bs[i - pos.toNat]?
      else f[i]? := by
  unfold fwrite
  rw [if_neg hb]
  generalize pos.toNat = P
  by_cases h1 : i < P
  · rw [if_pos h1]
    by_cases h2 : i < f.length
    · rw [if_pos h2, List.append_assoc, List.append_assoc,
        List.getElem?_append_left (by rw [List.length_take]; omega), List.getElem?_take,
        if_pos h1]
    · rw [if_neg h2, List.append_assoc, List.append_assoc,
        List.getElem?_append_right (by rw [List.length_take]; omega),
        List.getElem?_append_left (by rw [List.length_take, List.length_replicate]; omega),
        List.getElem?_replicate, if_pos (by rw [List.length_take]; omega)]
  · rw [if_neg h1]
    have hl : (List.take P f ++ List.replicate (P - f.length) (0 : Byte)).length = P := by
      rw [List.length_append, List.length_take, List.length_replicate]
      omega
    by_cases h2 : i < P + bs.length
    · rw [if_pos h2, List.append_assoc (List.take P f ++ List.replicate (P - f.length) 0),
        List.getElem?_append_right (by rw [hl]; omega), hl,
        List.getElem?_append_left (by omega)]
    · rw [if_neg h2, List.getElem?_append_right
          (by rw [List.length_append, hl]; omega),
        List.length_append, hl, List.getElem?_drop]
      congr 1
      omega

theorem fread_eq_some (f : List Byte) (pos : Int) (n : Nat) (bs : List Byte)
    (hr : fread f pos n = some bs) :
    0 ≤ pos ∧ pos.toNat + n ≤ f.length ∧ bs.length = n ∧
      ∀ j, j < n → bs[j]? = f[pos.toNat + j]? := by
  unfold fread at hr
  split at hr
  · rename_i hc
    simp only [Option.some.injEq] at hr
    subst hr
    refine ⟨hc.1, hc.2, ?_, ?_⟩
    · rw [List.length_take, List.length_drop]
      omega
    · intro j hj
      rw [List.getElem?_take, if_pos hj, List.getElem?_drop]
  · cases hr

theorem fread_of_getElem? (f : List Byte) (pos : Int) (n : Nat) (bs : List Byte)
    (h0 : 0 ≤ pos) (h1 : pos.toNat + n ≤ f.length) (h2 : bs.length = n)
    (h3 : ∀ j, j < n → bs[j]? = f[pos.toNat + j]?) : fread f pos n = some bs := by
  unfold fread
  rw [if_pos ⟨h0, h1⟩]
  congr 1
  apply List.ext_getElem?
  intro j
  by_cases hj : j < n
  · rw [List.getElem?_take, if_pos hj, List.getElem?_drop, h3 j hj]
  · rw [List.getElem?_take, if_neg hj, List.getElem?_eq_none (by omega)]

theorem reads_kept_trans (f g k : List Byte) (h1 : reads_kept f g) (h2 : reads_kept g k) :
    reads_kept f k := fun pos n bs h => h2 pos n bs (h1 pos n bs h)

/-- A write at or behind the place `m` keeps the reads which end in front of `m`. -/
theorem fread_fwrite_before (g : List Byte) (pos : Int) (bs : List Byte) (p : Int) (n : Nat)
    (rs : List Byte) (hr : fread g p n = some rs) (hp : p + n ≤ pos) :
    fread (fwrite g pos bs) p n = some rs := by
  by_cases hb : bs = []
  · rw [hb, fwrite_nil]; exact hr
  · obtain ⟨h0, h1, h2, h3⟩ := fread_eq_some g p n rs hr
    apply fread_of_getElem? _ _ _ _ h0
    · have := fwrite_length_le g pos bs
      omega
    · exact h2
    · intro j hj
      rw [h3 j hj, fwrite_getElem? g pos bs hb, if_pos (by omega), if_pos (by omega)]

/-- A write in front of the place `p` keeps the reads which start at `p` or behind it. -/
theorem fread_fwrite_after (g : List Byte) (pos : Int) (bs : List Byte) (p : Int) (n : Nat)
    (rs : List Byte) (hr : fread g p n = some rs) (h0 : 0 ≤ pos) (hp : pos + bs.length ≤ p) :
    fread (fwrite g pos bs) p n = some rs := by
  by_cases hb : bs = []
  · rw [hb, fwrite_nil]; exact hr
  · obtain ⟨h0, h1, h2, h3⟩ := fread_eq_some g p n rs hr
    apply fread_of_getElem? _ _ _ _ h0
    · have := fwrite_length_le g pos bs
      omega
    · exact h2
    · intro j hj
      rw [h3 j hj, fwrite_getElem? g pos bs hb, if_neg (by omega), if_neg (by omega)]

/-- The bytes of a write are read back at the place of the write. -/
theorem fread_fwrite_same (g : List Byte) (pos : Int) (bs : List Byte) (h0 : 0 ≤ pos)
    (hb : bs ≠ []) : fread (fwrite g pos bs) pos bs.length = some bs := by
  apply fread_of_getElem? _ _ _ _ h0
  · rw [fwrite_length g pos bs hb]
    omega
  · rfl
  · intro j hj
    rw [fwrite_getElem? g pos bs hb, if_neg (by omega), if_pos (by omega)]
    congr 1
    omega

theorem int_to_bytes_length (v : Int) : (int_to_bytes v).length = 4 := rfl

theorem bytes_to_int_to_bytes (v : Int) (h1 : -2147483648 ≤ v) (h2 : v < 2147483648) :
    bytes_to_int (int_to_bytes v) = v := by
  unfold int_to_bytes bytes_to_int
  simp only [Fin.ofNat, Nat.succ_eq_add_one, Nat.reduceAdd]
  generalize hu : (v % 4294967296).toNat = u
  have h3 : ((u : Nat) : Int) = v % 4294967296 := by
    rw [← hu]
    exact Int.toNat_of_nonneg (Int.emod_nonneg _ (by decide))
  have h4 : u < 4294967296 := by
    have := Int.emod_lt_of_pos v (show (0 : Int) < 4294967296 by decide)
    omega
  split <;> omega

/-! ## The scan of committed nodes -/

/-- The node read by `file_node_fread_alloc` has the position of the read as its offset. -/
theorem file_node_fread_alloc_offset (f : List Byte) (pos : Int) (key key1 : Option filename)
    (n1 : file_node_type) (q : Int)
    (hr : file_node_fread_alloc f pos key = .ok (some n1, key1, q)) : n1.node_offset = pos := by
  unfold file_node_fread_alloc at hr
  simp only at hr
  split at hr
  · cases hr
  · split at hr
    · split at hr
      · cases hr
      · split at hr
        · cases hr
        · split at hr
          · cases hr
          · cases hr; rfl
    · split at hr
      · split at hr
        · cases hr
        · cases hr; rfl
      · cases hr; rfl

theorem file_node_verify_end_tag_size (f : List Byte) (n1 : file_node_type) (q : Int)
    (hr : file_node_verify_end_tag n1 f = .ok (true, q)) :
    4 ≤ n1.node_offset + n1.node_size ∧ n1.node_offset + n1.node_size ≤ f.length := by
  unfold file_node_verify_end_tag at hr
  unfold fseek__ at hr
  split at hr
  · cases hr
  · rename_i p hp
    split at hp
    · cases hp
    · simp only [Except.ok.injEq] at hp
      subst hp
      split at hr
      · rename_i bs hbs
        obtain ⟨h0, h1, _, _⟩ := fread_eq_some _ _ _ _ hbs
        omega
      · simp at hr

theorem hash_lookup_insert_ne (idx : List (filename × Nat)) (k name : filename) (h : Nat)
    (hne : k ≠ name) :
    hash_lookup (hash_insert_ref idx k h) name = hash_lookup idx name := by
  unfold hash_insert_ref
  simp only [hash_lookup]
  rw [if_neg hne]
  exact hash_lookup_remove_ne idx k name (fun e => hne e.symm)

theorem fread_one (f : List Byte) (pos : Int) (bs : List Byte) (hr : fread f pos 1 = some bs) :
    ∃ b, bs = [b] := by
  obtain ⟨_, _, hl, _⟩ := fread_eq_some f pos 1 bs hr
  match bs, hl with
  | [b], _ => exact ⟨b, rfl⟩

/-- The round of the loop of `block_fs_build_index` for a node with a status in error. -/
theorem scan_error_status (t : block_fs_type) (pos : Int) (key key1 : Option filename)
    (errs : List Int) (fuel : Nat) (n1 : file_node_type) (p1 : Int)
    (hp : file_node_fread_alloc t.data_stream pos key = .ok (some n1, key1, p1))
    (hs : n1.status = .NODE_INVALID ∨ n1.status = .NODE_WRITE_ACTIVE) :
    block_fs_build_index_loop (fuel + 1) t pos key errs
      = block_fs_build_index_loop fuel t (block_fs_fseek_valid_node t.data_stream p1).2 key1
          (errs ++ [n1.node_offset]) := by
  rw [block_fs_build_index_loop, hp]
  simp only
  rw [if_pos hs]

theorem fread_some_of_le (f : List Byte) (pos : Int) (n : Nat) (h0 : 0 ≤ pos)
    (h1 : pos + n ≤ f.length) : ∃ bs, fread f pos n = some bs := by
  unfold fread
  rw [if_pos ⟨h0, by omega⟩]
  exact ⟨_, rfl⟩

theorem fread_none_of_gt (f : List Byte) (pos : Int) (n : Nat)
    (h1 : (f.length : Int) < pos + n) : fread f pos n = none := by
  unfold fread
  rw [if_neg]
  rintro ⟨h0, h2⟩
  omega

theorem fwrite_length_within (f : List Byte) (pos : Int) (bs : List Byte)
    (h1 : pos.toNat + bs.length ≤ f.length) : (fwrite f pos bs).length = f.length := by
  by_cases hb : bs = []
  · rw [hb, fwrite_nil]
  · rw [fwrite_length f pos bs hb]
    omega

/-- With all six steps `file_node_fwrite_upto` is `file_node_fwrite`. -/
theorem file_node_fwrite_upto_all (n : Nat) (hn : 6 ≤ n) (node : file_node_type)
    (key : Option filename) (stream : List Byte) :
    file_node_fwrite_upto n node key stream = file_node_fwrite node key stream := by
  unfold file_node_fwrite_upto file_node_fwrite
  simp only
  split
  · rfl
  · split
    · rfl
    · rw [if_neg (by omega), if_neg (by omega)]
      split
      · rfl
      · rw [if_neg (by omega)]
        split
        · rfl
        · rw [if_neg (by omega)]
theorem write_active_start_bytes : int_to_bytes NODE_WRITE_ACTIVE_START = [106, 45, 1, 0] := by
  decide

theorem fread_fwrite_disjoint (g : List Byte) (pos : Int) (bs : List Byte) (p : Int) (n : Nat)
    (rs : List Byte) (hr : fread g p n = some rs) (h0 : 0 ≤ pos)
    (hd : p + n ≤ pos ∨ pos + bs.length ≤ p) : fread (fwrite g pos bs) p n = some rs := by
  rcases hd with hd | hd
  · exact fread_fwrite_before g pos bs p n rs hr hd
  · exact fread_fwrite_after g pos bs p n rs hr h0 hd

/-- A read is kept by a row of writes none of which meets its range. -/
theorem write_list_fread (ws : List (Int × List Byte)) (g : List Byte) (p : Int) (n : Nat)
    (rs : List Byte) (hr : fread g p n = some rs)
    (hd : ∀ w ∈ ws, 0 ≤ w.1 ∧ (p + n ≤ w.1 ∨ w.1 + w.2.length ≤ p)) :
    fread (write_list g ws) p n = some rs := by
  induction ws generalizing g with
  | nil => exact hr
  | cons w rest ih =>
    simp only [write_list]
    apply ih
    · exact fread_fwrite_disjoint g w.1 w.2 p n rs hr (hd w (List.mem_cons_self _ _)).1
        (hd w (List.mem_cons_self _ _)).2
    · intro w2 hw2
      exact hd w2 (List.mem_cons_of_mem _ hw2)

/-- A row of writes inside the file keeps its length. -/
theorem write_list_length (ws : List (Int × List Byte)) (g : List Byte)
    (hd : ∀ w ∈ ws, 0 ≤ w.1 ∧ w.1 + w.2.length ≤ g.length) :
    (write_list g ws).length = g.length := by
  induction ws generalizing g with
  | nil => rfl
  | cons w rest ih =>
    simp only [write_list]
    have h1 := hd w (List.mem_cons_self _ _)
    have hl : (fwrite g w.1 w.2).length = g.length :=
      fwrite_length_within g w.1 w.2 (by omega)
    rw [ih (fwrite g w.1 w.2) (by
      intro w2 hw2
      rw [hl]
      exact hd w2 (List.mem_cons_of_mem _ hw2)), hl]

theorem write_list_length_le (ws : List (Int × List Byte)) (g : List Byte) :
    g.length ≤ (write_list g ws).length := by
  induction ws generalizing g with
  | nil => exact Nat.le_refl _
  | cons w rest ih =>
    simp only [write_list]
    exact Nat.le_trans (fwrite_length_le g w.1 w.2) (ih _)

/-- A row of writes which reach at most to `b` leaves a file which ends at `b` or longer no
longer than it was, and a shorter one no longer than `b`. -/
theorem write_list_length_max (ws : List (Int × List Byte)) (g : List Byte) (b : Int)
    (hd : ∀ w ∈ ws, 0 ≤ w.1 ∧ w.1 + w.2.length ≤ b) :
    ((write_list g ws).length : Int) ≤ max (g.length : Int) b := by
  induction ws generalizing g with
  | nil => simp only [write_list]; omega
  | cons w rest ih =>
    simp only [write_list]
    have h1 := hd w (List.mem_cons_self _ _)
    have h2 := ih (fwrite g w.1 w.2) (fun w2 hw2 => hd w2 (List.mem_cons_of_mem _ hw2))
    have h3 : ((fwrite g w.1 w.2).length : Int) ≤ max (g.length : Int) b := by
      by_cases hb : w.2 = []
      · rw [hb, fwrite_nil]; omega
      · rw [fwrite_length g w.1 w.2 hb]; omega
    omega

theorem int_to_bytes_ne_nil (v : Int) : int_to_bytes v ≠ [] := by
  simp [int_to_bytes]

theorem fwrite_writes_within (a ns : Int) (name : filename) (ptr : List Byte)
    (hns : file_node_header_size name + ptr.length ≤ ns) :
    ∀ w ∈ fwrite_writes a ns name ptr, a ≤ w.1 ∧ w.1 + w.2.length ≤ a + ns := by
  have hhs : file_node_header_size name = 21 + name.length := by
    unfold file_node_header_size; omega
  intro w hw
  simp only [fwrite_writes, List.mem_cons, List.mem_singleton, List.not_mem_nil, or_false] at hw
  rcases hw with e | e | e | e | e | e | e | e | e <;> subst e <;>
    simp only [int_to_bytes_length, List.length_append, List.length_singleton,
      Nat.cast_add, Nat.cast_one, Nat.cast_ofNat] <;> omega

theorem unlink_writes_within (a ns : Int) (hns : 21 ≤ ns) :
    ∀ w ∈ unlink_writes a ns, a ≤ w.1 ∧ w.1 + w.2.length ≤ a + ns := by
  intro w hw
  simp only [unlink_writes, List.mem_cons, List.mem_singleton, List.not_mem_nil, or_false] at hw
  rcases hw with e | e | e | e <;> subst e <;>
    simp only [int_to_bytes_length, Nat.cast_ofNat] <;> omega

/-- After the writes of a `block_fs_fwrite__` which is carried out the file holds the node in
use under the name. -/
theorem fwrite_writes_in_use (g : List Byte) (a ns : Int) (name : filename) (ptr : List Byte)
    (ha : 0 ≤ a) (hns : file_node_header_size name + ptr.length ≤ ns) :
    in_use_on_disk (write_list g (fwrite_writes a ns name ptr)) a ns name := by
  have hhs : file_node_header_size name = 21 + name.length := by
    unfold file_node_header_size; omega
  have hnl : (name ++ [(0 : Byte)]).length = name.length + 1 := by simp
  have hnm : name ++ [(0 : Byte)] ≠ [] := by simp
  simp only [fwrite_writes, write_list]
  constructor
  · have h := fread_fwrite_same
      (fwrite (fwrite (fwrite g a (int_to_bytes NODE_WRITE_ACTIVE_START)) (a + ns - 4)
        (int_to_bytes NODE_WRITE_ACTIVE_END)) (a + file_node_header_size name - 4) ptr)
      a (int_to_bytes node_status_type.NODE_IN_USE.toInt) ha (int_to_bytes_ne_nil _)
    rw [int_to_bytes_length] at h
    have h1 := fread_fwrite_disjoint _ (a + 4) (int_to_bytes name.length) _ _ _ h (by omega)
      (by rw [int_to_bytes_length]; omega)
    have h2 := fread_fwrite_disjoint _ (a + 4 + 4) (name ++ [0]) _ _ _ h1 (by omega)
      (by rw [hnl]; omega)
    have h3 := fread_fwrite_disjoint _ (a + 4 + 4 + (name.length + 1)) (int_to_bytes ns)
      _ _ _ h2 (by omega) (by rw [int_to_bytes_length]; omega)
    have h4 := fread_fwrite_disjoint _ (a + 4 + 4 + (name.length + 1) + 4)
      (int_to_bytes ptr.length) _ _ _ h3 (by omega) (by rw [int_to_bytes_length]; omega)
    exact fread_fwrite_disjoint _ (a + ns - 4) (int_to_bytes NODE_END_TAG) _ _ _ h4 (by omega)
      (by rw [int_to_bytes_length]; omega)
  · have h1 := fread_fwrite_same
      (fwrite (fwrite (fwrite (fwrite g a (int_to_bytes NODE_WRITE_ACTIVE_START)) (a + ns - 4)
        (int_to_bytes NODE_WRITE_ACTIVE_END)) (a + file_node_header_size name - 4) ptr)
        a (int_to_bytes node_status_type.NODE_IN_USE.toInt))
      (a + 4) (int_to_bytes name.length) (by omega) (int_to_bytes_ne_nil _)
    rw [int_to_bytes_length] at h1
    have h2 := fread_fwrite_disjoint _ (a + 4 + 4) (name ++ [0]) _ _ _ h1 (by omega)
      (by rw [hnl]; omega)
    have h3 := fread_fwrite_disjoint _ (a + 4 + 4 + (name.length + 1)) (int_to_bytes ns)
      _ _ _ h2 (by omega) (by rw [int_to_bytes_length]; omega)
    have h4 := fread_fwrite_disjoint _ (a + 4 + 4 + (name.length + 1) + 4)
      (int_to_bytes ptr.length) _ _ _ h3 (by omega) (by rw [int_to_bytes_length]; omega)
    exact fread_fwrite_disjoint _ (a + ns - 4) (int_to_bytes NODE_END_TAG) _ _ _ h4 (by omega)
      (by rw [int_to_bytes_length]; omega)
  · have h2 := fread_fwrite_same
      (fwrite (fwrite (fwrite (fwrite (fwrite g a (int_to_bytes NODE_WRITE_ACTIVE_START))
        (a + ns - 4) (int_to_bytes NODE_WRITE_ACTIVE_END))
        (a + file_node_header_size name - 4) ptr)
        a (int_to_bytes node_status_type.NODE_IN_USE.toInt))
        (a + 4) (int_to_bytes name.length))
      (a + 4 + 4) (name ++ [0]) (by omega) hnm
    rw [hnl] at h2
    have h3 := fread_fwrite_disjoint _ (a + 4 + 4 + (name.length + 1)) (int_to_bytes ns)
      _ _ _ h2 (by omega) (by rw [int_to_bytes_length]; omega)
    have h4 := fread_fwrite_disjoint _ (a + 4 + 4 + (name.length + 1) + 4)
      (int_to_bytes ptr.length) _ _ _ h3 (by omega) (by rw [int_to_bytes_length]; omega)
    exact fread_fwrite_disjoint _ (a + ns - 4) (int_to_bytes NODE_END_TAG) _ _ _ h4 (by omega)
      (by rw [int_to_bytes_length]; omega)
  · have h3 := fread_fwrite_same
      (fwrite (fwrite (fwrite (fwrite (fwrite (fwrite g a
        (int_to_bytes NODE_WRITE_ACTIVE_START))
        (a + ns - 4) (int_to_bytes NODE_WRITE_ACTIVE_END))
        (a + file_node_header_size name - 4) ptr)
        a (int_to_bytes node_status_type.NODE_IN_USE.toInt))
        (a + 4) (int_to_bytes name.length))
        (a + 4 + 4) (name ++ [0]))
      (a + 4 + 4 + (name.length + 1)) (int_to_bytes ns) (by omega) (int_to_bytes_ne_nil _)
    rw [int_to_bytes_length] at h3
    have h4 := fread_fwrite_disjoint _ (a + 4 + 4 + (name.length + 1) + 4)
      (int_to_bytes ptr.length) _ _ _ h3 (by omega) (by rw [int_to_bytes_length]; omega)
    exact fread_fwrite_disjoint _ (a + ns - 4) (int_to_bytes NODE_END_TAG) _ _ _ h4 (by omega)
      (by rw [int_to_bytes_length]; omega)
  · have h4 := fread_fwrite_same
      (fwrite (fwrite (fwrite (fwrite (fwrite (fwrite (fwrite g a
        (int_to_bytes NODE_WRITE_ACTIVE_START))
        (a + ns - 4) (int_to_bytes NODE_WRITE_ACTIVE_END))
        (a + file_node_header_size name - 4) ptr)
        a (int_to_bytes node_status_type.NODE_IN_USE.toInt))
        (a + 4) (int_to_bytes name.length))
        (a + 4 + 4) (name ++ [0]))
        (a + 4 + 4 + (name.length + 1)) (int_to_bytes ns))
      (a + 4 + 4 + (name.length + 1) + 4) (int_to_bytes ptr.length) (by omega)
      (int_to_bytes_ne_nil _)
    rw [int_to_bytes_length] at h4
    exact ⟨_, fread_fwrite_disjoint _ (a + ns - 4) (int_to_bytes NODE_END_TAG) _ _ _ h4
      (by omega) (by rw [int_to_bytes_length]; omega)⟩
  · have h5 := fread_fwrite_same
      (fwrite (fwrite (fwrite (fwrite (fwrite (fwrite (fwrite (fwrite g a
        (int_to_bytes NODE_WRITE_ACTIVE_START))
        (a + ns - 4) (int_to_bytes NODE_WRITE_ACTIVE_END))
        (a + file_node_header_size name - 4) ptr)
        a (int_to_bytes node_status_type.NODE_IN_USE.toInt))
        (a + 4) (int_to_bytes name.length))
        (a + 4 + 4) (name ++ [0]))
        (a + 4 + 4 + (name.length + 1)) (int_to_bytes ns))
        (a + 4 + 4 + (name.length + 1) + 4) (int_to_bytes ptr.length))
      (a + ns - 4) (int_to_bytes NODE_END_TAG) (by omega) (int_to_bytes_ne_nil _)
    rw [int_to_bytes_length] at h5
    exact h5
  · omega

/-- After the writes of `block_fs_unlink_file__` the file holds the free node. -/
theorem unlink_writes_free (g : List Byte) (a ns : Int) (ha : 0 ≤ a) (hns : 21 ≤ ns) :
    free_on_disk (write_list g (unlink_writes a ns)) a ns := by
  simp only [unlink_writes, write_list]
  constructor
  · have h := fread_fwrite_same g a (int_to_bytes node_status_type.NODE_FREE.toInt) ha
      (int_to_bytes_ne_nil _)
    rw [int_to_bytes_length] at h
    have h1 := fread_fwrite_disjoint _ (a + 4) (int_to_bytes ns) _ _ _ h (by omega)
      (by rw [int_to_bytes_length]; omega)
    have h2 := fread_fwrite_disjoint _ (a + 4 + 4) (int_to_bytes 0) _ _ _ h1 (by omega)
      (by rw [int_to_bytes_length]; omega)
    exact fread_fwrite_disjoint _ (a + ns - 4) (int_to_bytes NODE_END_TAG) _ _ _ h2 (by omega)
      (by rw [int_to_bytes_length]; omega)
  · have h1 := fread_fwrite_same (fwrite g a (int_to_bytes node_status_type.NODE_FREE.toInt))
      (a + 4) (int_to_bytes ns) (by omega) (int_to_bytes_ne_nil _)
    rw [int_to_bytes_length] at h1
    have h2 := fread_fwrite_disjoint _ (a + 4 + 4) (int_to_bytes 0) _ _ _ h1 (by omega)
      (by rw [int_to_bytes_length]; omega)
    exact fread_fwrite_disjoint _ (a + ns - 4) (int_to_bytes NODE_END_TAG) _ _ _ h2 (by omega)
      (by rw [int_to_bytes_length]; omega)
  · have h3 := fread_fwrite_same
      (fwrite (fwrite (fwrite g a (int_to_bytes node_status_type.NODE_FREE.toInt))
        (a + 4) (int_to_bytes ns)) (a + 4 + 4) (int_to_bytes 0))
      (a + ns - 4) (int_to_bytes NODE_END_TAG) (by omega) (int_to_bytes_ne_nil _)
    rw [int_to_bytes_length] at h3
    exact h3
  · exact hns

/-- A node in use on disk stays so under writes inside a region which does not meet the
region of the node. -/
theorem in_use_on_disk_frame (g : List Byte) (ws : List (Int × List Byte)) (a ns : Int)
    (name : filename) (b ms : Int) (hin : in_use_on_disk g a ns name)
    (hw : ∀ w ∈ ws, b ≤ w.1 ∧ w.1 + w.2.length ≤ b + ms) (hb : 0 ≤ b)
    (hd : a + ns ≤ b ∨ b + ms ≤ a) : in_use_on_disk (write_list g ws) a ns name := by
  have hf := hin.fits
  obtain ⟨x, hx⟩ := hin.data_size
  constructor
  · exact write_list_fread ws g _ _ _ hin.status
      (fun w h => ⟨by have := hw w h; omega, by have := hw w h; omega⟩)
  · exact write_list_fread ws g _ _ _ hin.name_length
      (fun w h => ⟨by have := hw w h; omega, by have := hw w h; omega⟩)
  · exact write_list_fread ws g _ _ _ hin.name_bytes
      (fun w h => ⟨by have := hw w h; omega, by have := hw w h; omega⟩)
  · exact write_list_fread ws g _ _ _ hin.node_size
      (fun w h => ⟨by have := hw w h; omega, by have := hw w h; omega⟩)
  · exact ⟨x, write_list_fread ws g _ _ _ hx
      (fun w h => ⟨by have := hw w h; omega, by have := hw w h; omega⟩)⟩
  · exact write_list_fread ws g _ _ _ hin.tail
      (fun w h => ⟨by have := hw w h; omega, by have := hw w h; omega⟩)
  · exact hf

/-- A free node on disk stays so under writes inside a region which does not meet the
region of the node. -/
theorem free_on_disk_frame (g : List Byte) (ws : List (Int × List Byte)) (a ns : Int)
    (b ms : Int) (hin : free_on_disk g a ns)
    (hw : ∀ w ∈ ws, b ≤ w.1 ∧ w.1 + w.2.length ≤ b + ms) (hb : 0 ≤ b)
    (hd : a + ns ≤ b ∨ b + ms ≤ a) : free_on_disk (write_list g ws) a ns := by
  have hf := hin.fits
  constructor
  · exact write_list_fread ws g _ _ _ hin.status
      (fun w h => ⟨by have := hw w h; omega, by have := hw w h; omega⟩)
  · exact write_list_fread ws g _ _ _ hin.node_size
      (fun w h => ⟨by have := hw w h; omega, by have := hw w h; omega⟩)
  · exact write_list_fread ws g _ _ _ hin.tail
      (fun w h => ⟨by have := hw w h; omega, by have := hw w h; omega⟩)
  · exact hf

/-- The data file after `file_node_init_fwrite`. -/
theorem file_node_init_fwrite_eq (node : file_node_type) (g st : List Byte)
    (h : file_node_init_fwrite node g = .ok st) :
    st = fwrite (fwrite g node.node_offset (int_to_bytes NODE_WRITE_ACTIVE_START))
      (node.node_offset + node.node_size - 4) (int_to_bytes NODE_WRITE_ACTIVE_END) := by
  unfold file_node_init_fwrite fseek__ at h
  split at h
  · cases h
  · rename_i p0 hp0
    split at hp0
    · cases hp0
    · simp only [Except.ok.injEq] at hp0
      subst hp0
      simp only at h
      split at h
      · cases h
      · rename_i p1 hp1
        split at hp1
        · cases hp1
        · simp only [Except.ok.injEq] at hp1
          subst hp1
          simp only [util_fwrite_int, Except.ok.injEq] at h
          exact h.symm

/-- The data file after `file_node_fwrite` for a node in use. -/
theorem file_node_fwrite_in_use_eq (node : file_node_type) (name : filename)
    (g st : List Byte) (hs : node.status = .NODE_IN_USE)
    (h : file_node_fwrite node (some name) g = .ok st) :
    st = fwrite (fwrite (fwrite (fwrite (fwrite (fwrite g node.node_offset
        (int_to_bytes node_status_type.NODE_IN_USE.toInt))
        (node.node_offset + 4) (int_to_bytes name.length))
        (node.node_offset + 4 + 4) (name ++ [0]))
        (node.node_offset + 4 + 4 + (name.length + 1)) (int_to_bytes node.node_size))
        (node.node_offset + 4 + 4 + (name.length + 1) + 4) (int_to_bytes node.data_size))
        (node.node_offset + node.node_size - 4) (int_to_bytes NODE_END_TAG) := by
  unfold file_node_fwrite fseek__ at h
  split at h
  · cases h
  · split at h
    · cases h
    · rename_i p0 hp0
      split at hp0
      · cases hp0
      · simp only [Except.ok.injEq] at hp0
        subst hp0
        simp only [hs, if_true, util_fwrite_string, util_fwrite_int] at h
        split at h
        · cases h
        · rename_i p1 hp1
          split at hp1
          · cases hp1
          · simp only [Except.ok.injEq] at hp1
            subst hp1
            simp only [Except.ok.injEq] at h
            exact h.symm

/-- The data file after `file_node_fwrite` for a free node. -/
theorem file_node_fwrite_free_eq (node : file_node_type) (key : Option filename)
    (g st : List Byte) (hs : node.status = .NODE_FREE)
    (h : file_node_fwrite node key g = .ok st) :
    st = fwrite (fwrite (fwrite (fwrite g node.node_offset
        (int_to_bytes node_status_type.NODE_FREE.toInt))
        (node.node_offset + 4) (int_to_bytes node.node_size))
        (node.node_offset + 4 + 4) (int_to_bytes node.data_size))
        (node.node_offset + node.node_size - 4) (int_to_bytes NODE_END_TAG) := by
  unfold file_node_fwrite fseek__ at h
  split at h
  · cases h
  · split at h
    · cases h
    · rename_i p0 hp0
      split at hp0
      · cases hp0
      · simp only [Except.ok.injEq] at hp0
        subst hp0
        simp only [hs, util_fwrite_int] at h
        rw [if_neg (by decide)] at h
        simp only at h
        split at h
        · cases h
        · rename_i p1 hp1
          split at hp1
          · cases hp1
          · simp only [Except.ok.injEq] at hp1
            subst hp1
            simp only [Except.ok.injEq] at h
            exact h.symm

/-- A call of `block_fs_fwrite__` which returns has either left the store as it is, or it has
counted the write and carried out the writes of `fwrite_writes`. -/
theorem fwrite_stream (nz : Bool) (fs s1 : block_fs_type) (name : filename) (h : Nat)
    (ptr : List Byte) (hw : block_fs_fwrite__ nz fs name h ptr = .ok s1) :
    s1 = fs ∨ (s1.write_count = fs.write_count + 1 ∧
      s1.data_stream = write_list fs.data_stream
        (fwrite_writes (node_at fs.file_nodes h).node_offset
          (node_at fs.file_nodes h).node_size name ptr)) := by
  unfold block_fs_fwrite__ at hw
  simp only at hw
  split at hw
  · cases hw
    exact Or.inl rfl
  · split at hw
    · cases hw
    · split at hw
      · cases hw
      · rename_i st1 hst1
        split at hw
        · cases hw
        · rename_i pos hpos
          split at hw
          · cases hw
          · rename_i st3 hst3
            split at hw
            · cases hw
            · cases hw
              refine Or.inr ⟨rfl, ?_⟩
              have e1 := file_node_init_fwrite_eq _ _ _ hst1
              have e3 := file_node_fwrite_in_use_eq _ name _ _ rfl hst3
              unfold fseek__ at hpos
              split at hpos
              · cases hpos
              · simp only [Except.ok.injEq] at hpos
                subst hpos
                simp only [file_node_set_data_offset] at e1 e3
                subst e1
                subst e3
                rfl

/-- A call of `block_fs_unlink_file__` which returns has not counted a write and has
carried out the writes of `unlink_writes`. -/
theorem unlink_file_stream (s s1 : block_fs_type) (name : filename) (h : Nat)
    (hl : hash_lookup s.index name = some h)
    (hu : block_fs_unlink_file__ s name = .ok s1) :
    s1.write_count = s.write_count ∧
    s1.data_stream = write_list s.data_stream
      (unlink_writes (node_at s.file_nodes h).node_offset (node_at s.file_nodes h).node_size) := by
  unfold block_fs_unlink_file__ hash_get at hu
  rw [hl] at hu
  simp only at hu
  split at hu
  · cases hu
  · split at hu
    · cases hu
    · rename_i st hst
      have e := file_node_fwrite_free_eq _ _ _ _ rfl hst
      unfold block_fs_insert_free_node at hu
      simp only at hu
      split at hu
      · cases hu
      · cases hu
        refine ⟨rfl, ?_⟩
        simp only at e
        subst e
        rfl

theorem node_offset_congr (nodes nodes1 : List file_node_type)
    (hg : geometry nodes1 = geometry nodes) (h : Nat) :
    (node_at nodes1 h).node_offset = (node_at nodes h).node_offset := by
  rw [node_offset_eq_geometry, node_offset_eq_geometry, hg]

/-- The regions of two different nodes of a tiled vector do not meet. -/
theorem tiles_disjoint (nodes : List file_node_type) (a b : Int)
    (ht : tiles (geometry nodes) a b) (i j : Nat) (hi : i < nodes.length)
    (hj : j < nodes.length) (hij : i ≠ j) :
    (node_at nodes i).node_offset + (node_at nodes i).node_size ≤ (node_at nodes j).node_offset ∨
    (node_at nodes j).node_offset + (node_at nodes j).node_size ≤ (node_at nodes i).node_offset := by
  rcases Nat.lt_or_gt_of_ne hij with h | h
  · exact Or.inl (tiles_ordered nodes a b ht i j h hj)
  · exact Or.inr (tiles_ordered nodes a b ht j i h hi)

/-- The two ways in which `block_fs_get_new_node` finds its node. -/
theorem get_new_node_cases (s s2 : block_fs_type) (m : Int) (h : Nat) (hi : store_inv s [])
    (hm : 21 ≤ m) (hg : block_fs_get_new_node s m = .ok (s2, h)) :
    (h ∈ s.free_nodes ∧ s2 = block_fs_unlink_free_node s h ∧ m ≤ (node_at s.file_nodes h).node_size) ∨
    (h = s.file_nodes.length ∧ ∃ ns, m ≤ ns ∧
      s2 = { s with data_file_size := s.data_file_size + ns,
                    file_nodes := s.file_nodes ++
                      [file_node_alloc .NODE_IN_USE s.data_file_size ns] }) := by
  unfold block_fs_get_new_node at hg
  cases hf : free_list_first_fit s.file_nodes m s.free_nodes with
  | some h1 =>
    rw [hf] at hg
    simp only [Except.ok.injEq, Prod.mk.injEq] at hg
    obtain ⟨e1, e2⟩ := hg
    subst e2
    obtain ⟨hmem, hfit⟩ := free_list_first_fit_some _ _ _ _ hf
    have hv : h1 < s.file_nodes.length := store_inv_valid s [] hi h1 (by simp [hmem])
    have hge := node_size_at_ge s.file_nodes 0 s.data_file_size hi.tiling h1 hv
    rw [size_t_cast_of_nonneg _ (by omega)] at hfit
    unfold node_size_at at hfit
    exact Or.inl ⟨hmem, e1.symm, by omega⟩
  | none =>
    rw [hf] at hg
    simp only at hg
    rw [if_neg (by have := hi.block; omega)] at hg
    have hup := (block_round_up m s.block_size (by omega) hi.block).1
    generalize (if Int.tmod m s.block_size ≠ 0
      then Int.tdiv m s.block_size * s.block_size + s.block_size
      else Int.tdiv m s.block_size * s.block_size) = ns at hup hg
    have hd := tiles_le _ _ _ hi.tiling
    have hmax : util_size_t_max s.data_file_size (s.data_file_size + ns)
        = s.data_file_size + ns := by
      unfold util_size_t_max
      rw [size_t_cast_of_nonneg _ hd, size_t_cast_of_nonneg _ (by omega), if_pos (by omega)]
    simp only [Except.ok.injEq, Prod.mk.injEq] at hg
    obtain ⟨e1, e2⟩ := hg
    refine Or.inr ⟨e2.symm, ns, hup, ?_⟩
    rw [← e1]
    simp only [block_fs_install_node, file_node_alloc, hmax]

/-- `block_fs_unlink_file__` keeps the data file in step with the store. -/
theorem unlink_file_disk_inv (s s1 : block_fs_type) (name : filename) (h : Nat)
    (hi : store_inv s []) (hd : disk_inv s) (hl : hash_lookup s.index name = some h)
    (hu : block_fs_unlink_file__ s name = .ok s1) : disk_inv s1 := by
  obtain ⟨s2, hu2, _, hidx, hgeo, hlen, hdfs, hfree, _⟩ := unlink_file_spec s name h hi hl
  have e : s2 = s1 := by
    rw [hu2] at hu
    exact Except.ok.inj hu
  subst e
  obtain ⟨_, hst⟩ := unlink_file_stream s s2 name h hl hu2
  have hv : h < s.file_nodes.length :=
    store_inv_valid s [] hi h (by simp [hash_lookup_mem _ _ _ hl])
  have hge := node_size_at_ge s.file_nodes 0 s.data_file_size hi.tiling h hv
  unfold node_size_at at hge
  have hwithin := unlink_writes_within (node_at s.file_nodes h).node_offset
    (node_at s.file_nodes h).node_size hge.1
  constructor
  · rw [hst, hdfs, write_list_length _ _ (by
      intro w hw
      have := hwithin w hw
      have := hd.length
      omega)]
    exact hd.length
  · rw [hdfs]; exact hd.range
  · intro k hk
    rw [hlen] at hk
    rw [node_offset_congr _ _ hgeo k, ← node_size_at, node_size_at_congr _ _ hgeo k, hst, hidx,
      hfree]
    unfold node_size_at
    by_cases hkh : k = h
    · subst hkh
      exact Or.inr ⟨(free_list_insert_perm _ _ _).mem_iff.mpr (List.mem_cons_self _ _),
        unlink_writes_free _ _ _ hge.2.1 hge.1⟩
    · have hdis := tiles_disjoint s.file_nodes 0 _ hi.tiling k h hk hv hkh
      rcases hd.nodes k hk with ⟨name2, h1, h2, h3⟩ | ⟨h1, h3⟩
      · refine Or.inl ⟨name2, ?_, h2, in_use_on_disk_frame _ _ _ _ _ _ _ h3 hwithin hge.2.1 hdis⟩
        rw [hash_lookup_remove_ne _ _ _ (by
          intro e
          rw [e, hl] at h1
          simp only [Option.some.injEq] at h1
          exact hkh h1.symm)]
        exact h1
      · exact Or.inr ⟨(free_list_insert_perm _ _ _).mem_iff.mpr (List.mem_cons_of_mem _ h1),
          free_on_disk_frame _ _ _ _ _ _ h3 hwithin hge.2.1 hdis⟩

/-- A `block_fs_fwrite__` which is carried out on the node of the name keeps the data file in
step with the store. -/
theorem fwrite_in_place_disk_inv (nz : Bool) (s s1 : block_fs_type) (name : filename)
    (h : Nat) (ptr : List Byte) (hi : store_inv s []) (hd : disk_inv s)
    (hl : hash_lookup s.index name = some h) (hz : (0 : Byte) ∉ name)
    (hfit : file_node_header_size name + ptr.length ≤ (node_at s.file_nodes h).node_size)
    (hw : block_fs_fwrite__ nz s name h ptr = .ok s1)
    (hwc : s1.write_count = s.write_count + 1) : disk_inv s1 := by
  have hf := fwrite_same_layout nz s s1 name h ptr hw
  have hv : h < s.file_nodes.length :=
    store_inv_valid s [] hi h (by simp [hash_lookup_mem _ _ _ hl])
  have hge := node_size_at_ge s.file_nodes 0 s.data_file_size hi.tiling h hv
  unfold node_size_at at hge
  have hwithin := fwrite_writes_within (node_at s.file_nodes h).node_offset
    (node_at s.file_nodes h).node_size name ptr hfit
  rcases fwrite_stream nz s s1 name h ptr hw with e | ⟨_, hst⟩
  · rw [e] at hwc
    omega
  · constructor
    · rw [hst, hf.data_file_size, write_list_length _ _ (by
        intro w hw2
        have := hwithin w hw2
        have := hd.length
        omega)]
      exact hd.length
    · rw [hf.data_file_size]; exact hd.range
    · intro k hk
      rw [hf.length] at hk
      rw [node_offset_congr _ _ hf.geometry k, ← node_size_at,
        node_size_at_congr _ _ hf.geometry k, hst, hf.index, hf.free_nodes]
      unfold node_size_at
      by_cases hkh : k = h
      · subst hkh
        exact Or.inl ⟨name, hl, hz, fwrite_writes_in_use _ _ _ _ _ hge.2.1 hfit⟩
      · have hdis := tiles_disjoint s.file_nodes 0 _ hi.tiling k h hk hv hkh
        rcases hd.nodes k hk with ⟨name2, h1, h2, h3⟩ | ⟨h1, h3⟩
        · exact Or.inl ⟨name2, h1, h2,
            in_use_on_disk_frame _ _ _ _ _ _ _ h3 hwithin hge.2.1 hdis⟩
        · exact Or.inr ⟨h1, free_on_disk_frame _ _ _ _ _ _ h3 hwithin hge.2.1 hdis⟩

theorem hash_lookup_insert_self (idx : List (filename × Nat)) (name : filename) (h : Nat) :
    hash_lookup (hash_insert_ref idx name h) name = some h := by
  unfold hash_insert_ref
  simp [hash_lookup]

/-- A `block_fs_fwrite__` which is carried out on a node from `block_fs_get_new_node`,
followed by the entry into the index, keeps the data file in step with the store. -/
theorem fwrite_new_node_disk_inv (nz : Bool) (s s2 s3 : block_fs_type) (name : filename)
    (h : Nat) (ptr : List Byte) (hi : store_inv s []) (hd : disk_inv s)
    (hn : hash_lookup s.index name = none) (hz : (0 : Byte) ∉ name)
    (hg : block_fs_get_new_node s (ptr.length + file_node_header_size name) = .ok (s2, h))
    (hw : block_fs_fwrite__ nz s2 name h ptr = .ok s3)
    (hwc : s3.write_count = s.write_count + 1)
    (hr : s3.data_file_size ≤ 2147483647) :
    disk_inv (block_fs_insert_index_node s3 name h) := by
  have hf := fwrite_same_layout nz s2 s3 name h ptr hw
  have hd0 := tiles_le _ _ _ hi.tiling
  have hne : ∀ name2 k, hash_lookup s.index name2 = some k →
      hash_lookup (hash_insert_ref s.index name h) name2 = some k := by
    intro name2 k h1
    rw [hash_lookup_insert_ne _ _ _ _ (by
      intro e
      rw [← e, hn] at h1
      cases h1)]
    exact h1
  rcases get_new_node_cases s s2 _ h hi (header_size_ge name ptr) hg with
    ⟨hmem, e2, hfit⟩ | ⟨eh, ns, hns, e2⟩
  · -- a node of the free list
    subst e2
    have hv : h < s.file_nodes.length := store_inv_valid s [] hi h (by simp [hmem])
    have hge := node_size_at_ge s.file_nodes 0 s.data_file_size hi.tiling h hv
    unfold node_size_at at hge
    have hgeo : geometry s3.file_nodes = geometry s.file_nodes := hf.geometry
    have hwithin := fwrite_writes_within (node_at s.file_nodes h).node_offset
      (node_at s.file_nodes h).node_size name ptr (by omega)
    rcases fwrite_stream nz _ s3 name h ptr hw with e | ⟨_, hst⟩
    · rw [e] at hwc
      simp only [block_fs_unlink_free_node] at hwc
      omega
    · simp only [block_fs_unlink_free_node] at hst
      constructor
      · show (s3.data_stream.length : Int) = s3.data_file_size
        rw [hst, hf.data_file_size, write_list_length _ _ (by
          intro w hw2
          have := hwithin w hw2
          have := hd.length
          omega)]
        exact hd.length
      · exact hr
      · intro k hk
        have hk2 : k < s.file_nodes.length := by
          have : s3.file_nodes.length = s.file_nodes.length := hf.length
          simpa [block_fs_insert_index_node, this] using hk
        show (∃ name2, hash_lookup (hash_insert_ref s3.index name h) name2 = some k ∧ _ ∧
            in_use_on_disk s3.data_stream (node_at s3.file_nodes k).node_offset
              (node_at s3.file_nodes k).node_size name2) ∨
          (k ∈ s3.free_nodes ∧ free_on_disk s3.data_stream (node_at s3.file_nodes k).node_offset
              (node_at s3.file_nodes k).node_size)
        rw [node_offset_congr _ _ hgeo k, ← node_size_at, node_size_at_congr _ _ hgeo k, hst,
          hf.index, hf.free_nodes]
        unfold node_size_at
        by_cases hkh : k = h
        · subst hkh
          exact Or.inl ⟨name, hash_lookup_insert_self _ _ _, hz,
            fwrite_writes_in_use _ _ _ _ _ hge.2.1 (by omega)⟩
        · have hdis := tiles_disjoint s.file_nodes 0 _ hi.tiling k h hk2 hv hkh
          rcases hd.nodes k hk2 with ⟨name2, h1, h2, h3⟩ | ⟨h1, h3⟩
          · exact Or.inl ⟨name2, hne name2 k h1, h2,
              in_use_on_disk_frame _ _ _ _ _ _ _ h3 hwithin hge.2.1 hdis⟩
          · exact Or.inr ⟨(List.mem_erase_of_ne hkh).mpr h1,
              free_on_disk_frame _ _ _ _ _ _ h3 hwithin hge.2.1 hdis⟩
  · -- a node carved at the end of the file
    subst e2
    subst eh
    have hnode : node_at (s.file_nodes ++ [file_node_alloc .NODE_IN_USE s.data_file_size ns])
        s.file_nodes.length = file_node_alloc .NODE_IN_USE s.data_file_size ns :=
      node_at_append_length _ _
    have hgeo : geometry s3.file_nodes
        = geometry (s.file_nodes ++ [file_node_alloc .NODE_IN_USE s.data_file_size ns]) :=
      hf.geometry
    have hwithin := fwrite_writes_within s.data_file_size ns name ptr (by omega)
    rcases fwrite_stream nz _ s3 name _ ptr hw with e | ⟨_, hst⟩
    · rw [e] at hwc
      simp only at hwc
      omega
    · replace hst : s3.data_stream
          = write_list s.data_stream (fwrite_writes s.data_file_size ns name ptr) := by
        rw [hst]
        simp only [hnode]
        rfl
      have hin := fwrite_writes_in_use s.data_stream s.data_file_size ns name ptr hd0
        (by omega)
      constructor
      · show (s3.data_stream.length : Int) = s3.data_file_size
        rw [hst, hf.data_file_size]
        show _ = s.data_file_size + ns
        have h1 := write_list_length_max (fwrite_writes s.data_file_size ns name ptr)
          s.data_stream (s.data_file_size + ns) (by
            intro w hw2
            have := hwithin w hw2
            omega)
        obtain ⟨_, h2, _, _⟩ := fread_eq_some _ _ _ _ hin.tail
        have := hd.length
        have := header_size_ge name ptr
        omega
      · exact hr
      · intro k hk
        have hk2 : k < s.file_nodes.length + 1 := by
          have : s3.file_nodes.length
              = (s.file_nodes ++ [file_node_alloc .NODE_IN_USE s.data_file_size ns]).length :=
            hf.length
          simpa [block_fs_insert_index_node, this] using hk
        show (∃ name2, hash_lookup (hash_insert_ref s3.index name s.file_nodes.length) name2
              = some k ∧ _ ∧
            in_use_on_disk s3.data_stream (node_at s3.file_nodes k).node_offset
              (node_at s3.file_nodes k).node_size name2) ∨
          (k ∈ s3.free_nodes ∧ free_on_disk s3.data_stream (node_at s3.file_nodes k).node_offset
              (node_at s3.file_nodes k).node_size)
        rw [node_offset_congr _ _ hgeo k, ← node_size_at, node_size_at_congr _ _ hgeo k, hst,
          hf.index, hf.free_nodes]
        unfold node_size_at
        by_cases hkh : k = s.file_nodes.length
        · subst hkh
          rw [hnode]
          simp only [file_node_alloc]
          exact Or.inl ⟨name, hash_lookup_insert_self _ _ _, hz, hin⟩
        · have hk3 : k < s.file_nodes.length := by omega
          rw [node_at_append_left _ _ _ hk3]
          have hgek := node_size_at_ge s.file_nodes 0 s.data_file_size hi.tiling k hk3
          unfold node_size_at at hgek
          rcases hd.nodes k hk3 with ⟨name2, h1, h2, h3⟩ | ⟨h1, h3⟩
          · exact Or.inl ⟨name2, hne name2 k h1, h2,
              in_use_on_disk_frame _ _ _ _ _ _ _ h3 hwithin hd0 (Or.inl hgek.2.2)⟩
          · exact Or.inr ⟨h1, free_on_disk_frame _ _ _ _ _ _ h3 hwithin hd0 (Or.inl hgek.2.2)⟩

/-- A call of `block_fs_fwrite_file` which is carried out keeps the data file in step with
the store. -/
theorem fwrite_file_disk_inv (nz : Bool) (s s1 : block_fs_type) (name : filename)
    (ptr : List Byte) (hi : store_inv s []) (hd : disk_inv s) (hz : (0 : Byte) ∉ name)
    (hw : block_fs_fwrite_file nz s name ptr = .ok s1)
    (hwc : s1.write_count = s.write_count + 1) (hr : s1.data_file_size ≤ 2147483647) :
    disk_inv s1 := by
  unfold block_fs_fwrite_file at hw
  rw [if_pos hi.owner] at hw
  simp only at hw
  cases hl : hash_lookup s.index name with
  | none =>
    have hh : block_fs_has_file s name = false := by
      unfold block_fs_has_file hash_has_key
      rw [hl]; rfl
    rw [hh] at hw
    simp only [Bool.false_eq_true, if_false] at hw
    cases hg : block_fs_get_new_node s (ptr.length + file_node_header_size name) with
    | error e => rw [hg] at hw; cases hw
    | ok r =>
      obtain ⟨s2, h⟩ := r
      rw [hg] at hw
      simp only at hw
      cases hw3 : block_fs_fwrite__ nz s2 name h ptr with
      | error e => rw [hw3] at hw; cases hw
      | ok s3 =>
        rw [hw3] at hw
        simp only [Except.ok.injEq] at hw
        subst hw
        exact fwrite_new_node_disk_inv nz s s2 s3 name h ptr hi hd hl hz hg hw3 hwc hr
  | some h =>
    have hh : block_fs_has_file s name = true := by
      unfold block_fs_has_file hash_has_key
      rw [hl]; rfl
    rw [hh] at hw
    simp only [if_true] at hw
    unfold hash_get at hw
    rw [hl] at hw
    simp only at hw
    have hv : h < s.file_nodes.length :=
      store_inv_valid s [] hi h (by simp [hash_lookup_mem _ _ _ hl])
    have hge := node_size_at_ge s.file_nodes 0 s.data_file_size hi.tiling h hv
    unfold node_size_at at hge
    rw [size_t_cast_of_nonneg _ (by omega)] at hw
    split at hw
    · cases hu : block_fs_unlink_file__ s name with
      | error e => rw [hu] at hw; cases hw
      | ok sU =>
        rw [hu] at hw
        simp only at hw
        obtain ⟨sU2, hu2, hiU, hidxU, _⟩ := unlink_file_spec s name h hi hl
        have e : sU2 = sU := by
          rw [hu2] at hu
          exact Except.ok.inj hu
        subst e
        have hdU := unlink_file_disk_inv s sU2 name h hi hd hl hu2
        obtain ⟨hwcU, _⟩ := unlink_file_stream s sU2 name h hl hu2
        have hnU : hash_lookup sU2.index name = none := by
          rw [hidxU]; exact hash_lookup_remove_self _ _
        cases hg : block_fs_get_new_node sU2 (ptr.length + file_node_header_size name) with
        | error e => rw [hg] at hw; cases hw
        | ok r =>
          obtain ⟨s2, h2⟩ := r
          rw [hg] at hw
          simp only at hw
          cases hw3 : block_fs_fwrite__ nz s2 name h2 ptr with
          | error e => rw [hw3] at hw; cases hw
          | ok s3 =>
            rw [hw3] at hw
            simp only [Except.ok.injEq] at hw
            subst hw
            exact fwrite_new_node_disk_inv nz sU2 s2 s3 name h2 ptr hiU hdU hnU hz hg hw3
              (by rw [hwcU]; exact hwc) hr
    · rename_i hfit
      exact fwrite_in_place_disk_inv nz s s1 name h ptr hi hd hl hz (by omega) hw hwc

theorem mount_empty_disk_inv (block_size max_cache_size : Int) :
    disk_inv (block_fs_mount_empty block_size max_cache_size) := by
  constructor
  · rfl
  · show (0 : Int) ≤ 2147483647
    decide
  · intro h hh
    simp [block_fs_mount_empty, block_fs_alloc_empty] at hh

/-- A store reached by calls which are carried out is a reachable store. -/
theorem reachable_in_full_reachable (nz : Bool) (block_size max_cache_size : Int)
    (s : block_fs_type) (hr : reachable_in_full nz block_size max_cache_size s) :
    reachable nz block_size max_cache_size s := by
  induction hr with
  | mount => exact reachable.mount
  | fwrite name ptr _ _ hw _ _ ih => exact reachable.fwrite name ptr ih hw
  | unlink name _ hu ih => exact reachable.unlink name ih hu

/-- In a store reached by calls which are carried out the data file is in step with the
store. -/
theorem reachable_in_full_disk_inv (nz : Bool) (block_size max_cache_size : Int)
    (hb : 0 < block_size) (s : block_fs_type)
    (hr : reachable_in_full nz block_size max_cache_size s) : disk_inv s := by
  induction hr with
  | mount => exact mount_empty_disk_inv block_size max_cache_size
  | fwrite name ptr hs hz hw hwc hrg ih =>
    exact fwrite_file_disk_inv nz _ _ name ptr
      (reachable_inv nz block_size max_cache_size hb _
        (reachable_in_full_reachable nz block_size max_cache_size _ hs)) ih hz hw hwc hrg
  | unlink name hs hu ih =>
    have hi := reachable_inv nz block_size max_cache_size hb _
      (reachable_in_full_reachable nz block_size max_cache_size _ hs)
    unfold block_fs_unlink_file at hu
    rw [if_pos hi.owner] at hu
    cases hl : hash_lookup _ name with
    | none =>
      unfold block_fs_unlink_file__ hash_get at hu
      rw [hl] at hu
      cases hu
    | some h => exact unlink_file_disk_inv _ _ name h hi ih hl hu

theorem takeWhile_append_zero (name : filename) (hz : (0 : Byte) ∉ name) :
    (name ++ [0]).takeWhile (fun b => b ≠ 0) = name := by
  induction name with
  | nil => simp
  | cons x rest ih =>
    have hx : x ≠ 0 := fun e => hz (by rw [e]; exact List.mem_cons_self _ _)
    have hr : (0 : Byte) ∉ rest := fun m => hz (List.mem_cons_of_mem _ m)
    rw [List.cons_append, List.takeWhile_cons, if_pos (by simpa using hx), ih hr]

theorem util_fread_int_of_fread (g : List Byte) (pos v : Int)
    (hf : fread g pos 4 = some (int_to_bytes v)) (h1 : -2147483648 ≤ v) (h2 : v < 2147483648) :
    util_fread_int g pos = .ok (v, pos + 4) := by
  unfold util_fread_int
  rw [hf]
  simp only [bytes_to_int_to_bytes v h1 h2]

theorem verify_end_tag_of_fread (g : List Byte) (n1 : file_node_type)
    (h0 : 0 ≤ n1.node_offset + n1.node_size - 4)
    (hf : fread g (n1.node_offset + n1.node_size - 4) 4 = some (int_to_bytes NODE_END_TAG)) :
    file_node_verify_end_tag n1 g = .ok (true, n1.node_offset + n1.node_size - 4 + 4) := by
  unfold file_node_verify_end_tag
  rw [fseek_ok _ h0]
  simp only [hf]
  rfl

/-- A node which is on disk a node in use under a name of the index is a committed node. -/
theorem node_committed_in_use (g : List Byte) (index : List (filename × Nat))
    (n : file_node_type) (name : filename)
    (hon : in_use_on_disk g n.node_offset n.node_size name) (hz : (0 : Byte) ∉ name)
    (hk : hash_has_key index name = true) (h0 : 0 ≤ n.node_offset)
    (hns : n.node_size ≤ 2147483647) : node_committed g index n = true := by
  have hfit := hon.fits
  obtain ⟨x, hx⟩ := hon.data_size
  have hname : util_fread_realloc_string g (n.node_offset + 4)
      = .ok (name, n.node_offset + 4 + 4 + ((name.length : Int) + 1)) := by
    unfold util_fread_realloc_string
    rw [util_fread_int_of_fread g _ _ hon.name_length (by omega) (by omega)]
    simp only
    rw [if_neg (by omega)]
    have e : ((name.length : Int) + 1).toNat = name.length + 1 := by omega
    rw [e, hon.name_bytes]
    simp only [takeWhile_append_zero name hz]
  have hsz := util_fread_int_of_fread g _ _ hon.node_size (by omega) (by omega)
  have hds : util_fread_int g (n.node_offset + 4 + 4 + ((name.length : Int) + 1) + 4)
      = .ok (bytes_to_int x, n.node_offset + 4 + 4 + ((name.length : Int) + 1) + 4 + 4) := by
    unfold util_fread_int
    rw [hx]
  unfold node_committed file_node_fread_alloc
  simp only [hon.status]
  rw [if_pos (by decide)]
  simp only [hname, hsz, hds]
  rw [verify_end_tag_of_fread g _ (by simp only [file_node_alloc]; omega)
    (by simp only [file_node_alloc]; exact hon.tail)]
  simp [file_node_alloc, hk]

/-- A node which is on disk a free node is a committed node. -/
theorem node_committed_free (g : List Byte) (index : List (filename × Nat))
    (n : file_node_type) (hon : free_on_disk g n.node_offset n.node_size)
    (h0 : 0 ≤ n.node_offset) (hns : n.node_size ≤ 2147483647) :
    node_committed g index n = true := by
  have hfit := hon.fits
  have hsz := util_fread_int_of_fread g _ _ hon.node_size (by omega) (by omega)
  unfold node_committed file_node_fread_alloc
  simp only [hon.status]
  rw [if_neg (by decide), if_pos (by decide)]
  simp only [hsz]
  rw [verify_end_tag_of_fread g _ (by simp only [file_node_alloc]; omega)
    (by simp only [file_node_alloc]; exact hon.tail)]
  simp [file_node_alloc]

/-- A store whose data file is in step with it has a committed disk. -/
theorem disk_inv_committed (s : block_fs_type) (hi : store_inv s []) (hd : disk_inv s) :
    disk_committed s = true := by
  unfold disk_committed
  rw [Bool.and_eq_true, List.all_eq_true]
  refine ⟨?_, by simpa using hd.length⟩
  intro n hn
  obtain ⟨h, hh, e⟩ := List.getElem_of_mem hn
  have en : node_at s.file_nodes h = n := by
    unfold node_at
    rw [List.getElem?_eq_getElem hh, e]
    rfl
  have hge := node_size_at_ge s.file_nodes 0 s.data_file_size hi.tiling h hh
  unfold node_size_at at hge
  rw [en] at hge
  have hrg := hd.range
  rcases hd.nodes h hh with ⟨name, hl, hz, hon⟩ | ⟨_, hon⟩
  · rw [en] at hon
    refine node_committed_in_use _ _ n name hon hz ?_ (by omega) (by omega)
    unfold hash_has_key
    rw [hl]; rfl
  · rw [en] at hon
    exact node_committed_free _ _ n hon (by omega) (by omega)

/-- The disk of a store reached by calls which are carried out is committed. -/
theorem reachable_in_full_committed (nz : Bool) (block_size max_cache_size : Int)
    (hb : 0 < block_size) (s : block_fs_type)
    (hr : reachable_in_full nz block_size max_cache_size s) : disk_committed s = true :=
  disk_inv_committed s
    (reachable_inv nz block_size max_cache_size hb s
      (reachable_in_full_reachable nz block_size max_cache_size s hr))
    (reachable_in_full_disk_inv nz block_size max_cache_size hb s hr)

/-! ## The choice of the node for a write -/

theorem reachable_params (nz : Bool) (block_size max_cache_size : Int) (hb : 0 < block_size)
    (s : block_fs_type) (hr : reachable nz block_size max_cache_size s) :
    s.block_size = block_size ∧ s.max_cache_size = max_cache_size := by
  induction hr with
  | mount => exact ⟨rfl, rfl⟩
  | fwrite name ptr hs hw ih =>
    obtain ⟨s2, hw2, _, h1, h2⟩ := fwrite_file_spec nz _ name ptr
      (reachable_inv nz block_size max_cache_size hb _ hs)
    rw [hw2] at hw
    cases hw
    exact ⟨h1.trans ih.1, h2.trans ih.2⟩
  | unlink name hs hu ih =>
    have hi := reachable_inv nz block_size max_cache_size hb _ hs
    unfold block_fs_unlink_file at hu
    rw [if_pos hi.owner] at hu
    cases hl : hash_lookup _ name with
    | none =>
      unfold block_fs_unlink_file__ hash_get at hu
      rw [hl] at hu
      cases hu
    | some h =>
      obtain ⟨s2, hu2, _, _, _, _, _, _, _, h1, h2⟩ := unlink_file_spec _ name h hi hl
      rw [hu2] at hu
      cases hu
      exact ⟨h1.trans ih.1, h2.trans ih.2⟩

/-- A call of `block_fs_fwrite__` leaves the nodes other than its own as they are. -/
theorem fwrite_other_nodes (nz : Bool) (s s1 : block_fs_type) (name : filename) (h : Nat)
    (ptr : List Byte) (hw : block_fs_fwrite__ nz s name h ptr = .ok s1) (k : Nat) (hk : k ≠ h) :
    node_at s1.file_nodes k = node_at s.file_nodes k := by
  unfold block_fs_fwrite__ at hw
  simp only at hw
  split at hw
  · cases hw
    rfl
  · split at hw
    · cases hw
    · split at hw
      · cases hw
      · split at hw
        · cases hw
        · split at hw
          · cases hw
          · split at hw
            · cases hw
            · cases hw
              exact node_at_set_ne _ _ _ _ (fun e => hk e.symm)

/-- A value in the range of a C `int` is its own conversion to `int`. -/
theorem int_cast_of_range (x : Int) (h1 : -2147483648 ≤ x) (h2 : x ≤ 2147483647) :
    int_cast x = x := by
  unfold int_cast
  omega

/-- The two ways in which a call of `block_fs_fwrite__` returns: at once, with the store as
it is, when the cache size is the size of the payload and `memcmp` finds no difference; or
after its writes, with the node updated and a write counted. -/
theorem fwrite_cases (nz : Bool) (fs s1 : block_fs_type) (name : filename) (h : Nat)
    (ptr : List Byte) (hw : block_fs_fwrite__ nz fs name h ptr = .ok s1) :
    (((node_at fs.file_nodes h).cache_size = ptr.length ∧
        memcmp_eq ptr (node_at fs.file_nodes h).cache ptr.length = true) ∧ s1 = fs) ∨
    (¬ ((node_at fs.file_nodes h).cache_size = ptr.length ∧
        memcmp_eq ptr (node_at fs.file_nodes h).cache ptr.length = true) ∧
      s1.data_stream = write_list fs.data_stream
        (fwrite_writes (node_at fs.file_nodes h).node_offset
          (node_at fs.file_nodes h).node_size name ptr) ∧
      s1.file_nodes = fs.file_nodes.set h
        (fwrite_node nz fs.max_cache_size (node_at fs.file_nodes h) name ptr) ∧
      s1.write_count = fs.write_count + 1) := by
  have hst := fwrite_stream nz fs s1 name h ptr hw
  unfold block_fs_fwrite__ at hw
  simp only at hw
  split at hw
  · rename_i hc
    cases hw
    exact Or.inl ⟨hc, rfl⟩
  · rename_i hc
    rcases hst with e | ⟨e1, e2⟩
    · exfalso
      subst e
      split at hw
      · cases hw
      · split at hw
        · cases hw
        · split at hw
          · cases hw
          · split at hw
            · cases hw
            · split at hw
              · cases hw
              · have := congrArg block_fs_type.write_count (Except.ok.inj hw)
                simp only at this
                omega
    · refine Or.inr ⟨hc, e2, ?_, e1⟩
      split at hw
      · cases hw
      · split at hw
        · cases hw
        · split at hw
          · cases hw
          · split at hw
            · cases hw
            · split at hw
              · cases hw
              · cases hw
                rfl

theorem memcmp_eq_length (ptr : List Byte) (cache : Option (List Byte)) :
    memcmp_eq ptr cache (ptr.length : Int) = true ↔ ptr = (cache.getD []).take ptr.length := by
  unfold memcmp_eq
  simp only [Int.toNat_ofNat, List.take_length, decide_eq_true_eq]

/-- The fields of the node after a `block_fs_fwrite__` which is carried out. -/
theorem fwrite_node_fields (nz : Bool) (mc : Int) (n : file_node_type) (name : filename)
    (ptr : List Byte) :
    (fwrite_node nz mc n name ptr).node_offset = n.node_offset ∧
    (fwrite_node nz mc n name ptr).node_size = n.node_size ∧
    (fwrite_node nz mc n name ptr).data_size = ptr.length ∧
    (fwrite_node nz mc n name ptr).data_offset
      = n.node_offset + file_node_header_size name - 4 ∧
    (fwrite_node nz mc n name ptr).status = .NODE_IN_USE := by
  unfold fwrite_node
  split
  · unfold file_node_update_cache file_node_set_data_offset
    split <;> exact ⟨rfl, rfl, rfl, rfl, rfl⟩
  · unfold file_node_clear_cache file_node_set_data_offset
    split <;> exact ⟨rfl, rfl, rfl, rfl, rfl⟩

/-- The cache of the node after a `block_fs_fwrite__` which is carried out: a payload within
the limit is the cache, where a cache for no bytes may be absent; a payload beyond the limit
leaves no cache. -/
theorem fwrite_node_cache (nz : Bool) (mc : Int) (n : file_node_type) (name : filename)
    (ptr : List Byte) (habs : n.cache = none → n.cache_size = 0)
    (hlen : ∀ c, n.cache = some c → (c.length : Int) = n.cache_size)
    (hne : ¬ (n.cache_size = ptr.length ∧ memcmp_eq ptr n.cache ptr.length = true)) :
    ((ptr.length : Int) ≤ mc →
      (fwrite_node nz mc n name ptr).cache_size = ptr.length ∧
      ((fwrite_node nz mc n name ptr).cache = some ptr ∨
        ((fwrite_node nz mc n name ptr).cache = none ∧ ptr = []))) ∧
    (mc < (ptr.length : Int) →
      (fwrite_node nz mc n name ptr).cache = none ∧
      (fwrite_node nz mc n name ptr).cache_size = 0) := by
  constructor
  · intro hle
    unfold fwrite_node
    rw [if_pos hle]
    unfold file_node_update_cache file_node_set_data_offset
    simp only
    split
    · rename_i hd
      refine ⟨rfl, ?_⟩
      simp only
      unfold util_realloc_copy
      split
      · rename_i hz
        right
        exact ⟨rfl, List.length_eq_zero.mp (by omega)⟩
      · left
        simp
    · rename_i hd
      have hsz : n.cache_size = ptr.length := by
        by_contra hc
        exact hd (fun e => hc e.symm)
      refine ⟨hsz, ?_⟩
      cases hcache : n.cache with
      | none =>
        exfalso
        have h0 := habs hcache
        apply hne
        refine ⟨hsz, ?_⟩
        rw [memcmp_eq_length, hcache]
        have : ptr.length = 0 := by omega
        rw [List.length_eq_zero.mp this]
        rfl
      | some c =>
        left
        have hl := hlen c hcache
        have hcl : c.length = ptr.length := by omega
        simp only [Option.map_some', Int.toNat_ofNat, List.take_length, Option.some.injEq]
        rw [← hcl, List.drop_length, List.append_nil]
  · intro hgt
    unfold fwrite_node
    rw [if_neg (by omega)]
    unfold file_node_clear_cache file_node_set_data_offset
    simp only
    cases hcache : n.cache with
    | none => exact ⟨rfl, habs hcache⟩
    | some c => exact ⟨rfl, rfl⟩

theorem fread_zero (f : List Byte) (pos : Int) (h0 : 0 ≤ pos) (h1 : pos ≤ f.length) :
    fread f pos 0 = some [] := by
  unfold fread
  rw [if_pos ⟨h0, by omega⟩]
  simp

/-- After the writes of a `block_fs_fwrite__` which is carried out the file holds the payload
at the data offset of the node. -/
theorem fwrite_writes_payload (g : List Byte) (a ns : Int) (name : filename) (ptr : List Byte)
    (ha : 0 ≤ a) (hns : file_node_header_size name + ptr.length ≤ ns) :
    fread (write_list g (fwrite_writes a ns name ptr)) (a + file_node_header_size name - 4)
      ptr.length = some ptr := by
  have hhs : file_node_header_size name = 21 + name.length := by
    unfold file_node_header_size; omega
  by_cases hp : ptr = []
  · have hin := fwrite_writes_in_use g a ns name ptr ha hns
    obtain ⟨x, hx⟩ := hin.data_size
    have hb := fread_eq_some _ _ _ _ hx
    subst hp
    exact fread_zero _ _ (by omega) (by omega)
  · have hnl : (name ++ [(0 : Byte)]).length = name.length + 1 := by simp
    simp only [fwrite_writes, write_list]
    have h := fread_fwrite_same
      (fwrite (fwrite g a (int_to_bytes NODE_WRITE_ACTIVE_START)) (a + ns - 4)
        (int_to_bytes NODE_WRITE_ACTIVE_END)) (a + file_node_header_size name - 4) ptr
      (by omega) hp
    have h0 := fread_fwrite_disjoint _ a (int_to_bytes node_status_type.NODE_IN_USE.toInt)
      _ _ _ h ha (by rw [int_to_bytes_length]; omega)
    have h1 := fread_fwrite_disjoint _ (a + 4) (int_to_bytes name.length) _ _ _ h0 (by omega)
      (by rw [int_to_bytes_length]; omega)
    have h2 := fread_fwrite_disjoint _ (a + 4 + 4) (name ++ [0]) _ _ _ h1 (by omega)
      (by rw [hnl]; omega)
    have h3 := fread_fwrite_disjoint _ (a + 4 + 4 + (name.length + 1)) (int_to_bytes ns)
      _ _ _ h2 (by omega) (by rw [int_to_bytes_length]; omega)
    have h4 := fread_fwrite_disjoint _ (a + 4 + 4 + (name.length + 1) + 4)
      (int_to_bytes ptr.length) _ _ _ h3 (by omega) (by rw [int_to_bytes_length]; omega)
    exact fread_fwrite_disjoint _ (a + ns - 4) (int_to_bytes NODE_END_TAG) _ _ _ h4 (by omega)
      (by rw [int_to_bytes_length]; omega)

/-- The caches of the nodes outside a region are kept in step by writes inside the region. -/
theorem node_cache_ok_frame (g : List Byte) (ws : List (Int × List Byte)) (mc : Int)
    (n : file_node_type) (b ms : Int) (hok : node_cache_ok g mc n)
    (hw : ∀ w ∈ ws, b ≤ w.1 ∧ w.1 + w.2.length ≤ b + ms) (hb : 0 ≤ b)
    (hd : n.node_offset + n.node_size ≤ b ∨ b + ms ≤ n.node_offset) :
    node_cache_ok (write_list g ws) mc n := by
  refine ⟨hok.absent, hok.length, hok.bound, ?_⟩
  intro c hc
  rcases hok.disk c hc with ⟨h1, h2, h3⟩ | ⟨h1, h2, h3, h4⟩
  · left
    have := write_list_length_le ws g
    exact ⟨h1, h2, by omega⟩
  · right
    refine ⟨h1, h2, h3, ?_⟩
    apply write_list_fread ws g _ _ _ h4
    intro w hww
    have hwb := hw w hww
    have hl := hok.length c hc
    have hnn : 0 ≤ n.data_size := by omega
    refine ⟨by omega, ?_⟩
    rcases hd with hd | hd
    · left
      omega
    · right
      omega

/-- A call of `block_fs_fwrite__` on a node with room for header and payload keeps the caches
in step with the data file; the cache of its node is the payload when that is within the
limit, where a cache for no bytes may be absent, and its node has no cache otherwise. -/
theorem fwrite_cache_nodes (nz : Bool) (s s1 : block_fs_type) (name : filename) (h : Nat)
    (ptr : List Byte) (out : List Nat) (hi : store_inv s out) (hv : h < s.file_nodes.length)
    (hfit : file_node_header_size name + ptr.length ≤ (node_at s.file_nodes h).node_size)
    (hc : ∀ k, k < s.file_nodes.length →
      node_cache_ok s.data_stream s.max_cache_size (node_at s.file_nodes k))
    (hw : block_fs_fwrite__ nz s name h ptr = .ok s1) :
    (∀ k, k < s1.file_nodes.length →
      node_cache_ok s1.data_stream s1.max_cache_size (node_at s1.file_nodes k)) ∧
    ((ptr.length : Int) ≤ s.max_cache_size →
      (node_at s1.file_nodes h).cache_size = ptr.length ∧
      ((node_at s1.file_nodes h).cache = some ptr ∨
        ((node_at s1.file_nodes h).cache = none ∧ ptr = []))) ∧
    (s.max_cache_size < (ptr.length : Int) →
      (node_at s1.file_nodes h).cache = none ∧ (node_at s1.file_nodes h).cache_size = 0) := by
  have hlay := fwrite_same_layout nz s s1 name h ptr hw
  have hge := node_size_at_ge s.file_nodes 0 s.data_file_size hi.tiling h hv
  unfold node_size_at at hge
  have hok := hc h hv
  rcases fwrite_cases nz s s1 name h ptr hw with ⟨⟨hsz, hcmp⟩, e⟩ | ⟨hne, hstream, hnodes, _⟩
  · subst e
    rw [memcmp_eq_length] at hcmp
    have hcase : (node_at s1.file_nodes h).cache = some ptr ∨
        ((node_at s1.file_nodes h).cache = none ∧ ptr = []) := by
      cases hcache : (node_at s1.file_nodes h).cache with
      | none =>
        right
        rw [hcache] at hcmp
        exact ⟨rfl, by simpa using hcmp⟩
      | some c =>
        left
        have hl := hok.length c hcache
        rw [hcache] at hcmp
        simp only [Option.getD_some] at hcmp
        have hcl : c.length = ptr.length := by omega
        rw [← hcl, List.take_length] at hcmp
        rw [hcmp]
    refine ⟨hc, fun _ => ⟨hsz, hcase⟩, ?_⟩
    intro hgt
    rcases hcase with hsome | ⟨hnone, _⟩
    · have := hok.bound ptr hsome
      omega
    · exact ⟨hnone, hok.absent hnone⟩
  · obtain ⟨f1, f2, f3, f4, _⟩ := fwrite_node_fields nz s.max_cache_size
      (node_at s.file_nodes h) name ptr
    obtain ⟨c1, c2⟩ := fwrite_node_cache nz s.max_cache_size (node_at s.file_nodes h) name ptr
      hok.absent hok.length hne
    have hself : node_at s1.file_nodes h
        = fwrite_node nz s.max_cache_size (node_at s.file_nodes h) name ptr := by
      rw [hnodes, node_at_set_self _ _ _ hv]
    have hhs : file_node_header_size name = 21 + name.length := by
      unfold file_node_header_size; omega
    refine ⟨?_, ?_, ?_⟩
    · intro k hk
      rw [hlay.length] at hk
      rw [hlay.max_cache_size, hstream]
      by_cases hkh : k = h
      · subst hkh
        rw [hself]
        by_cases hle : (ptr.length : Int) ≤ s.max_cache_size
        · obtain ⟨d1, d2⟩ := c1 hle
          refine ⟨?_, ?_, ?_, ?_⟩
          · intro hn
            rcases d2 with d2 | ⟨_, d2⟩
            · rw [d2] at hn
              cases hn
            · rw [d1, d2]
              rfl
          · intro c hcs
            rcases d2 with d2 | ⟨d2, _⟩
            · rw [d2] at hcs
              cases hcs
              exact d1.symm
            · rw [d2] at hcs
              cases hcs
          · intro c _
            rw [d1]
            exact hle
          · intro c hcs
            right
            rcases d2 with d2 | ⟨d2, _⟩
            · rw [d2] at hcs
              cases hcs
              refine ⟨by rw [f3, d1], by rw [f1, f4]; omega, by rw [f1, f2, f3, f4]; omega, ?_⟩
              rw [f3, f4, Int.toNat_ofNat]
              exact fwrite_writes_payload _ _ _ _ _ hge.2.1 hfit
            · rw [d2] at hcs
              cases hcs
        · obtain ⟨d1, d2⟩ := c2 (by omega)
          refine ⟨fun _ => d2, ?_, ?_, ?_⟩ <;>
          · intro c hcs
            rw [d1] at hcs
            cases hcs
      · rw [hnodes, node_at_set_ne _ _ _ _ (fun e => hkh e.symm)]
        apply node_cache_ok_frame _ _ _ _ _ _ (hc k hk)
          (fwrite_writes_within _ _ name ptr hfit) hge.2.1
        exact tiles_disjoint s.file_nodes 0 _ hi.tiling k h hk hv hkh
    · intro hle
      rw [hself]
      exact c1 hle
    · intro hgt
      rw [hself]
      exact c2 hgt

theorem store_inv_handles_nodup (s : block_fs_type) (out : List Nat) (hi : store_inv s out) :
    (handles s.index).Nodup := by
  have h1 : (handles s.index ++ s.free_nodes ++ out).Nodup :=
    hi.perm.nodup_iff.mpr (List.nodup_range _)
  exact (List.nodup_append.mp (List.nodup_append.mp h1).1).1

/-- Two names of the index do not share a node. -/
theorem hash_lookup_inj (idx : List (filename × Nat)) (hn : (handles idx).Nodup)
    (k1 k2 : filename) (h : Nat) (h1 : hash_lookup idx k1 = some h)
    (h2 : hash_lookup idx k2 = some h) : k1 = k2 := by
  induction idx with
  | nil => simp [hash_lookup] at h1
  | cons x rest ih =>
    obtain ⟨k, v⟩ := x
    simp only [handles, List.map_cons, List.nodup_cons] at hn
    simp only [hash_lookup] at h1 h2
    by_cases e1 : k = k1
    · rw [if_pos e1] at h1
      simp only [Option.some.injEq] at h1
      by_cases e2 : k = k2
      · exact e1.symm.trans e2
      · rw [if_neg e2] at h2
        exact absurd (hash_lookup_mem _ _ _ h2) (h1 ▸ hn.1)
    · rw [if_neg e1] at h1
      by_cases e2 : k = k2
      · rw [if_pos e2] at h2
        simp only [Option.some.injEq] at h2
        exact absurd (hash_lookup_mem _ _ _ h1) (h2 ▸ hn.1)
      · rw [if_neg e2] at h2
        exact ih hn.2 h1 h2

/-- The nodes and the index after `block_fs_unlink_file__`. -/
theorem unlink_file_nodes (s s1 : block_fs_type) (name : filename) (h : Nat)
    (hl : hash_lookup s.index name = some h)
    (hu : block_fs_unlink_file__ s name = .ok s1) :
    s1.file_nodes = s.file_nodes.set h
      { node_at s.file_nodes h with
        status := .NODE_FREE, data_offset := 0, data_size := 0 } ∧
    s1.index = hash_remove s.index name ∧ s1.max_cache_size = s.max_cache_size ∧
    s1.free_nodes = free_list_insert s1.file_nodes h s.free_nodes := by
  unfold block_fs_unlink_file__ hash_get at hu
  rw [hl] at hu
  simp only at hu
  split at hu
  · cases hu
  · split at hu
    · cases hu
    · unfold block_fs_insert_free_node at hu
      simp only at hu
      split at hu
      · cases hu
      · cases hu
        exact ⟨rfl, rfl, rfl, rfl⟩

/-- A call of `block_fs_unlink_file__` keeps the caches in step with the data file. -/
theorem unlink_file_cache_inv (s s1 : block_fs_type) (name : filename) (h : Nat)
    (hi : store_inv s []) (hc : cache_inv s) (hl : hash_lookup s.index name = some h)
    (hu : block_fs_unlink_file__ s name = .ok s1) : cache_inv s1 := by
  obtain ⟨hnodes, hidx, hmc, _⟩ := unlink_file_nodes s s1 name h hl hu
  obtain ⟨_, hstream⟩ := unlink_file_stream s s1 name h hl hu
  have hv : h < s.file_nodes.length :=
    store_inv_valid s [] hi h (by simp [hash_lookup_mem _ _ _ hl])
  have hge := node_size_at_ge s.file_nodes 0 s.data_file_size hi.tiling h hv
  unfold node_size_at at hge
  have hok := hc.nodes h hv
  constructor
  · intro k hk
    rw [hnodes, List.length_set] at hk
    rw [hmc, hstream, hnodes]
    by_cases hkh : k = h
    · subst hkh
      rw [node_at_set_self _ _ _ hv]
      refine ⟨hok.absent, hok.length, hok.bound, ?_⟩
      intro c _
      left
      exact ⟨rfl, Int.le_refl _, by show (0 : Int) ≤ _; omega⟩
    · rw [node_at_set_ne _ _ _ _ (fun e => hkh e.symm)]
      apply node_cache_ok_frame _ _ _ _ _ _ (hc.nodes k hk)
        (unlink_writes_within _ _ hge.1) hge.2.1
      exact tiles_disjoint s.file_nodes 0 _ hi.tiling k h hk hv hkh
  · intro name2 h2 hl2
    rw [hidx] at hl2
    have hne : name2 ≠ name := by
      intro e
      rw [e, hash_lookup_remove_self] at hl2
      cases hl2
    rw [hash_lookup_remove_ne _ _ _ hne] at hl2
    have hh : h2 ≠ h := by
      intro e
      rw [e] at hl2
      exact hne (hash_lookup_inj s.index (store_inv_handles_nodup s [] hi) _ _ h hl2 hl)
    rw [hnodes, node_at_set_ne _ _ _ _ (fun e => hh e.symm)]
    exact hc.room name2 h2 hl2

/-- The nodes after `block_fs_get_new_node`: the old nodes are as they were, and a node carved
at the end of the file has no cache. -/
theorem get_new_node_cache_nodes (s s2 : block_fs_type) (m : Int) (h : Nat)
    (hi : store_inv s []) (hm : 21 ≤ m)
    (hc : ∀ k, k < s.file_nodes.length →
      node_cache_ok s.data_stream s.max_cache_size (node_at s.file_nodes k))
    (hg : block_fs_get_new_node s m = .ok (s2, h)) :
    (∀ k, k < s2.file_nodes.length →
      node_cache_ok s2.data_stream s2.max_cache_size (node_at s2.file_nodes k)) ∧
    (∀ k, k < s.file_nodes.length → node_at s2.file_nodes k = node_at s.file_nodes k) ∧
    s2.index = s.index ∧ s2.max_cache_size = s.max_cache_size := by
  rcases get_new_node_cases s s2 m h hi hm hg with ⟨_, e2, _⟩ | ⟨_, ns, _, e2⟩
  · subst e2
    exact ⟨hc, fun _ _ => rfl, rfl, rfl⟩
  · subst e2
    refine ⟨?_, fun k hk => node_at_append_left _ _ _ hk, rfl, rfl⟩
    intro k hk
    show node_cache_ok s.data_stream s.max_cache_size
      (node_at (s.file_nodes ++ [file_node_alloc .NODE_IN_USE s.data_file_size ns]) k)
    by_cases hkl : k < s.file_nodes.length
    · rw [node_at_append_left _ _ _ hkl]
      exact hc k hkl
    · have hk2 : k < s.file_nodes.length + 1 := by simpa using hk
      have e : k = s.file_nodes.length := by omega
      rw [e, node_at_append_length]
      refine ⟨fun _ => rfl, ?_, ?_, ?_⟩ <;>
      · intro c hcs
        cases hcs

/-- The part of `block_fs_fwrite_file` from `block_fs_get_new_node` on keeps the caches in
step with the data file. -/
theorem fwrite_new_node_cache_inv (nz : Bool) (s s2 s3 : block_fs_type) (name : filename)
    (h : Nat) (ptr : List Byte) (hi : store_inv s []) (hc : cache_inv s)
    (hg : block_fs_get_new_node s (ptr.length + file_node_header_size name) = .ok (s2, h))
    (hw : block_fs_fwrite__ nz s2 name h ptr = .ok s3) :
    cache_inv (block_fs_insert_index_node s3 name h) ∧
    ((ptr.length : Int) ≤ s.max_cache_size →
      (node_at s3.file_nodes h).cache_size = ptr.length ∧
      ((node_at s3.file_nodes h).cache = some ptr ∨
        ((node_at s3.file_nodes h).cache = none ∧ ptr = []))) ∧
    (s.max_cache_size < (ptr.length : Int) →
      (node_at s3.file_nodes h).cache = none ∧ (node_at s3.file_nodes h).cache_size = 0) := by
  obtain ⟨t, k, hg2, hi2, hv, hsz, _, _, _, _⟩ :=
    get_new_node_spec s _ hi (header_size_ge name ptr)
  rw [hg] at hg2
  simp only [Except.ok.injEq, Prod.mk.injEq] at hg2
  obtain ⟨e1, e2⟩ := hg2
  subst e1 e2
  obtain ⟨hn2, hold, hidx, hmc⟩ := get_new_node_cache_nodes s s2 _ h hi
    (header_size_ge name ptr) hc.nodes hg
  unfold node_size_at at hsz
  obtain ⟨hn3, p1, p2⟩ := fwrite_cache_nodes nz s2 s3 name h ptr [h] hi2 hv (by omega) hn2 hw
  rw [hmc] at p1 p2
  have hlay := fwrite_same_layout nz s2 s3 name h ptr hw
  have hsz3 := node_size_at_congr _ _ hlay.geometry h
  unfold node_size_at at hsz3
  have hnotin : h ∉ handles s.index := by
    have h1 : (handles s2.index ++ s2.free_nodes ++ [h]).Nodup :=
      hi2.perm.nodup_iff.mpr (List.nodup_range _)
    rw [hidx] at h1
    intro hm
    have := (List.nodup_append.mp h1).2.2
    exact this (List.mem_append_left _ hm) (List.mem_singleton_self h)
  refine ⟨⟨hn3, ?_⟩, p1, p2⟩
  intro name2 h2 hl2
  show file_node_header_size name2 + (node_at s3.file_nodes h2).cache_size
    ≤ (node_at s3.file_nodes h2).node_size
  have hl3 : hash_lookup (hash_insert_ref s3.index name h) name2 = some h2 := hl2
  by_cases hne : name = name2
  · subst hne
    rw [hash_lookup_insert_self] at hl3
    simp only [Option.some.injEq] at hl3
    subst hl3
    rw [hsz3]
    have hhs := header_size_ge name ptr
    by_cases hle : (ptr.length : Int) ≤ s.max_cache_size
    · rw [(p1 hle).1]
      omega
    · rw [(p2 (by omega)).2]
      unfold file_node_header_size at hsz ⊢
      omega
  · rw [hash_lookup_insert_ne _ _ _ _ hne, hlay.index, hidx] at hl3
    have hh : h2 ≠ h := by
      intro e
      rw [e] at hl3
      exact hnotin (hash_lookup_mem _ _ _ hl3)
    have hv2 : h2 < s.file_nodes.length :=
      store_inv_valid s [] hi h2 (by simp [hash_lookup_mem _ _ _ hl3])
    rw [fwrite_other_nodes nz s2 s3 name h ptr hw h2 hh, hold h2 hv2]
    exact hc.room name2 h2 hl3

/-- The node of a name after a call of `block_fs_fwrite_file`: the caches are in step with
the data file, the index holds a node under the name, and the cache of that node is the
payload when that is within the limit, where a cache for no bytes may be absent, and the node
has no cache otherwise. -/
theorem fwrite_file_cache_inv (nz : Bool) (s s1 : block_fs_type) (name : filename)
    (ptr : List Byte) (hi : store_inv s []) (hc : cache_inv s)
    (hw : block_fs_fwrite_file nz s name ptr = .ok s1) :
    cache_inv s1 ∧ ∃ h, hash_lookup s1.index name = some h ∧
      ((ptr.length : Int) ≤ s.max_cache_size →
        (node_at s1.file_nodes h).cache_size = ptr.length ∧
        ((node_at s1.file_nodes h).cache = some ptr ∨
          ((node_at s1.file_nodes h).cache = none ∧ ptr = []))) ∧
      (s.max_cache_size < (ptr.length : Int) →
        (node_at s1.file_nodes h).cache = none ∧
        (node_at s1.file_nodes h).cache_size = 0) := by
  unfold block_fs_fwrite_file at hw
  rw [if_pos hi.owner] at hw
  simp only at hw
  cases hl : hash_lookup s.index name with
  | none =>
    have hh : block_fs_has_file s name = false := by
      unfold block_fs_has_file hash_has_key
      rw [hl]; rfl
    rw [hh] at hw
    simp only [Bool.false_eq_true, if_false] at hw
    cases hg : block_fs_get_new_node s (ptr.length + file_node_header_size name) with
    | error e => rw [hg] at hw; cases hw
    | ok r =>
      obtain ⟨s2, h⟩ := r
      rw [hg] at hw
      simp only at hw
      cases hw3 : block_fs_fwrite__ nz s2 name h ptr with
      | error e => rw [hw3] at hw; cases hw
      | ok s3 =>
        rw [hw3] at hw
        simp only [Except.ok.injEq] at hw
        subst hw
        obtain ⟨c1, c2, c3⟩ := fwrite_new_node_cache_inv nz s s2 s3 name h ptr hi hc hg hw3
        exact ⟨c1, h, hash_lookup_insert_self _ _ _, c2, c3⟩
  | some h =>
    have hh : block_fs_has_file s name = true := by
      unfold block_fs_has_file hash_has_key
      rw [hl]; rfl
    rw [hh] at hw
    simp only [if_true] at hw
    unfold hash_get at hw
    rw [hl] at hw
    simp only at hw
    have hv : h < s.file_nodes.length :=
      store_inv_valid s [] hi h (by simp [hash_lookup_mem _ _ _ hl])
    have hge := node_size_at_ge s.file_nodes 0 s.data_file_size hi.tiling h hv
    unfold node_size_at at hge
    rw [size_t_cast_of_nonneg _ (by omega)] at hw
    split at hw
    · cases hu : block_fs_unlink_file__ s name with
      | error e => rw [hu] at hw; cases hw
      | ok sU =>
        rw [hu] at hw
        simp only at hw
        obtain ⟨sU2, hu2, hiU, _, _, _, _, _, _, _, hmcU⟩ := unlink_file_spec s name h hi hl
        have e : sU2 = sU := by
          rw [hu2] at hu
          exact Except.ok.inj hu
        subst e
        have hcU := unlink_file_cache_inv s sU2 name h hi hc hl hu2
        cases hg : block_fs_get_new_node sU2 (ptr.length + file_node_header_size name) with
        | error e => rw [hg] at hw; cases hw
        | ok r =>
          obtain ⟨s2, h2⟩ := r
          rw [hg] at hw
          simp only at hw
          cases hw3 : block_fs_fwrite__ nz s2 name h2 ptr with
          | error e => rw [hw3] at hw; cases hw
          | ok s3 =>
            rw [hw3] at hw
            simp only [Except.ok.injEq] at hw
            subst hw
            obtain ⟨c1, c2, c3⟩ :=
              fwrite_new_node_cache_inv nz sU2 s2 s3 name h2 ptr hiU hcU hg hw3
            rw [hmcU] at c2 c3
            exact ⟨c1, h2, hash_lookup_insert_self _ _ _, c2, c3⟩
    · rename_i hfit
      obtain ⟨hn1, p1, p2⟩ := fwrite_cache_nodes nz s s1 name h ptr [] hi hv (by omega)
        hc.nodes hw
      have hlay := fwrite_same_layout nz s s1 name h ptr hw
      have hsz1 := node_size_at_congr _ _ hlay.geometry h
      unfold node_size_at at hsz1
      refine ⟨⟨hn1, ?_⟩, h, by rw [hlay.index]; exact hl, p1, p2⟩
      intro name2 h2 hl2
      rw [hlay.index] at hl2
      by_cases hhe : h2 = h
      · subst hhe
        have hne := hash_lookup_inj s.index (store_inv_handles_nodup s [] hi) _ _ h2 hl2 hl
        subst hne
        rw [hsz1]
        have hhs := header_size_ge name2 ptr
        by_cases hle : (ptr.length : Int) ≤ s.max_cache_size
        · rw [(p1 hle).1]
          omega
        · rw [(p2 (by omega)).2]
          omega
      · rw [fwrite_other_nodes nz s s1 name h ptr hw h2 hhe]
        exact hc.room name2 h2 hl2

theorem mount_empty_cache_inv (block_size max_cache_size : Int) :
    cache_inv (block_fs_mount_empty block_size max_cache_size) := by
  constructor
  · intro h hh
    simp [block_fs_mount_empty, block_fs_alloc_empty] at hh
  · intro name h hl
    simp [block_fs_mount_empty, block_fs_alloc_empty, hash_lookup] at hl

/-- In every reachable store the caches are in step with the data file. -/
theorem reachable_cache_inv (nz : Bool) (block_size max_cache_size : Int)
    (hb : 0 < block_size) (s : block_fs_type)
    (hr : reachable nz block_size max_cache_size s) : cache_inv s := by
  induction hr with
  | mount => exact mount_empty_cache_inv block_size max_cache_size
  | fwrite name ptr hs hw ih =>
    exact (fwrite_file_cache_inv nz _ _ name ptr
      (reachable_inv nz block_size max_cache_size hb _ hs) ih hw).1
  | unlink name hs hu ih =>
    have hi := reachable_inv nz block_size max_cache_size hb _ hs
    unfold block_fs_unlink_file at hu
    rw [if_pos hi.owner] at hu
    cases hl : hash_lookup _ name with
    | none =>
      unfold block_fs_unlink_file__ hash_get at hu
      rw [hl] at hu
      cases hu
    | some h => exact unlink_file_cache_inv _ _ name h hi ih hl hu

/-- For a node whose cache is in step with the data file, `block_fs_fread__` gives for the
data size of the node the same bytes from the cache as from the data file. -/
theorem cache_read_eq_disk_read (s : block_fs_type) (mc : Int) (n : file_node_type)
    (hok : node_cache_ok s.data_stream mc n) (h0 : 0 ≤ n.node_offset) (c : List Byte)
    (hc : n.cache = some c) :
    ∃ bytes, block_fs_fread__ s n n.data_size = .ok bytes ∧
      block_fs_fread__ s { n with cache := none } n.data_size = .ok bytes := by
  have hl := hok.length c hc
  rcases hok.disk c hc with ⟨h1, h2, h3⟩ | ⟨h1, h2, _, h4⟩
  · refine ⟨[], ?_, ?_⟩
    · unfold block_fs_fread__
      rw [hc, h1]
      simp [size_t_cast]
    · unfold block_fs_fread__
      simp only
      rw [fseek_ok _ h2, h1]
      simp only
      have e : (size_t_cast 0).toNat = 0 := by simp [size_t_cast]
      rw [e, fread_zero _ _ h2 h3]
  · have hnn : 0 ≤ n.data_size := by omega
    have e : (size_t_cast n.data_size).toNat = c.length := by
      rw [size_t_cast_of_nonneg _ hnn]
      omega
    have e2 : n.data_size.toNat = c.length := by omega
    refine ⟨c, ?_, ?_⟩
    · unfold block_fs_fread__
      rw [hc]
      simp only
      rw [e, if_pos (Nat.le_refl _), List.take_length]
    · unfold block_fs_fread__
      simp only
      rw [fseek_ok _ (by omega)]
      simp only
      rw [e, ← e2, h4]

/-- The node of a name after `block_fs_unlink_file` in a reachable store: it is in the free
list with the status `NODE_FREE`, the data size 0 and the data offset 0, and its cache and
cache size are what they were. -/
theorem unlink_file_resets_node (nz : Bool) (block_size max_cache_size : Int)
    (hb : 0 < block_size) (s : block_fs_type) (hr : reachable nz block_size max_cache_size s)
    (name : filename) (h : Nat) (hl : hash_lookup s.index name = some h) :
    ∃ s1, block_fs_unlink_file s name = .ok s1 ∧
      (node_at s1.file_nodes h).status = .NODE_FREE ∧
      (node_at s1.file_nodes h).data_size = 0 ∧ (node_at s1.file_nodes h).data_offset = 0 ∧
      h ∈ s1.free_nodes ∧
      (node_at s1.file_nodes h).cache = (node_at s.file_nodes h).cache ∧
      (node_at s1.file_nodes h).cache_size = (node_at s.file_nodes h).cache_size := by
  have hi := reachable_inv nz block_size max_cache_size hb s hr
  have hv : h < s.file_nodes.length :=
    store_inv_valid s [] hi h (by simp [hash_lookup_mem _ _ _ hl])
  obtain ⟨s1, hu, _⟩ := unlink_file_spec s name h hi hl
  obtain ⟨hnodes, _, _, hfree⟩ := unlink_file_nodes s s1 name h hl hu
  have hself := node_at_set_self s.file_nodes
    { node_at s.file_nodes h with
      status := node_status_type.NODE_FREE, data_offset := 0, data_size := 0 } h hv
  rw [← hnodes] at hself
  refine ⟨s1, ?_, ?_, ?_, ?_, ?_, ?_, ?_⟩
  · unfold block_fs_unlink_file
    rw [if_pos hi.owner]
    exact hu
  · rw [hself]
  · rw [hself]
  · rw [hself]
  · rw [hfree]
    exact (free_list_insert_perm _ _ _).mem_iff.mpr (List.mem_cons_self _ _)
  · rw [hself]
  · rw [hself]

/-- The write of no bytes under a new name returns at once: the node has no cache. -/
theorem fwrite_file_empty_payload_no_cache (nz : Bool) :
    (run_calls nz (block_fs_mount_empty 32 8) [.fwrite_file [97] []]
      >>= fun s => hash_get s.index [97]
      >>= fun h => pure ((node_at s.file_nodes h).cache, (node_at s.file_nodes h).cache_size,
        s.write_count)) = .ok (none, 0, 0) := by
  cases nz <;> decide

/-! ## The preload -/

/-- The loop of `block_fs_preload` on nodes whose payload lies in the buffer: it returns, it
leaves the nodes outside the index as they are, and it has called `file_node_update_cache`
once for every node of the index. -/
theorem preload_loop_spec (nz : Bool) (mc : Int) (buffer : List Byte)
    (idx : List (filename × Nat)) (nodes : List file_node_type)
    (hnd : (handles idx).Nodup) (hv : ∀ h ∈ handles idx, h < nodes.length)
    (hpay : ∀ h ∈ handles idx, 0 ≤ (node_at nodes h).data_size ∧
      0 ≤ (node_at nodes h).data_offset ∧
      (node_at nodes h).data_offset + (node_at nodes h).data_size ≤ buffer.length)
    (hm : ∀ h ∈ handles idx, (node_at nodes h).data_size < mc) :
    ∃ nodes1, block_fs_preload_loop nz mc buffer idx nodes = .ok nodes1 ∧
      nodes1.length = nodes.length ∧
      (∀ k, k ∉ handles idx → node_at nodes1 k = node_at nodes k) ∧
      (∀ h ∈ handles idx, node_at nodes1 h
        = file_node_update_cache nz (node_at nodes h) (node_at nodes h).data_size
            (buffer.drop (node_at nodes h).data_offset.toNat)) := by
  induction idx generalizing nodes with
  | nil =>
    exact ⟨nodes, rfl, rfl, fun _ _ => rfl, fun h hh => absurd hh (List.not_mem_nil h)⟩
  | cons x rest ih =>
    obtain ⟨name, h⟩ := x
    simp only [handles, List.map_cons, List.nodup_cons] at hnd
    have hmem : h ∈ handles ((name, h) :: rest) := List.mem_cons_self _ _
    have hrest : ∀ k ∈ handles rest, k ∈ handles ((name, h) :: rest) :=
      fun k hk => List.mem_cons_of_mem _ hk
    have hp := hpay h hmem
    have hvh := hv h hmem
    have hother : ∀ k ∈ handles rest,
        node_at (nodes.set h (file_node_update_cache nz (node_at nodes h)
          (node_at nodes h).data_size (buffer.drop (node_at nodes h).data_offset.toNat))) k
        = node_at nodes k := by
      intro k hk
      apply node_at_set_ne
      intro e
      rw [e] at hnd
      exact hnd.1 hk
    obtain ⟨nodes1, e1, e2, e3, e4⟩ := ih
      (nodes.set h (file_node_update_cache nz (node_at nodes h)
        (node_at nodes h).data_size (buffer.drop (node_at nodes h).data_offset.toNat)))
      hnd.2
      (fun k hk => by rw [List.length_set]; exact hv k (hrest k hk))
      (fun k hk => by rw [hother k hk]; exact hpay k (hrest k hk))
      (fun k hk => by rw [hother k hk]; exact hm k (hrest k hk))
    refine ⟨nodes1, ?_, ?_, ?_, ?_⟩
    · simp only [block_fs_preload_loop]
      rw [if_pos (hm h hmem), if_pos]
      · exact e1
      · by_cases hz : (node_at nodes h).data_size = 0
        · exact Or.inl hz
        · exact Or.inr ⟨by omega, hp.2.1, hp.2.2⟩
    · rw [e2, List.length_set]
    · intro k hk
      have hk1 : k ≠ h := fun e => hk (e ▸ hmem)
      have hk2 : k ∉ handles rest := fun hc => hk (hrest k hc)
      rw [e3 k hk2]
      exact node_at_set_ne _ _ _ _ (fun e => hk1 e.symm)
    · intro k hk
      rcases List.mem_cons.mp hk with e | e
      · subst e
        rw [e3 k hnd.1]
        exact node_at_set_self _ _ _ hvh
      · rw [e4 k e, hother k e]

/-- The bytes of a buffer which holds the first part of a file are the bytes of the file. -/
theorem fread_buffer (stream buffer : List Byte) (n : Nat) (hb : fread stream 0 n = some buffer)
    (off : Int) (m : Nat) (h0 : 0 ≤ off) (h1 : off + m ≤ n) :
    fread stream off m = some ((buffer.drop off.toNat).take m) := by
  obtain ⟨_, hlen, hbl, hget⟩ := fread_eq_some _ _ _ _ hb
  apply fread_of_getElem? _ _ _ _ h0 (by simp at hlen; omega)
  · rw [List.length_take, List.length_drop]
    omega
  · intro j hj
    rw [List.getElem?_take, if_pos hj, List.getElem?_drop, hget _ (by omega)]
    simp

/-! ## The nodes of the index hold header and payload -/

theorem store_a_reachable : reachable true 32 0 store_a :=
  reachable.fwrite [97] [1, 2, 3] reachable.mount (by decide)

theorem store_a_unlinked_reachable : reachable true 32 0 store_a_unlinked :=
  reachable.unlink [97] store_a_reachable (by decide)


theorem store_a_reachable_in_full : reachable_in_full true 32 0 store_a :=
  reachable_in_full.fwrite [97] [1, 2, 3] reachable_in_full.mount (by decide) (by decide)
    (by decide) (by decide)

theorem store_a_unlinked_reachable_in_full : reachable_in_full true 32 0 store_a_unlinked :=
  reachable_in_full.unlink [97] store_a_reachable_in_full (by decide)

theorem store_a64_reachable : reachable true 64 0 store_a64 :=
  reachable.fwrite [97] [1, 2, 3] reachable.mount (by decide)

theorem store_a_cached_reachable (nz : Bool) : reachable nz 32 8 store_a_cached :=
  reachable.fwrite [97] [1, 2, 3] reachable.mount (by cases nz <;> decide)

/-- C2: in every store reachable from a freshly mounted empty owner store, for every name
which is in the index, `block_fs_unlink_file` returns, and afterwards `block_fs_has_file` is
false and `block_fs_fread_file` and `block_fs_get_filesize` fail with `not_found`. -/
theorem unlink_file_then_not_found (nz : Bool) (block_size max_cache_size : Int)
    (hb : 0 < block_size) (s : block_fs_type)
    (hr : reachable nz block_size max_cache_size s) (name : filename)
    (hh : block_fs_has_file s name = true) :
    ∃ s1, block_fs_unlink_file s name = .ok s1 ∧ block_fs_has_file s1 name = false ∧
      block_fs_fread_file s1 name = .error .not_found ∧
      block_fs_get_filesize s1 name = .error .not_found := by
  have hi := reachable_inv nz block_size max_cache_size hb s hr
  unfold block_fs_has_file hash_has_key at hh
  obtain ⟨h, hl⟩ := Option.isSome_iff_exists.mp hh
  obtain ⟨s1, hu, _, hidx, _⟩ := unlink_file_spec s name h hi hl
  have hn : hash_lookup s1.index name = none := by
    rw [hidx]; exact hash_lookup_remove_self _ _
  refine ⟨s1, ?_, ?_, ?_, ?_⟩
  · unfold block_fs_unlink_file
    rw [if_pos hi.owner]
    exact hu
  · unfold block_fs_has_file hash_has_key
    rw [hn]; rfl
  · unfold block_fs_fread_file hash_get
    rw [hn]
  · unfold block_fs_get_filesize hash_get
    rw [hn]

theorem unlink_file_then_not_found_witness :
    (0 : Int) < 32 ∧ reachable true 32 0 store_a ∧ block_fs_has_file store_a [97] = true ∧
    ∃ s1, block_fs_unlink_file store_a [97] = .ok s1 ∧ block_fs_has_file s1 [97] = false ∧
      block_fs_fread_file s1 [97] = .error .not_found ∧
      block_fs_get_filesize s1 [97] = .error .not_found :=
  ⟨by decide, store_a_reachable, by decide,
    unlink_file_then_not_found true 32 0 (by decide) store_a store_a_reachable [97] (by decide)⟩

/-- C7: in every store reachable from a freshly mounted empty store, every node of the
ownership vector is referenced by the index or by the free list, not by both, and there is
exactly one reference to it in the two together. -/
theorem reachable_one_reference (nz : Bool) (block_size max_cache_size : Int)
    (hb : 0 < block_size) (s : block_fs_type)
    (hr : reachable nz block_size max_cache_size s) (h : Nat) (hv : h < s.file_nodes.length) :
    (h ∈ handles s.index ∨ h ∈ s.free_nodes) ∧ ¬ (h ∈ handles s.index ∧ h ∈ s.free_nodes) ∧
    (handles s.index).count h + s.free_nodes.count h = 1 := by
  have hi := reachable_inv nz block_size max_cache_size hb s hr
  have hp := hi.perm
  rw [List.append_nil] at hp
  have hmem : h ∈ handles s.index ++ s.free_nodes := hp.mem_iff.mpr (List.mem_range.mpr hv)
  have hnd : (handles s.index ++ s.free_nodes).Nodup := hp.nodup_iff.mpr (List.nodup_range _)
  have hc : (handles s.index ++ s.free_nodes).count h = 1 := List.count_eq_one_of_mem hnd hmem
  rw [List.count_append] at hc
  refine ⟨List.mem_append.mp hmem, ?_, hc⟩
  rintro ⟨h1, h2⟩
  have c1 : 0 < (handles s.index).count h := List.count_pos_iff.mpr h1
  have c2 : 0 < s.free_nodes.count h := List.count_pos_iff.mpr h2
  omega

theorem reachable_one_reference_witness :
    (0 : Int) < 32 ∧ reachable true 32 0 store_a_unlinked ∧ 0 < store_a_unlinked.file_nodes.length ∧
    ((0 ∈ handles store_a_unlinked.index ∨ 0 ∈ store_a_unlinked.free_nodes) ∧
      ¬ (0 ∈ handles store_a_unlinked.index ∧ 0 ∈ store_a_unlinked.free_nodes) ∧
      (handles store_a_unlinked.index).count 0 + store_a_unlinked.free_nodes.count 0 = 1) :=
  ⟨by decide, store_a_unlinked_reachable, by decide,
    reachable_one_reference true 32 0 (by decide) store_a_unlinked store_a_unlinked_reachable 0
      (by decide)⟩

/-! ## The free list -/

theorem insert_free_node_fields (t t1 : block_fs_type) (new : Nat)
    (hins : block_fs_insert_free_node t new = .ok t1) :
    t1.free_nodes = free_list_insert t.file_nodes new t.free_nodes ∧
    t1.free_size = t.free_size + node_size_at t.file_nodes new ∧
    t1.file_nodes = t.file_nodes ∧ t1.num_free_nodes = t.num_free_nodes + 1 := by
  unfold block_fs_insert_free_node at hins
  simp only at hins
  split at hins
  · cases hins
  · cases hins
    exact ⟨rfl, rfl, rfl, rfl⟩

/-- C9: in every reachable store `free_size` is the sum of `node_size` over the free list;
`block_fs_insert_free_node` adds the size of the inserted node to `free_size` and to that sum,
`block_fs_unlink_free_node` takes the size of the removed node from both, and
`block_fs_fwrite__`, `block_fs_install_node` and `block_fs_insert_index_node` change neither
`free_size` nor the free list. -/
theorem reachable_free_size (nz : Bool) (block_size max_cache_size : Int)
    (hb : 0 < block_size) (s : block_fs_type)
    (hr : reachable nz block_size max_cache_size s) :
    s.free_size = size_sum s.file_nodes s.free_nodes ∧
    (∀ t new t1, block_fs_insert_free_node t new = .ok t1 →
      t1.free_size = t.free_size + node_size_at t.file_nodes new ∧
      size_sum t1.file_nodes t1.free_nodes
        = size_sum t.file_nodes t.free_nodes + node_size_at t.file_nodes new) ∧
    (∀ t node, node ∈ t.free_nodes →
      (block_fs_unlink_free_node t node).free_size
        = t.free_size - node_size_at t.file_nodes node ∧
      size_sum (block_fs_unlink_free_node t node).file_nodes
          (block_fs_unlink_free_node t node).free_nodes
        = size_sum t.file_nodes t.free_nodes - node_size_at t.file_nodes node) ∧
    (∀ z t name h ptr t1, block_fs_fwrite__ z t name h ptr = .ok t1 →
      t1.free_size = t.free_size ∧ t1.free_nodes = t.free_nodes) ∧
    (∀ t node, (block_fs_install_node t node).free_size = t.free_size ∧
      (block_fs_install_node t node).free_nodes = t.free_nodes) ∧
    (∀ t name h, (block_fs_insert_index_node t name h).free_size = t.free_size ∧
      (block_fs_insert_index_node t name h).free_nodes = t.free_nodes) := by
  refine ⟨(reachable_inv nz block_size max_cache_size hb s hr).free_size_eq, ?_, ?_, ?_, ?_, ?_⟩
  · intro t new t1 hins
    obtain ⟨e1, e2, e3, _⟩ := insert_free_node_fields t t1 new hins
    refine ⟨e2, ?_⟩
    rw [e1, e3, size_sum_perm _ _ _ (free_list_insert_perm _ _ _)]
    simp [size_sum]
    omega
  · intro t node hmem
    refine ⟨rfl, ?_⟩
    show size_sum t.file_nodes (t.free_nodes.erase node) = _
    have e1 := size_sum_perm t.file_nodes _ _ (List.perm_cons_erase hmem)
    have e2 : size_sum t.file_nodes (node :: t.free_nodes.erase node)
        = node_size_at t.file_nodes node + size_sum t.file_nodes (t.free_nodes.erase node) := by
      simp [size_sum]
    omega
  · intro z t name h ptr t1 hw
    have hf := fwrite_same_layout z t t1 name h ptr hw
    exact ⟨hf.free_size, hf.free_nodes⟩
  · intro t node
    exact ⟨rfl, rfl⟩
  · intro t name h
    exact ⟨rfl, rfl⟩

theorem reachable_free_size_witness :
    (0 : Int) < 32 ∧ reachable true 32 0 store_a_unlinked ∧
    store_a_unlinked.free_size = size_sum store_a_unlinked.file_nodes store_a_unlinked.free_nodes :=
  ⟨by decide, store_a_unlinked_reachable,
    (reachable_free_size true 32 0 (by decide) store_a_unlinked store_a_unlinked_reachable).1⟩

/-- C10: when the free list of a store is in the order of non-decreasing node size, it is
still so after `block_fs_insert_free_node` of any node, the inserted node is a member and the
old members are kept; after `block_fs_unlink_free_node` of a member of a list without
repetition it is still so, the removed node is no member and the other members are kept; and
the free list of every reachable store is in that order. -/
theorem free_list_stays_sorted (s : block_fs_type)
    (hs : free_list_sorted s.file_nodes s.free_nodes) :
    (∀ new s1, block_fs_insert_free_node s new = .ok s1 →
      free_list_sorted s1.file_nodes s1.free_nodes ∧ new ∈ s1.free_nodes ∧
      ∀ x ∈ s.free_nodes, x ∈ s1.free_nodes) ∧
    (∀ node ∈ s.free_nodes, s.free_nodes.Nodup →
      free_list_sorted (block_fs_unlink_free_node s node).file_nodes
        (block_fs_unlink_free_node s node).free_nodes ∧
      node ∉ (block_fs_unlink_free_node s node).free_nodes ∧
      ∀ x ∈ s.free_nodes, x ≠ node → x ∈ (block_fs_unlink_free_node s node).free_nodes) ∧
    (∀ nz block_size max_cache_size t, 0 < block_size →
      reachable nz block_size max_cache_size t → free_list_sorted t.file_nodes t.free_nodes) := by
  refine ⟨?_, ?_, ?_⟩
  · intro new s1 hins
    obtain ⟨e1, _, e3, _⟩ := insert_free_node_fields s s1 new hins
    rw [e1, e3]
    have hp := free_list_insert_perm s.file_nodes new s.free_nodes
    refine ⟨free_list_insert_sorted _ _ _ hs, hp.mem_iff.mpr (List.mem_cons_self _ _), ?_⟩
    intro x hx
    exact hp.mem_iff.mpr (List.mem_cons_of_mem _ hx)
  · intro node _ hnd
    refine ⟨List.Pairwise.sublist (List.erase_sublist node s.free_nodes) hs, ?_, ?_⟩
    · show node ∉ s.free_nodes.erase node
      exact fun hm => ((List.Nodup.mem_erase_iff hnd).mp hm).1 rfl
    · intro x hx hne
      show x ∈ s.free_nodes.erase node
      exact (List.mem_erase_of_ne hne).mpr hx
  · intro nz block_size max_cache_size t hb hr
    exact (reachable_inv nz block_size max_cache_size hb t hr).sorted

theorem free_list_stays_sorted_witness :
    free_list_sorted store_a_unlinked.file_nodes store_a_unlinked.free_nodes ∧
    0 ∈ store_a_unlinked.free_nodes ∧ store_a_unlinked.free_nodes.Nodup ∧
    (free_list_sorted (block_fs_unlink_free_node store_a_unlinked 0).file_nodes
        (block_fs_unlink_free_node store_a_unlinked 0).free_nodes ∧
      0 ∉ (block_fs_unlink_free_node store_a_unlinked 0).free_nodes ∧
      ∀ x ∈ store_a_unlinked.free_nodes, x ≠ 0 →
        x ∈ (block_fs_unlink_free_node store_a_unlinked 0).free_nodes) ∧
    block_fs_insert_free_node (block_fs_unlink_free_node store_a_unlinked 0) 0
      = .ok { store_a_unlinked with free_size := 32 } ∧
    0 ∈ ({ store_a_unlinked with free_size := 32 } : block_fs_type).free_nodes :=
  ⟨List.pairwise_singleton _ _, by decide, by decide,
    (free_list_stays_sorted store_a_unlinked (List.pairwise_singleton _ _)).2.1 0 (by decide)
      (by decide),
    by decide,
    ((free_list_stays_sorted (block_fs_unlink_free_node store_a_unlinked 0)
      List.Pairwise.nil).1 0 _ (by decide)).2.1⟩

/-! ## Writes which return before they write -/

/-- C1: with block size 32 and a cache of 8 bytes, after the calls write of 1, 2, 3 under
"a" and unlink of "a", the write of 1, 2, 3 under "b" returns with "b" in the index, but the
file size of "b" is 0 and the read yields no bytes. And with no cache, after the write of
1, 2, 3 under "a" the write of the empty payload under "a" leaves the store as it is: the
file size of "a" is 3 and the read yields 1, 2, 3. -/
theorem fwrite_file_payload_not_stored (nz : Bool) :
    (run_calls nz (block_fs_mount_empty 32 8)
        [.fwrite_file [97] [1, 2, 3], .unlink_file [97], .fwrite_file [98] [1, 2, 3]]
      >>= fun s => pure (block_fs_has_file s [98], block_fs_get_filesize s [98],
        block_fs_fread_file s [98])) = .ok (true, .ok 0, .ok []) ∧
    run_calls nz (block_fs_mount_empty 32 0) [.fwrite_file [97] [1, 2, 3]] = .ok store_a ∧
    block_fs_fwrite_file nz store_a [97] [] = .ok store_a ∧
    block_fs_has_file store_a [97] = true ∧
    block_fs_get_filesize store_a [97] = .ok 3 ∧
    block_fs_fread_file store_a [97] = .ok [1, 2, 3] := by
  cases nz <;> decide

/-- C4: with block size 32 and a cache of 8 bytes, the calls write, unlink, write of the
payload 1, 2, 3 under the name "a" leave the file size 0 and the read result empty, while the
single write leaves the file size 3 and the read result 1, 2, 3. -/
theorem fwrite_unlink_fwrite_differs (nz : Bool) :
    (run_calls nz (block_fs_mount_empty 32 8)
        [.fwrite_file [97] [1, 2, 3], .unlink_file [97], .fwrite_file [97] [1, 2, 3]]
      >>= fun s => block_fs_get_filesize s [97]) = .ok 0 ∧
    (run_calls nz (block_fs_mount_empty 32 8)
        [.fwrite_file [97] [1, 2, 3], .unlink_file [97], .fwrite_file [97] [1, 2, 3]]
      >>= fun s => block_fs_fread_file s [97]) = .ok [] ∧
    (run_calls nz (block_fs_mount_empty 32 8) [.fwrite_file [97] [1, 2, 3]]
      >>= fun s => block_fs_get_filesize s [97]) = .ok 3 ∧
    (run_calls nz (block_fs_mount_empty 32 8) [.fwrite_file [97] [1, 2, 3]]
      >>= fun s => block_fs_fread_file s [97]) = .ok [1, 2, 3] := by
  cases nz <;> decide

/-- C8: with block size 32 and a cache of 8 bytes, after the calls write of 1, 2, 3 under
"a", unlink of "a" and write of 1, 2, 3 under "b", the index refers under "b" to a node
whose status is `NODE_FREE`, and the free list is empty. -/
theorem fwrite_file_leaves_free_status (nz : Bool) :
    (run_calls nz (block_fs_mount_empty 32 8)
        [.fwrite_file [97] [1, 2, 3], .unlink_file [97], .fwrite_file [98] [1, 2, 3]]
      >>= fun s => hash_get s.index [98]
      >>= fun h => pure ((node_at s.file_nodes h).status, s.free_nodes))
      = .ok (.NODE_FREE, []) := by
  cases nz <;> decide

set_option maxRecDepth 8000 in
/-- C3: with block size 32 and a cache of 8 bytes, after the writes of 1, 2, 3 under "a", of
40 bytes under "a" and of 1, 2, 3 under "b" the name "b" is in the index, and the scan of
the data file by `block_fs_build_index` ends with an index without "b". And with no cache,
the write of the empty payload under "a" to the freshly mounted store returns with "a" in
the index and an empty data file, whose scan gives an empty index. -/
theorem fwrite_file_payload_lost (nz : Bool) (fuel : Nat) :
    (run_calls nz (block_fs_mount_empty 32 8)
        [.fwrite_file [97] [1, 2, 3], .fwrite_file [97] (List.replicate 40 7),
          .fwrite_file [98] [1, 2, 3]]
      >>= fun s => pure (block_fs_has_file s [98])) = .ok true ∧
    (run_calls nz (block_fs_mount_empty 32 8)
        [.fwrite_file [97] [1, 2, 3], .fwrite_file [97] (List.replicate 40 7),
          .fwrite_file [98] [1, 2, 3]]
      >>= fun s => block_fs_mount_scan 8 32 8 true s.data_stream
      >>= fun r => pure (block_fs_has_file r.1 [97], block_fs_has_file r.1 [98], r.2.2))
      = .ok (true, false, []) ∧
    (run_calls nz (block_fs_mount_empty 32 0) [.fwrite_file [97] []]
      >>= fun s => pure (block_fs_has_file s [97], s.data_stream)) = .ok (true, []) ∧
    (block_fs_mount_scan (fuel + 1) 32 0 true []
      >>= fun r => pure (r.1.index, r.1.file_nodes)) = .ok ([], []) := by
  refine ⟨?_, ?_, ?_, rfl⟩
  · cases nz <;> decide
  · cases nz <;> decide
  · cases nz <;> decide

/-! ## A write which stops while it brings in a new name -/

set_option maxRecDepth 8000 in
/-- On `store_a` the data file of the finished write of 1, 2, 3 under "b" is the data file
at the last point of `block_fs_fwrite_file_crash` with the end tag written over the last
word of the node. -/
theorem store_a_crash_then_end_tag :
    (block_fs_fwrite_file_crash store_a [98] [1, 2, 3] (.header 5)).map
        (fun st => fwrite st 60 (int_to_bytes NODE_END_TAG))
      = (match block_fs_fwrite_file true store_a [98] [1, 2, 3] with
          | .ok s1 => some s1.data_stream
          | .error _ => none) := by
  decide

/-! ## The node of a write -/

/-- C12: in a reachable store, when the index holds the node `h` under the name and the
size of the node is not below the header size of the name plus the length of the payload,
`block_fs_fwrite_file` returns, the index is as before and holds `h` under the name, offset
and size of the node are as before, and so are `data_file_size`, `free_size`, the free list,
the number of free nodes and the number of nodes. -/
theorem fwrite_file_in_place (nz : Bool) (block_size max_cache_size : Int)
    (hb : 0 < block_size) (s : block_fs_type) (hr : reachable nz block_size max_cache_size s)
    (name : filename) (ptr : List Byte) (h : Nat) (hl : hash_lookup s.index name = some h)
    (hfit : file_node_header_size name + ptr.length ≤ (node_at s.file_nodes h).node_size) :
    ∃ s1, block_fs_fwrite_file nz s name ptr = .ok s1 ∧
      s1.index = s.index ∧ hash_lookup s1.index name = some h ∧
      (node_at s1.file_nodes h).node_offset = (node_at s.file_nodes h).node_offset ∧
      (node_at s1.file_nodes h).node_size = (node_at s.file_nodes h).node_size ∧
      s1.data_file_size = s.data_file_size ∧ s1.free_size = s.free_size ∧
      s1.free_nodes = s.free_nodes ∧ s1.num_free_nodes = s.num_free_nodes ∧
      s1.file_nodes.length = s.file_nodes.length := by
  have hi := reachable_inv nz block_size max_cache_size hb s hr
  have hv : h < s.file_nodes.length :=
    store_inv_valid s [] hi h (by simp [hash_lookup_mem _ _ _ hl])
  have hge := node_size_at_ge s.file_nodes 0 s.data_file_size hi.tiling h hv
  unfold node_size_at at hge
  obtain ⟨s1, hw⟩ := fwrite_ok nz s name h ptr (by omega) hfit (tiles_le _ _ _ hi.tiling)
  have hlay := fwrite_same_layout nz s s1 name h ptr hw
  have hsz := node_size_at_congr _ _ hlay.geometry h
  unfold node_size_at at hsz
  refine ⟨s1, ?_, hlay.index, by rw [hlay.index]; exact hl,
    node_offset_congr _ _ hlay.geometry h, hsz, hlay.data_file_size, hlay.free_size,
    hlay.free_nodes, hlay.num_free, hlay.length⟩
  have hh : block_fs_has_file s name = true := by
    unfold block_fs_has_file hash_has_key
    rw [hl]; rfl
  unfold block_fs_fwrite_file
  rw [if_pos hi.owner]
  simp only
  rw [hh]
  simp only [if_true]
  unfold hash_get
  rw [hl]
  simp only
  rw [size_t_cast_of_nonneg _ (by omega), if_neg (by omega)]
  exact hw

theorem fwrite_file_in_place_witness :
    (0 : Int) < 64 ∧ reachable true 64 0 store_a64 ∧
    hash_lookup store_a64.index [97] = some 0 ∧
    file_node_header_size [97] + (([9, 9, 9, 9] : List Byte).length : Int)
      ≤ (node_at store_a64.file_nodes 0).node_size ∧
    ∃ s1, block_fs_fwrite_file true store_a64 [97] [9, 9, 9, 9] = .ok s1 ∧
      s1.index = store_a64.index ∧ hash_lookup s1.index [97] = some 0 ∧
      (node_at s1.file_nodes 0).node_offset = (node_at store_a64.file_nodes 0).node_offset ∧
      (node_at s1.file_nodes 0).node_size = (node_at store_a64.file_nodes 0).node_size ∧
      s1.data_file_size = store_a64.data_file_size ∧ s1.free_size = store_a64.free_size ∧
      s1.free_nodes = store_a64.free_nodes ∧
      s1.num_free_nodes = store_a64.num_free_nodes ∧
      s1.file_nodes.length = store_a64.file_nodes.length :=
  ⟨by decide, store_a64_reachable, by decide, by decide,
    fwrite_file_in_place true 64 0 (by decide) store_a64 store_a64_reachable [97]
      [9, 9, 9, 9] 0 (by decide) (by decide)⟩

/-- The function `block_fs_unlink_file` is `block_fs_aquire_wlock` followed by
`block_fs_unlink_file__`, and `block_fs_fwrite_file` does not get beyond
`block_fs_aquire_wlock` when that aborts. -/
theorem calls_after_wlock (nz : Bool) (s : block_fs_type) (name : filename) (ptr : List Byte) :
    block_fs_unlink_file s name
      = (block_fs_aquire_wlock s >>= fun _ => block_fs_unlink_file__ s name) ∧
    block_fs_fwrite_file nz s name ptr
      = (block_fs_aquire_wlock s >>= fun _ => block_fs_fwrite_file nz s name ptr) := by
  unfold block_fs_unlink_file block_fs_aquire_wlock
  cases ho : s.data_owner
  · refine ⟨rfl, ?_⟩
    unfold block_fs_fwrite_file
    rw [ho]
    rfl
  · exact ⟨rfl, rfl⟩

/-- C14: on a store which is not data owner `block_fs_aquire_wlock`, the first statement of
`block_fs_fwrite_file` and of `block_fs_unlink_file`, aborts, and the two calls end with that
abort for every name and payload. Nothing has been done to the store by then:
`block_fs_aquire_wlock` has no effect on it, and the write reaches none of the points at
which the data file has been written to. -/
theorem read_only_store_refuses (s : block_fs_type) (ho : s.data_owner = false) :
    block_fs_aquire_wlock s = .error .read_only ∧
    (∀ nz name ptr, block_fs_fwrite_file nz s name ptr = .error .read_only) ∧
    (∀ name, block_fs_unlink_file s name = .error .read_only) ∧
    (∀ name ptr c, block_fs_fwrite_file_crash s name ptr c = none) := by
  refine ⟨?_, ?_, ?_, ?_⟩
  · unfold block_fs_aquire_wlock
    rw [ho]
    rfl
  · intro nz name ptr
    unfold block_fs_fwrite_file
    rw [ho]
    rfl
  · intro name
    unfold block_fs_unlink_file
    rw [ho]
    rfl
  · intro name ptr c
    unfold block_fs_fwrite_file_crash
    rw [ho]
    rfl

theorem read_only_store_refuses_witness :
    ({ store_a with data_owner := false } : block_fs_type).data_owner = false ∧
    block_fs_fwrite_file true { store_a with data_owner := false } [98] [1, 2, 3]
      = .error .read_only ∧
    block_fs_unlink_file { store_a with data_owner := false } [97] = .error .read_only ∧
    block_fs_fread_file { store_a with data_owner := false } [97] = .ok [1, 2, 3] :=
  ⟨rfl,
    (read_only_store_refuses { store_a with data_owner := false } rfl).2.1 true [98] [1, 2, 3],
    (read_only_store_refuses { store_a with data_owner := false } rfl).2.2.1 [97],
    by decide⟩

/-! ## Writes and the cache -/

/-- C15: in a reachable store, when the index holds under the name a node whose cache is the
payload, `block_fs_fwrite_file` returns with the store it was called on: the data file, the
index, the free list, all nodes, `data_file_size` and `write_count` are as before. -/
theorem fwrite_file_same_cache (nz : Bool) (block_size max_cache_size : Int)
    (hb : 0 < block_size) (s : block_fs_type) (hr : reachable nz block_size max_cache_size s)
    (name : filename) (ptr : List Byte) (h : Nat) (hl : hash_lookup s.index name = some h)
    (hc : (node_at s.file_nodes h).cache = some ptr) :
    block_fs_fwrite_file nz s name ptr = .ok s := by
  have hi := reachable_inv nz block_size max_cache_size hb s hr
  have hci := reachable_cache_inv nz block_size max_cache_size hb s hr
  have hv : h < s.file_nodes.length :=
    store_inv_valid s [] hi h (by simp [hash_lookup_mem _ _ _ hl])
  have hge := node_size_at_ge s.file_nodes 0 s.data_file_size hi.tiling h hv
  unfold node_size_at at hge
  have hlen := (hci.nodes h hv).length ptr hc
  have hroom := hci.room name h hl
  have hh : block_fs_has_file s name = true := by
    unfold block_fs_has_file hash_has_key
    rw [hl]; rfl
  unfold block_fs_fwrite_file
  rw [if_pos hi.owner]
  simp only
  rw [hh]
  simp only [if_true]
  unfold hash_get
  rw [hl]
  simp only
  rw [size_t_cast_of_nonneg _ (by omega), if_neg (by omega)]
  unfold block_fs_fwrite__
  simp only
  rw [if_pos]
  refine ⟨hlen.symm, ?_⟩
  rw [memcmp_eq_length, hc]
  simp

theorem fwrite_file_same_cache_witness :
    (0 : Int) < 32 ∧ reachable true 32 8 store_a_cached ∧
    hash_lookup store_a_cached.index [97] = some 0 ∧
    (node_at store_a_cached.file_nodes 0).cache = some [1, 2, 3] ∧
    block_fs_fwrite_file true store_a_cached [97] [1, 2, 3] = .ok store_a_cached :=
  ⟨by decide, store_a_cached_reachable true, by decide, by decide,
    fwrite_file_same_cache true 32 8 (by decide) store_a_cached (store_a_cached_reachable true)
      [97] [1, 2, 3] 0 (by decide) (by decide)⟩

/-- The cache of the node after a write: in a reachable store every call of
`block_fs_fwrite_file` with a payload whose length is in the range of a C `int`, as
`block_fs_fwrite__` takes it, returns with a node in the index under the name. When the payload is not longer than `max_cache_size`, the
cache size of the node is the length of the payload and the bytes of its cache are the
payload: the cache is the payload, or, for the payload of no bytes, it may be absent. When the
payload is longer, the node has no cache and the cache size 0. And when the node has a cache,
`block_fs_fread__` gives for the data size of the node, which is 0 after the early return of
`block_fs_fwrite__`, the same bytes from the cache as from the data file at the data
offset. -/
theorem fwrite_file_cache_fields (nz : Bool) (block_size max_cache_size : Int)
    (hb : 0 < block_size) (s : block_fs_type) (hr : reachable nz block_size max_cache_size s)
    (name : filename) (ptr : List Byte) (hp : (ptr.length : Int) ≤ 2147483647) :
    int_cast ptr.length = ptr.length ∧
    ∃ s1 h, block_fs_fwrite_file nz s name ptr = .ok s1 ∧
      hash_lookup s1.index name = some h ∧
      ((ptr.length : Int) ≤ max_cache_size →
        (node_at s1.file_nodes h).cache_size = ptr.length ∧
        (node_at s1.file_nodes h).cache.getD [] = ptr ∧
        (ptr ≠ [] → (node_at s1.file_nodes h).cache = some ptr)) ∧
      (max_cache_size < (ptr.length : Int) →
        (node_at s1.file_nodes h).cache = none ∧
        (node_at s1.file_nodes h).cache_size = 0) ∧
      (∀ c, (node_at s1.file_nodes h).cache = some c →
        ∃ bytes, block_fs_fread__ s1 (node_at s1.file_nodes h)
            (node_at s1.file_nodes h).data_size = .ok bytes ∧
          block_fs_fread__ s1 { node_at s1.file_nodes h with cache := none }
            (node_at s1.file_nodes h).data_size = .ok bytes) := by
  refine ⟨int_cast_of_range _ (by omega) hp, ?_⟩
  have hi := reachable_inv nz block_size max_cache_size hb s hr
  have hci := reachable_cache_inv nz block_size max_cache_size hb s hr
  have hmc := (reachable_params nz block_size max_cache_size hb s hr).2
  obtain ⟨s1, hw, hi1, _, _⟩ := fwrite_file_spec nz s name ptr hi
  obtain ⟨hci1, h, hl1, p1, p2⟩ := fwrite_file_cache_inv nz s s1 name ptr hi hci hw
  rw [hmc] at p1 p2
  have hv : h < s1.file_nodes.length :=
    store_inv_valid s1 [] hi1 h (by simp [hash_lookup_mem _ _ _ hl1])
  have hge := node_size_at_ge s1.file_nodes 0 s1.data_file_size hi1.tiling h hv
  refine ⟨s1, h, hw, hl1, ?_, p2, ?_⟩
  · intro hle
    obtain ⟨q1, q2⟩ := p1 hle
    refine ⟨q1, ?_, ?_⟩
    · rcases q2 with q2 | ⟨q2, q3⟩
      · rw [q2]; rfl
      · rw [q2, q3]; rfl
    · intro hne
      rcases q2 with q2 | ⟨_, q3⟩
      · exact q2
      · exact absurd q3 hne
  · intro c hc
    exact cache_read_eq_disk_read s1 s1.max_cache_size _ (hci1.nodes h hv) hge.2.1 c hc

theorem fwrite_file_cache_fields_witness :
    (0 : Int) < 32 ∧ reachable true 32 8 store_a_cached ∧
    ∃ s1 h, block_fs_fwrite_file true store_a_cached [98] [4, 5] = .ok s1 ∧
      hash_lookup s1.index [98] = some h ∧
      (node_at s1.file_nodes h).cache_size = 2 ∧
      (node_at s1.file_nodes h).cache = some [4, 5] := by
  refine ⟨by decide, store_a_cached_reachable true, ?_⟩
  obtain ⟨_, s1, h, h1, h2, h3, _, _⟩ :=
    fwrite_file_cache_fields true 32 8 (by decide) store_a_cached
      (store_a_cached_reachable true) [98] [4, 5] (by decide)
  obtain ⟨q1, _, q3⟩ := h3 (by decide)
  exact ⟨s1, h, h1, h2, q1, q3 (by decide)⟩

set_option maxRecDepth 8000 in
/-- C16, where the code departs from it: with block size 32 and a cache of 8 bytes, after
the write of 1, 2, 3 under "a", the unlink of "a" and the write of 1, 2, 3 under "b", the
index holds under "b" the node 0. The unlink has left the cache 1, 2, 3 on the node, so
`block_fs_fwrite__` returns at once and writes nothing: the node has the cache 1, 2, 3 of the
size 3, as the claim says, and the data offset 0 and the data size 0, and the data file
holds at the offset 0 the status word of a free node. `block_fs_fread__` for three bytes
gives 1, 2, 3 from the cache and 170, 170, 170 from the data file at the data offset. -/
theorem cache_differs_from_data_file :
    (run_calls true (block_fs_mount_empty 32 8)
        [.fwrite_file [97] [1, 2, 3], .unlink_file [97], .fwrite_file [98] [1, 2, 3]]
      >>= fun s => pure (hash_lookup s.index [98])) = .ok (some 0) ∧
    (run_calls true (block_fs_mount_empty 32 8)
        [.fwrite_file [97] [1, 2, 3], .unlink_file [97], .fwrite_file [98] [1, 2, 3]]
      >>= fun s => pure (node_at s.file_nodes 0).cache) = .ok (some [1, 2, 3]) ∧
    (run_calls true (block_fs_mount_empty 32 8)
        [.fwrite_file [97] [1, 2, 3], .unlink_file [97], .fwrite_file [98] [1, 2, 3]]
      >>= fun s => pure ((node_at s.file_nodes 0).cache_size,
        (node_at s.file_nodes 0).data_offset, (node_at s.file_nodes 0).data_size))
      = .ok (3, 0, 0) ∧
    (run_calls true (block_fs_mount_empty 32 8)
        [.fwrite_file [97] [1, 2, 3], .unlink_file [97], .fwrite_file [98] [1, 2, 3]]
      >>= fun s => pure (s.data_stream.take 4)) = .ok [170, 170, 170, 170] ∧
    (run_calls true (block_fs_mount_empty 32 8)
        [.fwrite_file [97] [1, 2, 3], .unlink_file [97], .fwrite_file [98] [1, 2, 3]]
      >>= fun s => pure (block_fs_fread__ s (node_at s.file_nodes 0) 3,
        block_fs_fread__ s { node_at s.file_nodes 0 with cache := none } 3))
      = .ok (.ok [1, 2, 3], .ok [170, 170, 170]) :=
  ⟨by decide, by decide, by decide, by decide, by decide⟩
/-! ## The caches after the preload -/

/-- C17 as stated fails: the data file after the write of 1, 2, 3 and then of no bytes under
"a" holds the node of "a" with the data size 0; after the scan of this file with a cache of
8 bytes and `block_fs_preload` the node of "a" has no cache, whether `util_realloc_copy`
gives NULL for no bytes or not, so `block_fs_fread__` takes the disk branch. When `malloc`
gives no buffer, `block_fs_preload` leaves the node of "a" in `store_a_scanned`, with its
payload of 3 bytes, without cache. And on the file `short_node_image` of 64 bytes the scan
and `block_fs_fix_nodes` leave a store with the node of "a" in the index and the
`data_file_size` 96; the end tag of the free node at the offset 92 is in the buffer of the
stream, the file has the 64 bytes it had, and `block_fs_preload`, whose `util_fread` asks for
96 bytes, aborts. -/
theorem preload_leaves_empty_payload_uncached :
    (run_calls true (block_fs_mount_empty 32 8)
        [.fwrite_file [97] [1, 2, 3], .fwrite_file [97] []]
      >>= fun s => pure s.data_stream) = .ok data_file_a_empty ∧
    (block_fs_mount_scan 8 32 8 true data_file_a_empty
      >>= fun r => block_fs_preload true true r.1 data_file_a_empty
      >>= fun t => hash_get t.index [97]
      >>= fun h => pure (t.max_cache_size, (node_at t.file_nodes h).data_size,
        (node_at t.file_nodes h).cache)) = .ok (8, 0, none) ∧
    (block_fs_mount_scan 8 32 8 true data_file_a_empty
      >>= fun r => block_fs_preload false true r.1 data_file_a_empty
      >>= fun t => hash_get t.index [97]
      >>= fun h => pure (t.max_cache_size, (node_at t.file_nodes h).data_size,
        (node_at t.file_nodes h).cache)) = .ok (8, 0, none) ∧
    (block_fs_preload true false store_a_scanned store_a.data_stream
      >>= fun t => pure ((node_at t.file_nodes 0).data_size, (node_at t.file_nodes 0).cache))
      = .ok (3, none) ∧
    (block_fs_mount_scan 8 32 8 true short_node_image
      >>= fun r => block_fs_fix_nodes r.1 r.2.2
      >>= fun t => pure (t.index, t.data_file_size, t.data_stream.length,
        block_fs_preload true true t (t.data_stream.take 64)))
      = .ok ([([97], 0)], 96, 96, .error .short_read) :=
  ⟨by decide, by decide, by decide, by decide, by decide⟩

/-- C17 as amended: let a store be as the scan of a data file leaves it, no node with a
cache and the index with one node of the vector for every name, let the data file have
`data_file_size` bytes, a number which is not negative, or more, and let the payload of every node of the index lie in the
first `data_file_size` bytes and be shorter than `max_cache_size`. Then `block_fs_preload`,
when `malloc` gives it the buffer, returns; the index and the data stream of the store are
as before; every node of the index with a payload of at least one byte has a cache which
holds the `data_size` bytes of the data file at `data_offset`, and `block_fs_fread__` gives
these bytes from the cache; a node of the index with the data size 0 has no cache. -/
theorem preload_caches_payloads (nz : Bool) (s : block_fs_type) (data_file : List Byte)
    (hp : preload_ready s data_file)
    (hm : ∀ h ∈ handles s.index, (node_at s.file_nodes h).data_size < s.max_cache_size) :
    ∃ s1, block_fs_preload nz true s data_file = .ok s1 ∧ s1.index = s.index ∧
      s1.data_stream = s.data_stream ∧ s1.file_nodes.length = s.file_nodes.length ∧
      ∀ h ∈ handles s.index,
        (node_at s1.file_nodes h).data_size = (node_at s.file_nodes h).data_size ∧
        (node_at s1.file_nodes h).data_offset = (node_at s.file_nodes h).data_offset ∧
        (0 < (node_at s.file_nodes h).data_size →
          ∃ bytes, fread data_file (node_at s.file_nodes h).data_offset
              (node_at s.file_nodes h).data_size.toNat = some bytes ∧
            (node_at s1.file_nodes h).cache = some bytes ∧
            block_fs_fread__ s1 (node_at s1.file_nodes h) (node_at s1.file_nodes h).data_size
              = .ok bytes) ∧
        ((node_at s.file_nodes h).data_size = 0 → (node_at s1.file_nodes h).cache = none) := by
  by_cases hpos : 0 < s.max_cache_size
  · obtain ⟨buffer, hbuf⟩ := fread_some_of_le data_file 0
      (size_t_cast s.data_file_size).toNat (Int.le_refl _) (by
        rw [size_t_cast_of_nonneg _ hp.file.1]
        have := hp.file
        omega)
    have hbl := (fread_eq_some _ _ _ _ hbuf).2.2.1
    rw [size_t_cast_of_nonneg _ hp.file.1] at hbl
    obtain ⟨nodes1, e1, e2, _, e4⟩ := preload_loop_spec nz s.max_cache_size buffer s.index
      s.file_nodes hp.nodup hp.valid
      (fun h hh => by
        have h1 := hp.payload h hh
        have h2 := hp.file
        exact ⟨h1.1, h1.2.1, by omega⟩) hm
    refine ⟨{ s with file_nodes := nodes1 }, ?_, rfl, rfl, e2, ?_⟩
    · unfold block_fs_preload
      rw [if_pos hpos, if_pos rfl, hbuf]
      simp only
      rw [e1]
    · intro h hh
      have hpay := hp.payload h hh
      obtain ⟨hc0, hcs0⟩ := hp.fresh h (hp.valid h hh)
      show (node_at nodes1 h).data_size = _ ∧ (node_at nodes1 h).data_offset = _ ∧
        (_ → ∃ bytes, _ ∧ (node_at nodes1 h).cache = some bytes ∧
          block_fs_fread__ { s with file_nodes := nodes1 } (node_at nodes1 h)
            (node_at nodes1 h).data_size = .ok bytes) ∧
        (_ → (node_at nodes1 h).cache = none)
      rw [e4 h hh]
      unfold file_node_update_cache
      rw [hcs0]
      by_cases hz : (node_at s.file_nodes h).data_size = 0
      · rw [if_neg (by simpa using hz)]
        refine ⟨rfl, rfl, fun hgt => by omega, fun _ => ?_⟩
        simp only [hc0, Option.map_none']
      · rw [if_pos hz]
        refine ⟨rfl, rfl, fun _ => ?_, fun h0 => absurd h0 hz⟩
        have hrd := fread_buffer data_file buffer _ hbuf
          (node_at s.file_nodes h).data_offset (node_at s.file_nodes h).data_size.toNat
          hpay.2.1 (by
            rw [size_t_cast_of_nonneg _ hp.file.1]
            omega)
        have hlen : ((buffer.drop (node_at s.file_nodes h).data_offset.toNat).take
            (node_at s.file_nodes h).data_size.toNat).length
            = (node_at s.file_nodes h).data_size.toNat := by
          rw [List.length_take, List.length_drop]
          omega
        refine ⟨_, hrd, ?_, ?_⟩
        · simp only [util_realloc_copy]
          rw [if_neg (fun hc => hz hc.1)]
        · unfold block_fs_fread__
          simp only [util_realloc_copy]
          rw [if_neg (fun hc => hz hc.1)]
          simp only
          rw [size_t_cast_of_nonneg _ hpay.1, if_pos (by rw [hlen]), List.take_take,
            Nat.min_self]
  · have hnil : handles s.index = [] := by
      cases hidx : handles s.index with
      | nil => rfl
      | cons h t =>
        exfalso
        have hh : h ∈ handles s.index := by rw [hidx]; exact List.mem_cons_self _ _
        have := hm h hh
        have := (hp.payload h hh).1
        omega
    refine ⟨s, ?_, rfl, rfl, rfl, ?_⟩
    · unfold block_fs_preload
      rw [if_neg hpos]
    · intro h hh
      rw [hnil] at hh
      cases hh

theorem preload_caches_payloads_witness :
    block_fs_mount_scan 8 32 8 true store_a.data_stream = .ok (store_a_scanned, 32, []) ∧
    preload_ready store_a_scanned store_a.data_stream ∧
    (∀ h ∈ handles store_a_scanned.index,
      (node_at store_a_scanned.file_nodes h).data_size < store_a_scanned.max_cache_size) ∧
    ∃ s1, block_fs_preload true true store_a_scanned store_a.data_stream = .ok s1 ∧
      (node_at s1.file_nodes 0).cache = some [1, 2, 3] ∧
      block_fs_fread__ s1 (node_at s1.file_nodes 0) (node_at s1.file_nodes 0).data_size
        = .ok [1, 2, 3] := by
  have hp : preload_ready store_a_scanned store_a.data_stream :=
    ⟨by decide, by decide, by decide, by decide, by decide⟩
  refine ⟨by decide, hp, by decide, ?_⟩
  obtain ⟨s1, h1, _, _, _, h5⟩ := preload_caches_payloads true store_a_scanned
    store_a.data_stream hp (by decide)
  obtain ⟨_, _, h8, _⟩ := h5 0 (by decide)
  obtain ⟨bytes, b1, b2, b3⟩ := h8 (by decide)
  have e : fread store_a.data_stream (node_at store_a_scanned.file_nodes 0).data_offset
      (node_at store_a_scanned.file_nodes 0).data_size.toNat = some [1, 2, 3] := by decide
  rw [e] at b1
  simp only [Option.some.injEq] at b1
  subst b1
  exact ⟨s1, h1, b2, b3⟩
/-! ## The mount map -/

/-- C18 as stated fails: the first word of the mount file written for a new store is not
0x00873F2A, and a mount file which consists of the word 0x00873F2A and the version 0 is not
accepted by `block_fs_alloc_empty`. -/
theorem mount_map_magic_differs :
    (fread (block_fs_mount_mount_file none) 0 4).map bytes_to_int ≠ some 0x00873F2A ∧
    block_fs_alloc_empty_mount_info (int_to_bytes 0x00873F2A ++ int_to_bytes 0)
      = .error .mount_map := by
  decide

theorem util_fread_int_eq_ok (f : List Byte) (pos v q : Int) :
    util_fread_int f pos = .ok (v, q) ↔
      (fread f pos 4).map bytes_to_int = some v ∧ q = pos + 4 := by
  unfold util_fread_int
  cases hf : fread f pos 4 with
  | none => simp
  | some bs =>
    simp only [Except.ok.injEq, Prod.mk.injEq, Option.map_some', Option.some.injEq]
    constructor
    · rintro ⟨h1, h2⟩
      exact ⟨h1, h2.symm⟩
    · rintro ⟨h1, h2⟩
      exact ⟨h1, h2.symm⟩

/-- C18 as amended: the mount file written for a new store consists of the 32 bit word
8861290, which is 0x0087366A, followed by the 32 bit word 0, and `block_fs_alloc_empty`
accepts it with the version 0; a mount file is accepted exactly when it holds two words and
the first of them is 8861290, and the version is then the second word. -/
theorem mount_map_format :
    (block_fs_mount_mount_file none).length = 8 ∧
    (fread (block_fs_mount_mount_file none) 0 4).map bytes_to_int = some 8861290 ∧
    (fread (block_fs_mount_mount_file none) 4 4).map bytes_to_int = some 0 ∧
    MOUNT_MAP_MAGIC_INT = 8861290 ∧ (8861290 : Int) = 0x0087366A ∧
    block_fs_alloc_empty_mount_info (block_fs_mount_mount_file none) = .ok 0 ∧
    ∀ (f : List Byte) (v : Int), block_fs_alloc_empty_mount_info f = .ok v ↔
      ((fread f 0 4).map bytes_to_int = some 8861290 ∧
        (fread f 4 4).map bytes_to_int = some v) := by
  refine ⟨by decide, by decide, by decide, rfl, by decide, by decide, ?_⟩
  intro f v
  unfold block_fs_alloc_empty_mount_info
  cases h1 : util_fread_int f 0 with
  | error e =>
    constructor
    · intro h
      cases h
    · rintro ⟨h, _⟩
      have := (util_fread_int_eq_ok f 0 8861290 4).mpr ⟨h, rfl⟩
      rw [this] at h1
      cases h1
  | ok r =>
    obtain ⟨id, pos⟩ := r
    obtain ⟨hid, hpos⟩ := (util_fread_int_eq_ok f 0 id pos).mp h1
    have hpos4 : pos = 4 := by omega
    subst hpos4
    simp only
    cases h2 : util_fread_int f 4 with
    | error e =>
      constructor
      · intro h
        cases h
      · rintro ⟨_, h⟩
        have := (util_fread_int_eq_ok f 4 v 8).mpr ⟨h, rfl⟩
        rw [this] at h2
        cases h2
    | ok r2 =>
      obtain ⟨version, pos2⟩ := r2
      obtain ⟨hv, _⟩ := (util_fread_int_eq_ok f 4 version pos2).mp h2
      simp only
      rw [hid, hv]
      by_cases hm : id = MOUNT_MAP_MAGIC_INT
      · rw [if_neg (by simpa using hm)]
        rw [hm]
        simp [MOUNT_MAP_MAGIC_INT]
      · rw [if_pos hm]
        constructor
        · intro h
          cases h
        · rintro ⟨h, _⟩
          simp only [Option.some.injEq] at h
          exact absurd h hm

/-! ## The node after an unlink -/

/-- C20: with block size 32 and a cache of 8 bytes, after the write of 1, 2, 3 under "a" the
unlink of "a" returns; the node is in the free list with the status `NODE_FREE`, the data
size 0 and the data offset 0, and it still has the cache 1, 2, 3 of size 3. -/
theorem unlink_file_keeps_cache (nz : Bool) :
    (run_calls nz (block_fs_mount_empty 32 8) [.fwrite_file [97] [1, 2, 3], .unlink_file [97]]
      >>= fun s => pure (s.free_nodes, node_at s.file_nodes 0))
      = .ok ([0], { node_offset := 0, data_offset := 0, node_size := 32, data_size := 0,
                    status := .NODE_FREE, cache := some [1, 2, 3], cache_size := 3 }) := by
  cases nz <;> decide

/-! ## The geometry of the nodes along the calls -/

/-- Said of the vectors: the geometry of `nodes` is the beginning of the geometry of `nodes1`,
so every node of `nodes` is in `nodes1` at the same place with its offset and its size. -/
theorem geometry_prefix_node (nodes nodes1 : List file_node_type)
    (hp : geometry nodes <+: geometry nodes1) (k : Nat) (hk : k < nodes.length) :
    k < nodes1.length ∧
    (node_at nodes1 k).node_offset = (node_at nodes k).node_offset ∧
    (node_at nodes1 k).node_size = (node_at nodes k).node_size := by
  obtain ⟨t, ht⟩ := hp
  have hl : (geometry nodes).length = nodes.length := by simp [geometry]
  have hl1 : (geometry nodes1).length = nodes1.length := by simp [geometry]
  have hk1 : k < nodes1.length := by
    rw [← hl1, ← ht, List.length_append, hl]
    omega
  obtain ⟨h1, e1⟩ := node_at_geometry nodes k hk
  obtain ⟨h2, e2⟩ := node_at_geometry nodes1 k hk1
  have e3 : (geometry nodes1)[k] = (geometry nodes)[k] := by
    have : (geometry nodes1)[k]? = (geometry nodes)[k]? := by
      rw [← ht, List.getElem?_append_left h1]
    rw [List.getElem?_eq_getElem h2, List.getElem?_eq_getElem h1] at this
    exact Option.some.inj this
  rw [e1, e2] at e3
  exact ⟨hk1, congrArg Prod.fst e3, congrArg Prod.snd e3⟩

theorem unlink_file_geometry (s s1 : block_fs_type) (name : filename)
    (hu : block_fs_unlink_file__ s name = .ok s1) :
    geometry s1.file_nodes = geometry s.file_nodes := by
  unfold block_fs_unlink_file__ at hu
  split at hu
  · cases hu
  · rename_i h _
    simp only at hu
    split at hu
    · cases hu
    · split at hu
      · cases hu
      · rw [(insert_free_node_fields _ _ _ hu).2.2.1]
        exact geometry_set _ _ _ rfl rfl

theorem get_new_node_geometry (s s2 : block_fs_type) (m : Int) (h : Nat)
    (hg : block_fs_get_new_node s m = .ok (s2, h)) :
    geometry s.file_nodes <+: geometry s2.file_nodes := by
  unfold block_fs_get_new_node at hg
  split at hg
  · cases hg
    exact List.prefix_refl _
  · split at hg
    · cases hg
    · cases hg
      unfold block_fs_install_node
      simp only [geometry_append]
      exact List.prefix_append _ _

theorem fwrite_file_geometry (nz : Bool) (s s1 : block_fs_type) (name : filename)
    (ptr : List Byte) (hw : block_fs_fwrite_file nz s name ptr = .ok s1) :
    geometry s.file_nodes <+: geometry s1.file_nodes := by
  have hnew : ∀ t : block_fs_type,
      (match block_fs_get_new_node t (ptr.length + file_node_header_size name) with
        | .error e => .error e
        | .ok (fs2, new_node) =>
          match block_fs_fwrite__ nz fs2 name new_node ptr with
          | .error e => .error e
          | .ok fs3 => .ok (block_fs_insert_index_node fs3 name new_node) :
        Except block_fs_error block_fs_type) = .ok s1 →
      geometry t.file_nodes <+: geometry s1.file_nodes := by
    intro t ht
    split at ht
    · cases ht
    · rename_i fs2 new_node hg
      split at ht
      · cases ht
      · rename_i fs3 hf
        cases ht
        have h1 := get_new_node_geometry _ _ _ _ hg
        have h2 := (fwrite_same_layout nz fs2 fs3 name new_node ptr hf).geometry
        unfold block_fs_insert_index_node
        simp only
        rw [h2]
        exact h1
  unfold block_fs_fwrite_file at hw
  simp only at hw
  split at hw
  · split at hw
    · split at hw
      · cases hw
      · split at hw
        · split at hw
          · cases hw
          · rename_i fs1 hu
            have h1 := unlink_file_geometry _ _ _ hu
            rw [← h1]
            exact hnew fs1 hw
        · rw [(fwrite_same_layout nz s s1 name _ ptr hw).geometry]
    · exact hnew s hw
  · cases hw

/-! ## Where `block_fs_fseek_valid_node` stops -/

/-- A word which is `NODE_IN_USE` or 170 starts with the byte 0x55 or with the byte 0xAA. -/
theorem stop_word_first_byte (f : List Byte) (q : Int) (bs : List Byte)
    (hr : fread f q 4 = some bs)
    (hs : bytes_to_int bs = node_status_type.NODE_IN_USE.toInt ∨ bytes_to_int bs = 170) :
    ∃ b, fread f q 1 = some [b] ∧ (b = NODE_IN_USE_BYTE ∨ b = NODE_FREE_BYTE) := by
  obtain ⟨h0, h1, hl, _⟩ := fread_eq_some f q 4 bs hr
  have hr1 : fread f q 1 = some (bs.take 1) := by
    unfold fread at hr ⊢
    rw [if_pos ⟨h0, h1⟩] at hr
    rw [if_pos ⟨h0, by omega⟩]
    simp only [Option.some.injEq] at hr
    rw [← hr, List.take_take]
    rfl
  match bs, hl with
  | [b0, b1, b2, b3], _ =>
    refine ⟨b0, hr1, ?_⟩
    have i0 := b0.isLt
    have i1 := b1.isLt
    have i2 := b2.isLt
    have i3 := b3.isLt
    rcases hs with hv | hv
    · left
      simp only [bytes_to_int, node_status_type.toInt] at hv
      exact Fin.ext (by show b0.val = 85; split at hv <;> omega)
    · right
      simp only [bytes_to_int] at hv
      exact Fin.ext (by show b0.val = 170; split at hv <;> omega)

/-- The loop of `block_fs_fseek_valid_node` with enough rounds: it returns true at the first
position, from `pos` on, of a word which is `NODE_IN_USE` or the number 170, and false at the
end of the file when there is no such word. -/
theorem fseek_valid_node_loop_first (f : List Byte) (fuel : Nat) (pos : Int) (hp : 0 ≤ pos)
    (hf : (f.length : Int) - pos < fuel) :
    (block_fs_fseek_valid_node_loop f fuel pos = (false, (f.length : Int)) ∧
      ∀ q bs, pos ≤ q → fread f q 4 = some bs →
        ¬ (bytes_to_int bs = node_status_type.NODE_IN_USE.toInt ∨ bytes_to_int bs = 170)) ∨
    (∃ q bs, block_fs_fseek_valid_node_loop f fuel pos = (true, q) ∧ pos ≤ q ∧
      fread f q 4 = some bs ∧
      (bytes_to_int bs = node_status_type.NODE_IN_USE.toInt ∨ bytes_to_int bs = 170) ∧
      ∀ q2 bs2, pos ≤ q2 → q2 < q → fread f q2 4 = some bs2 →
        ¬ (bytes_to_int bs2 = node_status_type.NODE_IN_USE.toInt ∨ bytes_to_int bs2 = 170)) := by
  induction fuel generalizing pos with
  | zero =>
    left
    refine ⟨rfl, ?_⟩
    intro q bs hq hr
    obtain ⟨h0, h1, _, _⟩ := fread_eq_some f q 4 bs hr
    simp only [Nat.cast_zero] at hf
    omega
  | succ fuel ih =>
    rw [block_fs_fseek_valid_node_loop]
    have e1 : pos + 1 - 1 = pos := by omega
    have hstep : ∀ bs0, fread f pos 4 = some bs0 →
        ¬ (bytes_to_int bs0 = node_status_type.NODE_IN_USE.toInt ∨ bytes_to_int bs0 = 170) →
        (block_fs_fseek_valid_node_loop f fuel (pos + 1) = (false, (f.length : Int)) ∧
          ∀ q bs, pos ≤ q → fread f q 4 = some bs →
            ¬ (bytes_to_int bs = node_status_type.NODE_IN_USE.toInt ∨ bytes_to_int bs = 170)) ∨
        (∃ q bs, block_fs_fseek_valid_node_loop f fuel (pos + 1) = (true, q) ∧ pos ≤ q ∧
          fread f q 4 = some bs ∧
          (bytes_to_int bs = node_status_type.NODE_IN_USE.toInt ∨ bytes_to_int bs = 170) ∧
          ∀ q2 bs2, pos ≤ q2 → q2 < q → fread f q2 4 = some bs2 →
            ¬ (bytes_to_int bs2 = node_status_type.NODE_IN_USE.toInt ∨
              bytes_to_int bs2 = 170)) := by
      intro bs0 hr0 hn0
      have hat : ∀ q bs, q = pos → fread f q 4 = some bs →
          ¬ (bytes_to_int bs = node_status_type.NODE_IN_USE.toInt ∨ bytes_to_int bs = 170) := by
        intro q bs e hr
        rw [e, hr0] at hr
        cases hr
        exact hn0
      rcases ih (pos + 1) (by omega) (by push_cast at hf; omega) with ⟨h1, h2⟩ | ⟨q, bs, h1, h2, h3, h4, h5⟩
      · left
        refine ⟨h1, ?_⟩
        intro q bs hq hr
        by_cases e : q = pos
        · exact hat q bs e hr
        · exact h2 q bs (by omega) hr
      · right
        refine ⟨q, bs, h1, by omega, h3, h4, ?_⟩
        intro q2 bs2 hq2 hlt hr
        by_cases e : q2 = pos
        · exact hat q2 bs2 e hr
        · exact h5 q2 bs2 (by omega) hlt hr
    have hskip : (∀ bs0, fread f pos 4 = some bs0 →
        ¬ (bytes_to_int bs0 = node_status_type.NODE_IN_USE.toInt ∨ bytes_to_int bs0 = 170)) →
        (block_fs_fseek_valid_node_loop f fuel (pos + 1) = (false, (f.length : Int)) ∧
          ∀ q bs, pos ≤ q → fread f q 4 = some bs →
            ¬ (bytes_to_int bs = node_status_type.NODE_IN_USE.toInt ∨ bytes_to_int bs = 170)) ∨
        (∃ q bs, block_fs_fseek_valid_node_loop f fuel (pos + 1) = (true, q) ∧ pos ≤ q ∧
          fread f q 4 = some bs ∧
          (bytes_to_int bs = node_status_type.NODE_IN_USE.toInt ∨ bytes_to_int bs = 170) ∧
          ∀ q2 bs2, pos ≤ q2 → q2 < q → fread f q2 4 = some bs2 →
            ¬ (bytes_to_int bs2 = node_status_type.NODE_IN_USE.toInt ∨
              bytes_to_int bs2 = 170)) := by
      intro hno
      cases hr0 : fread f pos 4 with
      | some bs0 => exact hstep bs0 hr0 (hno bs0 hr0)
      | none =>
        have hshort : (f.length : Int) < pos + 4 := by
          by_contra hc
          obtain ⟨bs, hbs⟩ := fread_some_of_le f pos 4 hp (by push_cast; omega)
          rw [hr0] at hbs
          cases hbs
        rcases ih (pos + 1) (by omega) (by push_cast at hf; omega) with
          ⟨h1, h2⟩ | ⟨q, bs, _, h2, h3, _, _⟩
        · left
          refine ⟨h1, ?_⟩
          intro q bs hq hr
          obtain ⟨_, h4, _, _⟩ := fread_eq_some f q 4 bs hr
          omega
        · obtain ⟨_, h4, _, _⟩ := fread_eq_some f q 4 bs h3
          omega
    cases h1 : fread f pos 1 with
    | none =>
      left
      refine ⟨rfl, ?_⟩
      intro q bs hq hr
      obtain ⟨_, h4, _, _⟩ := fread_eq_some f q 4 bs hr
      have hshort : (f.length : Int) < pos + 1 := by
        by_contra hc
        obtain ⟨bs1, hbs⟩ := fread_some_of_le f pos 1 hp (by push_cast; omega)
        rw [h1] at hbs
        cases hbs
      omega
    | some bs1 =>
      obtain ⟨byte, hb⟩ := fread_one f pos bs1 h1
      subst hb
      simp only
      split
      · rw [e1]
        cases h2 : fread f pos 4 with
        | none =>
          left
          refine ⟨rfl, ?_⟩
          intro q bs hq hr
          obtain ⟨_, h4, _, _⟩ := fread_eq_some f q 4 bs hr
          have hshort : (f.length : Int) < pos + 4 := by
            by_contra hc
            obtain ⟨bs0, hbs⟩ := fread_some_of_le f pos 4 hp (by push_cast; omega)
            rw [h2] at hbs
            cases hbs
          omega
        | some bs =>
          simp only
          split
          · rename_i hw
            right
            refine ⟨pos, bs, ?_, Int.le_refl _, h2, ?_, ?_⟩
            · rw [show pos + 4 - 4 = pos by omega]
            · rcases hw with hw | hw
              · exact Or.inl hw
              · exact Or.inr hw
            · intro q2 bs2 hq2 hlt
              omega
          · rename_i hw
            apply hstep bs h2
            intro hs
            apply hw
            rcases hs with hs | hs
            · exact Or.inl hs
            · exact Or.inr hs
      · rename_i hbyte
        apply hskip
        intro bs0 hr0 hs
        obtain ⟨b, hb1, hb2⟩ := stop_word_first_byte f pos bs0 hr0 hs
        rw [h1] at hb1
        simp only [Option.some.injEq, List.cons.injEq, and_true] at hb1
        rw [hb1] at hbyte
        exact hbyte hb2

/-- The function `block_fs_fseek_valid_node`, started at a position of the file: it returns
true at the first position of a word which is `NODE_IN_USE` or the number 170, and false at
the end of the file when there is no such word. -/
theorem fseek_valid_node_first (f : List Byte) (pos : Int) (hp : 0 ≤ pos) :
    (block_fs_fseek_valid_node f pos = (false, (f.length : Int)) ∧
      ∀ q bs, pos ≤ q → fread f q 4 = some bs →
        ¬ (bytes_to_int bs = node_status_type.NODE_IN_USE.toInt ∨ bytes_to_int bs = 170)) ∨
    (∃ q bs, block_fs_fseek_valid_node f pos = (true, q) ∧ pos ≤ q ∧
      fread f q 4 = some bs ∧
      (bytes_to_int bs = node_status_type.NODE_IN_USE.toInt ∨ bytes_to_int bs = 170) ∧
      ∀ q2 bs2, pos ≤ q2 → q2 < q → fread f q2 4 = some bs2 →
        ¬ (bytes_to_int bs2 = node_status_type.NODE_IN_USE.toInt ∨ bytes_to_int bs2 = 170)) :=
  fseek_valid_node_loop_first f (f.length + 1) pos hp (by push_cast; omega)

/-! ## The header which `file_node_fwrite` writes, read back -/

theorem write_list_append (l1 l2 : List (Int × List Byte)) (g : List Byte) :
    write_list g (l1 ++ l2) = write_list (write_list g l1) l2 := by
  induction l1 generalizing g with
  | nil => rfl
  | cons w rest ih => exact ih _

/-- The bytes of a write of a row are read back after the row when no later write of the row
meets them. -/
theorem write_list_fread_written (l1 l2 : List (Int × List Byte)) (g : List Byte) (p : Int)
    (bs : List Byte) (hp : 0 ≤ p) (hne : bs ≠ [])
    (hd : ∀ w ∈ l2, 0 ≤ w.1 ∧ (p + bs.length ≤ w.1 ∨ w.1 + w.2.length ≤ p)) :
    fread (write_list g (l1 ++ (p, bs) :: l2)) p bs.length = some bs := by
  rw [write_list_append]
  show fread (write_list (fwrite (write_list g l1) p bs) l2) p bs.length = some bs
  exact write_list_fread l2 _ p bs.length bs (fread_fwrite_same _ p bs hp hne) hd

/-- The six fields which `file_node_fwrite` writes for a node in use, read back from the
file: the header and the payload of the node are within the node. -/
theorem in_use_fields_read (g st : List Byte) (a ns ds : Int) (name : filename)
    (ha : 0 ≤ a) (hds : 0 ≤ ds) (hfit : (name.length : Int) + 21 + ds ≤ ns)
    (hst : st = write_list g
      [(a, int_to_bytes node_status_type.NODE_IN_USE.toInt),
       (a + 4, int_to_bytes name.length),
       (a + 4 + 4, name ++ [0]),
       (a + 4 + 4 + (name.length + 1), int_to_bytes ns),
       (a + 4 + 4 + (name.length + 1) + 4, int_to_bytes ds),
       (a + ns - 4, int_to_bytes NODE_END_TAG)]) :
    fread st a 4 = some (int_to_bytes node_status_type.NODE_IN_USE.toInt) ∧
    fread st (a + 4) 4 = some (int_to_bytes name.length) ∧
    fread st (a + 4 + 4) (name.length + 1) = some (name ++ [0]) ∧
    fread st (a + 4 + 4 + (name.length + 1)) 4 = some (int_to_bytes ns) ∧
    fread st (a + 4 + 4 + (name.length + 1) + 4) 4 = some (int_to_bytes ds) ∧
    fread st (a + ns - 4) 4 = some (int_to_bytes NODE_END_TAG) := by
  have hnl : (name ++ [(0 : Byte)]).length = name.length + 1 := by simp
  have hnm : name ++ [(0 : Byte)] ≠ [] := by simp
  subst hst
  refine ⟨?_, ?_, ?_, ?_, ?_, ?_⟩
  · have h := write_list_fread_written []
      [(a + 4, int_to_bytes name.length),
       (a + 4 + 4, name ++ [0]),
       (a + 4 + 4 + (name.length + 1), int_to_bytes ns),
       (a + 4 + 4 + (name.length + 1) + 4, int_to_bytes ds),
       (a + ns - 4, int_to_bytes NODE_END_TAG)] g a
      (int_to_bytes node_status_type.NODE_IN_USE.toInt) ha (int_to_bytes_ne_nil _) (by
        intro w hw
        simp only [List.mem_cons, List.mem_singleton, List.not_mem_nil, or_false] at hw
        rcases hw with e | e | e | e | e <;> subst e <;>
          simp only [int_to_bytes_length, hnl, Nat.cast_add, Nat.cast_one, Nat.cast_ofNat] <;>
          omega)
    rw [int_to_bytes_length] at h
    exact h
  · have h := write_list_fread_written
      [(a, int_to_bytes node_status_type.NODE_IN_USE.toInt)]
      [(a + 4 + 4, name ++ [0]),
       (a + 4 + 4 + (name.length + 1), int_to_bytes ns),
       (a + 4 + 4 + (name.length + 1) + 4, int_to_bytes ds),
       (a + ns - 4, int_to_bytes NODE_END_TAG)] g (a + 4)
      (int_to_bytes name.length) (by omega) (int_to_bytes_ne_nil _) (by
        intro w hw
        simp only [List.mem_cons, List.mem_singleton, List.not_mem_nil, or_false] at hw
        rcases hw with e | e | e | e <;> subst e <;>
          simp only [int_to_bytes_length, hnl, Nat.cast_add, Nat.cast_one, Nat.cast_ofNat] <;>
          omega)
    rw [int_to_bytes_length] at h
    exact h
  · have h := write_list_fread_written
      [(a, int_to_bytes node_status_type.NODE_IN_USE.toInt),
       (a + 4, int_to_bytes name.length)]
      [(a + 4 + 4 + (name.length + 1), int_to_bytes ns),
       (a + 4 + 4 + (name.length + 1) + 4, int_to_bytes ds),
       (a + ns - 4, int_to_bytes NODE_END_TAG)] g (a + 4 + 4)
      (name ++ [0]) (by omega) hnm (by
        intro w hw
        simp only [List.mem_cons, List.mem_singleton, List.not_mem_nil, or_false] at hw
        rcases hw with e | e | e <;> subst e <;>
          simp only [int_to_bytes_length, hnl, Nat.cast_add, Nat.cast_one, Nat.cast_ofNat] <;>
          omega)
    rw [hnl] at h
    exact h
  · have h := write_list_fread_written
      [(a, int_to_bytes node_status_type.NODE_IN_USE.toInt),
       (a + 4, int_to_bytes name.length),
       (a + 4 + 4, name ++ [0])]
      [(a + 4 + 4 + (name.length + 1) + 4, int_to_bytes ds),
       (a + ns - 4, int_to_bytes NODE_END_TAG)] g (a + 4 + 4 + (name.length + 1))
      (int_to_bytes ns) (by omega) (int_to_bytes_ne_nil _) (by
        intro w hw
        simp only [List.mem_cons, List.mem_singleton, List.not_mem_nil, or_false] at hw
        rcases hw with e | e <;> subst e <;>
          simp only [int_to_bytes_length, hnl, Nat.cast_add, Nat.cast_one, Nat.cast_ofNat] <;>
          omega)
    rw [int_to_bytes_length] at h
    exact h
  · have h := write_list_fread_written
      [(a, int_to_bytes node_status_type.NODE_IN_USE.toInt),
       (a + 4, int_to_bytes name.length),
       (a + 4 + 4, name ++ [0]),
       (a + 4 + 4 + (name.length + 1), int_to_bytes ns)]
      [(a + ns - 4, int_to_bytes NODE_END_TAG)] g (a + 4 + 4 + (name.length + 1) + 4)
      (int_to_bytes ds) (by omega) (int_to_bytes_ne_nil _) (by
        intro w hw
        simp only [List.mem_cons, List.mem_singleton, List.not_mem_nil, or_false] at hw
        subst hw
        simp only [int_to_bytes_length, hnl, Nat.cast_add, Nat.cast_one, Nat.cast_ofNat]
        omega)
    rw [int_to_bytes_length] at h
    exact h
  · have h := write_list_fread_written
      [(a, int_to_bytes node_status_type.NODE_IN_USE.toInt),
       (a + 4, int_to_bytes name.length),
       (a + 4 + 4, name ++ [0]),
       (a + 4 + 4 + (name.length + 1), int_to_bytes ns),
       (a + 4 + 4 + (name.length + 1) + 4, int_to_bytes ds)]
      [] g (a + ns - 4)
      (int_to_bytes NODE_END_TAG) (by omega) (int_to_bytes_ne_nil _)
      (fun w hw => absurd hw (List.not_mem_nil w))
    rw [int_to_bytes_length] at h
    exact h

/-- The two fields which `file_node_fread_alloc` reads of a free node, read back from the file
which `file_node_fwrite` leaves, for a node of twelve bytes or more. -/
theorem free_fields_read (g st : List Byte) (a ns ds : Int) (ha : 0 ≤ a) (hns : 12 ≤ ns)
    (hst : st = write_list g
      [(a, int_to_bytes node_status_type.NODE_FREE.toInt),
       (a + 4, int_to_bytes ns),
       (a + 4 + 4, int_to_bytes ds),
       (a + ns - 4, int_to_bytes NODE_END_TAG)]) :
    fread st a 4 = some (int_to_bytes node_status_type.NODE_FREE.toInt) ∧
    fread st (a + 4) 4 = some (int_to_bytes ns) ∧
    fread st (a + ns - 4) 4 = some (int_to_bytes NODE_END_TAG) := by
  subst hst
  refine ⟨?_, ?_, ?_⟩
  · have h := write_list_fread_written []
      [(a + 4, int_to_bytes ns),
       (a + 4 + 4, int_to_bytes ds),
       (a + ns - 4, int_to_bytes NODE_END_TAG)] g a
      (int_to_bytes node_status_type.NODE_FREE.toInt) ha (int_to_bytes_ne_nil _) (by
        intro w hw
        simp only [List.mem_cons, List.mem_singleton, List.not_mem_nil, or_false] at hw
        rcases hw with e | e | e <;> subst e <;>
          simp only [int_to_bytes_length, Nat.cast_ofNat] <;> omega)
    rw [int_to_bytes_length] at h
    exact h
  · have h := write_list_fread_written
      [(a, int_to_bytes node_status_type.NODE_FREE.toInt)]
      [(a + 4 + 4, int_to_bytes ds),
       (a + ns - 4, int_to_bytes NODE_END_TAG)] g (a + 4)
      (int_to_bytes ns) (by omega) (int_to_bytes_ne_nil _) (by
        intro w hw
        simp only [List.mem_cons, List.mem_singleton, List.not_mem_nil, or_false] at hw
        rcases hw with e | e <;> subst e <;>
          simp only [int_to_bytes_length, Nat.cast_ofNat] <;> omega)
    rw [int_to_bytes_length] at h
    exact h
  · have h := write_list_fread_written
      [(a, int_to_bytes node_status_type.NODE_FREE.toInt),
       (a + 4, int_to_bytes ns),
       (a + 4 + 4, int_to_bytes ds)]
      [] g (a + ns - 4)
      (int_to_bytes NODE_END_TAG) (by omega) (int_to_bytes_ne_nil _)
      (fun w hw => absurd hw (List.not_mem_nil w))
    rw [int_to_bytes_length] at h
    exact h

/-! ## One round of the loop of `block_fs_build_index` -/

/-- A node in use which `file_node_fread_alloc` returns comes with its name. -/
theorem fread_alloc_in_use_key (f : List Byte) (pos : Int) (key key1 : Option filename)
    (n1 : file_node_type) (p1 : Int)
    (hp : file_node_fread_alloc f pos key = .ok (some n1, key1, p1))
    (hs : n1.status = .NODE_IN_USE) : ∃ k, key1 = some k := by
  unfold file_node_fread_alloc at hp
  simp only at hp
  split at hp
  · cases hp
  · rename_i bs hbs
    split at hp
    · split at hp
      · cases hp
      · split at hp
        · cases hp
        · split at hp
          · cases hp
          · simp only [Except.ok.injEq, Prod.mk.injEq] at hp
            exact ⟨_, hp.2.1.symm⟩
    · split at hp
      · split at hp
        · cases hp
        · simp only [Except.ok.injEq, Prod.mk.injEq, Option.some.injEq] at hp
          rw [← hp.1] at hs
          simp only [file_node_alloc] at hs
          cases hs
      · rename_i h1 h2
        simp only [Except.ok.injEq, Prod.mk.injEq, Option.some.injEq] at hp
        rw [← hp.1] at hs
        simp only [file_node_alloc, status_of_int] at hs
        rw [if_neg h1, if_neg h2] at hs
        split at hs <;> cases hs

/-- One round of the loop of `block_fs_build_index` for a node whose end tag is looked for at
an offset which is not negative. With a status `NODE_IN_USE` or `NODE_FREE` and the word
`NODE_END_TAG` in the last four bytes, the node goes to the vector and to the index or the
free list, the list of the offsets in error is as it was, and the loop goes on behind the
node; in every other case the store is as it was, the offset of the node is appended to the
list, and the loop goes on where `block_fs_fseek_valid_node` stops. -/
theorem build_index_step (t : block_fs_type) (pos : Int) (key key1 : Option filename)
    (errs : List Int) (fuel : Nat) (n1 : file_node_type) (p1 : Int)
    (hp : file_node_fread_alloc t.data_stream pos key = .ok (some n1, key1, p1))
    (h0 : 0 ≤ n1.node_offset + n1.node_size - 4) :
    (((n1.status = .NODE_IN_USE ∨ n1.status = .NODE_FREE) ∧
        ∃ bs, fread t.data_stream (n1.node_offset + n1.node_size - 4) 4 = some bs ∧
          bytes_to_int bs = NODE_END_TAG) ∧
      (n1.status = .NODE_IN_USE → ∃ k, key1 = some k ∧
        block_fs_build_index_loop (fuel + 1) t pos key errs
          = block_fs_build_index_loop fuel
              (block_fs_insert_index_node (block_fs_install_node t n1) k t.file_nodes.length)
              (n1.node_offset + n1.node_size) key1 errs) ∧
      (n1.status = .NODE_FREE →
        block_fs_build_index_loop (fuel + 1) t pos key errs
          = match block_fs_insert_free_node (block_fs_install_node t n1)
                t.file_nodes.length with
            | .error e => .error e
            | .ok fs2 =>
              block_fs_build_index_loop fuel fs2 (n1.node_offset + n1.node_size) key1 errs)) ∨
    (¬ ((n1.status = .NODE_IN_USE ∨ n1.status = .NODE_FREE) ∧
        ∃ bs, fread t.data_stream (n1.node_offset + n1.node_size - 4) 4 = some bs ∧
          bytes_to_int bs = NODE_END_TAG) ∧
      ∃ q, block_fs_build_index_loop (fuel + 1) t pos key errs
        = block_fs_build_index_loop fuel t (block_fs_fseek_valid_node t.data_stream q).2 key1
            (errs ++ [n1.node_offset])) := by
  by_cases hs : n1.status = .NODE_INVALID ∨ n1.status = .NODE_WRITE_ACTIVE
  · right
    refine ⟨?_, p1, scan_error_status t pos key key1 errs fuel n1 p1 hp hs⟩
    rintro ⟨h1, _⟩
    rcases hs with hs | hs <;> rcases h1 with h1 | h1 <;> rw [hs] at h1 <;> cases h1
  · have hst : n1.status = .NODE_IN_USE ∨ n1.status = .NODE_FREE := by
      cases hn : n1.status with
      | NODE_IN_USE => exact Or.inl rfl
      | NODE_FREE => exact Or.inr rfl
      | NODE_INVALID => exact absurd (Or.inl hn) hs
      | NODE_WRITE_ACTIVE => exact absurd (Or.inr hn) hs
    cases hr : fread t.data_stream (n1.node_offset + n1.node_size - 4) 4 with
    | none =>
      right
      have hv : file_node_verify_end_tag n1 t.data_stream
          = .ok (false, fread_eof t.data_stream (n1.node_offset + n1.node_size - 4)) := by
        unfold file_node_verify_end_tag
        rw [fseek_ok _ h0]
        simp only [hr]
      refine ⟨?_, fread_eof t.data_stream (n1.node_offset + n1.node_size - 4), ?_⟩
      · rintro ⟨_, bs, hbs, _⟩
        cases hbs
      · rw [block_fs_build_index_loop, hp]
        simp only
        rw [if_neg hs, hv]
    | some bs =>
      have hv : file_node_verify_end_tag n1 t.data_stream
          = .ok (decide (bytes_to_int bs = NODE_END_TAG),
              n1.node_offset + n1.node_size - 4 + 4) := by
        unfold file_node_verify_end_tag
        rw [fseek_ok _ h0]
        simp only [hr]
      by_cases htag : bytes_to_int bs = NODE_END_TAG
      · left
        rw [decide_eq_true htag] at hv
        refine ⟨⟨hst, bs, rfl, htag⟩, ?_, ?_⟩
        · intro hu
          obtain ⟨k, hk⟩ := fread_alloc_in_use_key _ _ _ _ _ _ hp hu
          subst hk
          refine ⟨k, rfl, ?_⟩
          rw [block_fs_build_index_loop, hp]
          simp only
          rw [if_neg hs, hv]
          simp only
          rw [fseek_ok _ (by omega)]
          simp only [hu]
        · intro hf
          rw [block_fs_build_index_loop, hp]
          simp only
          rw [if_neg hs, hv]
          simp only
          rw [fseek_ok _ (by omega)]
          simp only [hf]
      · right
        rw [decide_eq_false htag] at hv
        refine ⟨?_, n1.node_offset + n1.node_size - 4 + 4, ?_⟩
        · rintro ⟨_, bs2, hbs, htag2⟩
          simp only [Option.some.injEq] at hbs
          rw [hbs] at htag
          exact htag htag2
        · rw [block_fs_build_index_loop, hp]
          simp only
          rw [if_neg hs, hv]

/-! ## Files which agree from a position on -/

theorem agree_from_mono (p p1 : Int) (f g : List Byte) (h : agree_from p f g) (hp : p ≤ p1) :
    agree_from p1 f g :=
  ⟨h.1, fun q n hq => h.2 q n (by omega)⟩

theorem agree_from_trans (p : Int) (f g k : List Byte) (h1 : agree_from p f g)
    (h2 : agree_from p g k) : agree_from p f k :=
  ⟨h1.1.trans h2.1, fun q n hq => (h1.2 q n hq).trans (h2.2 q n hq)⟩

/-- A row of writes inside the file which end at or in front of `p` leaves a file which
agrees with the old one from `p` on. -/
theorem agree_from_write_list (ws : List (Int × List Byte)) (g : List Byte) (p : Int)
    (hd : ∀ w ∈ ws, 0 ≤ w.1 ∧ w.1 + w.2.length ≤ p) (hp : p ≤ g.length) :
    agree_from p g (write_list g ws) := by
  have hlen : (write_list g ws).length = g.length :=
    write_list_length ws g (fun w hw => ⟨(hd w hw).1, by have := (hd w hw).2; omega⟩)
  refine ⟨hlen.symm, ?_⟩
  intro q n hq
  cases hr : fread g q n with
  | some rs =>
    exact (write_list_fread ws g q n rs hr
      (fun w hw => ⟨(hd w hw).1, Or.inr (by have := (hd w hw).2; omega)⟩)).symm
  | none =>
    symm
    unfold fread at hr ⊢
    rw [hlen]
    split at hr
    · cases hr
    · rename_i hc
      rw [if_neg hc]

theorem util_fread_int_agree (p : Int) (f g : List Byte) (h : agree_from p f g) (pos : Int)
    (hp : p ≤ pos) : util_fread_int f pos = util_fread_int g pos := by
  unfold util_fread_int
  rw [h.2 pos 4 hp]

theorem util_fread_int_pos (f : List Byte) (pos v q : Int)
    (hr : util_fread_int f pos = .ok (v, q)) : q = pos + 4 := by
  unfold util_fread_int at hr
  split at hr
  · simp only [Except.ok.injEq, Prod.mk.injEq] at hr
    exact hr.2.symm
  · cases hr

theorem util_fread_realloc_string_agree (p : Int) (f g : List Byte) (h : agree_from p f g)
    (pos : Int) (hp : p ≤ pos) :
    util_fread_realloc_string f pos = util_fread_realloc_string g pos := by
  unfold util_fread_realloc_string
  rw [util_fread_int_agree p f g h pos hp]
  cases hr : util_fread_int g pos with
  | error e => rfl
  | ok r =>
    obtain ⟨len, pos1⟩ := r
    have e := util_fread_int_pos g pos len pos1 hr
    simp only
    rw [h.2 pos1 _ (by omega)]

theorem util_fread_realloc_string_pos (f : List Byte) (pos : Int) (k : filename) (q : Int)
    (hr : util_fread_realloc_string f pos = .ok (k, q)) : pos ≤ q := by
  unfold util_fread_realloc_string at hr
  cases hi : util_fread_int f pos with
  | error e => rw [hi] at hr; cases hr
  | ok r =>
    obtain ⟨len, pos1⟩ := r
    have e := util_fread_int_pos f pos len pos1 hi
    rw [hi] at hr
    simp only at hr
    split at hr
    · cases hr
    · split at hr
      · simp only [Except.ok.injEq, Prod.mk.injEq] at hr
        omega
      · cases hr

theorem file_node_fread_alloc_agree (p : Int) (f g : List Byte) (h : agree_from p f g)
    (pos : Int) (hp : p ≤ pos) (key : Option filename) :
    file_node_fread_alloc f pos key = file_node_fread_alloc g pos key := by
  unfold file_node_fread_alloc fread_eof
  simp only
  rw [h.2 pos 4 hp, h.1]
  cases hr : fread g pos 4 with
  | none => rfl
  | some bs =>
    simp only
    split
    · rw [util_fread_realloc_string_agree p f g h (pos + 4) (by omega)]
      cases hs : util_fread_realloc_string g (pos + 4) with
      | error e => rfl
      | ok r =>
        obtain ⟨k, pos2⟩ := r
        have e2 := util_fread_realloc_string_pos g (pos + 4) k pos2 hs
        simp only
        rw [util_fread_int_agree p f g h pos2 (by omega)]
        cases hi : util_fread_int g pos2 with
        | error e => rfl
        | ok r2 =>
          obtain ⟨ns, pos3⟩ := r2
          have e3 := util_fread_int_pos g pos2 ns pos3 hi
          simp only
          rw [util_fread_int_agree p f g h pos3 (by omega)]
    · split
      · rw [util_fread_int_agree p f g h (pos + 4) (by omega)]
      · rfl

theorem fseek_valid_node_loop_agree (p : Int) (f g : List Byte) (h : agree_from p f g)
    (fuel : Nat) (pos : Int) (hp : p ≤ pos) :
    block_fs_fseek_valid_node_loop f fuel pos = block_fs_fseek_valid_node_loop g fuel pos := by
  induction fuel generalizing pos with
  | zero =>
    rw [block_fs_fseek_valid_node_loop, block_fs_fseek_valid_node_loop, h.1]
  | succ fuel ih =>
    rw [block_fs_fseek_valid_node_loop, block_fs_fseek_valid_node_loop]
    simp only [h.2 pos 1 hp, h.2 (pos + 1 - 1) 4 (by omega), ih (pos + 1) (by omega), h.1]

theorem fseek_valid_node_agree (p : Int) (f g : List Byte) (h : agree_from p f g)
    (pos : Int) (hp : p ≤ pos) :
    block_fs_fseek_valid_node f pos = block_fs_fseek_valid_node g pos := by
  unfold block_fs_fseek_valid_node
  rw [h.1]
  exact fseek_valid_node_loop_agree p f g h _ pos hp

/-- The position behind a node with a status in error is behind its status word. -/
theorem fread_alloc_error_pos (f : List Byte) (pos : Int) (key key1 : Option filename)
    (n1 : file_node_type) (p1 : Int)
    (hp : file_node_fread_alloc f pos key = .ok (some n1, key1, p1))
    (hs : n1.status = .NODE_INVALID ∨ n1.status = .NODE_WRITE_ACTIVE) : p1 = pos + 4 := by
  unfold file_node_fread_alloc at hp
  simp only at hp
  split at hp
  · cases hp
  · split at hp
    · split at hp
      · cases hp
      · split at hp
        · cases hp
        · split at hp
          · cases hp
          · simp only [Except.ok.injEq, Prod.mk.injEq, Option.some.injEq] at hp
            rw [← hp.1] at hs
            simp only [file_node_alloc] at hs
            rcases hs with hs | hs <;> cases hs
    · split at hp
      · split at hp
        · cases hp
        · simp only [Except.ok.injEq, Prod.mk.injEq, Option.some.injEq] at hp
          rw [← hp.1] at hs
          simp only [file_node_alloc] at hs
          rcases hs with hs | hs <;> cases hs
      · simp only [Except.ok.injEq, Prod.mk.injEq] at hp
        exact hp.2.2.symm

theorem fix_node_size_agree (p : Int) (f g : List Byte) (h : agree_from p f g)
    (off : Int) (hp : p ≤ off) : fix_node_size f off = fix_node_size g off := by
  unfold fix_node_size
  rw [file_node_fread_alloc_agree p f g h off hp none]
  cases hr : file_node_fread_alloc g off none with
  | error e => rfl
  | ok r =>
    obtain ⟨n, k, p1⟩ := r
    cases n with
    | none => rfl
    | some n1 =>
      simp only
      split
      · rename_i hs
        have e := fread_alloc_error_pos g off none k n1 p1 hr hs
        rw [fseek_valid_node_agree p f g h p1 (by omega)]
      · rfl

/-! ## The rounds of `block_fs_fix_nodes` -/

/-- The node and the position which `file_node_fread_alloc` returns do not depend on the key
it is called with. -/
theorem fread_alloc_key (f : List Byte) (pos : Int) (key : Option filename)
    (n : Option file_node_type) (k1 : Option filename) (q : Int)
    (hr : file_node_fread_alloc f pos none = .ok (n, k1, q)) :
    ∃ k2, file_node_fread_alloc f pos key = .ok (n, k2, q) := by
  unfold file_node_fread_alloc at hr ⊢
  simp only at hr ⊢
  cases h : fread f pos 4 with
  | none =>
    rw [h] at hr
    simp only [Except.ok.injEq, Prod.mk.injEq] at hr ⊢
    exact ⟨key, hr.1, rfl, hr.2.2⟩
  | some bs =>
    rw [h] at hr
    simp only at hr ⊢
    by_cases c1 : bytes_to_int bs = node_status_type.NODE_IN_USE.toInt
    · rw [if_pos c1] at hr ⊢
      exact ⟨k1, hr⟩
    · rw [if_neg c1] at hr ⊢
      by_cases c2 : bytes_to_int bs = node_status_type.NODE_FREE.toInt
      · rw [if_pos c2] at hr ⊢
        exact ⟨k1, hr⟩
      · rw [if_neg c2] at hr ⊢
        simp only [Except.ok.injEq, Prod.mk.injEq] at hr ⊢
        exact ⟨key, hr.1, rfl, hr.2.2⟩

/-- The four words of a free region, read back from the file which `file_node_fwrite` leaves
for a free node of 16 bytes or more. -/
theorem unlink_writes_free_region (g : List Byte) (a ns : Int) (ha : 0 ≤ a) (hns : 16 ≤ ns) :
    free_region (write_list g (unlink_writes a ns)) a ns := by
  obtain ⟨r1, r2, r3⟩ := free_fields_read g _ a ns 0 ha (by omega) rfl
  refine ⟨r1, r2, ?_, r3⟩
  have h := write_list_fread_written
    [(a, int_to_bytes node_status_type.NODE_FREE.toInt), (a + 4, int_to_bytes ns)]
    [(a + ns - 4, int_to_bytes NODE_END_TAG)] g (a + 4 + 4)
    (int_to_bytes 0) (by omega) (int_to_bytes_ne_nil _) (by
      intro w hw
      simp only [List.mem_cons, List.mem_singleton, List.not_mem_nil, or_false] at hw
      subst hw
      simp only [int_to_bytes_length, Nat.cast_ofNat]
      omega)
  rw [int_to_bytes_length] at h
  exact h

theorem unlink_writes_within_16 (a ns : Int) (hns : 12 ≤ ns) :
    ∀ w ∈ unlink_writes a ns, a ≤ w.1 ∧ w.1 + w.2.length ≤ a + ns := by
  intro w hw
  simp only [unlink_writes, List.mem_cons, List.mem_singleton, List.not_mem_nil, or_false] at hw
  rcases hw with e | e | e | e <;> subst e <;>
    simp only [int_to_bytes_length, Nat.cast_ofNat] <;> omega

/-- One round of the loop of `block_fs_fix_nodes` for a region of 16 bytes or more at an
offset at which the free list has no node, when the insert into the free list does not meet
the fragmentation test: the round writes the header of a free node and the end tag, and the
store gets a free node with the offset and the size of the region. -/
theorem fix_node_spec (s : block_fs_type) (key : Option filename) (off ns : Int)
    (h0 : 0 ≤ off) (hsz : fix_node_size s.data_stream off = some ns) (h16 : 16 ≤ ns)
    (hl : block_fs_lookup_free_node s off = none)
    (hfr : fragmentation_exceeded (s.free_size + ns)
      (util_size_t_max s.data_file_size (off + ns)) s.fragmentation_limit = false) :
    ∃ s1 key1 node, block_fs_fix_node s key off = .ok (s1, key1) ∧
      s1.data_stream = write_list s.data_stream (unlink_writes off ns) ∧
      s1.file_nodes = s.file_nodes ++ [node] ∧
      node.node_offset = off ∧ node.node_size = ns ∧ node.status = .NODE_FREE ∧
      node.data_size = 0 ∧
      s1.free_nodes = free_list_insert s1.file_nodes s.file_nodes.length s.free_nodes ∧
      s1.free_size = s.free_size + ns ∧
      s1.data_file_size = util_size_t_max s.data_file_size (off + ns) ∧
      s1.fragmentation_limit = s.fragmentation_limit := by
  unfold fix_node_size at hsz
  cases hparse : file_node_fread_alloc s.data_stream off none with
  | error e => rw [hparse] at hsz; cases hsz
  | ok r =>
    obtain ⟨n, k, p1⟩ := r
    rw [hparse] at hsz
    cases n with
    | none => cases hsz
    | some n1 =>
      simp only at hsz
      obtain ⟨k2, hparse2⟩ := fread_alloc_key s.data_stream off key _ _ _ hparse
      have hoff := file_node_fread_alloc_offset _ _ _ _ _ _ hparse
      obtain ⟨node, hnode⟩ : ∃ node : file_node_type, node =
          { (if n1.status = .NODE_INVALID ∨ n1.status = .NODE_WRITE_ACTIVE then
              { n1 with
                node_size := (block_fs_fseek_valid_node s.data_stream p1).2 - off }
            else n1) with status := .NODE_FREE, data_size := 0, data_offset := 0 } :=
        ⟨_, rfl⟩
      have hno : node.node_offset = off := by
        rw [hnode]
        split <;> exact hoff
      have hns : node.node_size = ns := by
        rw [hnode]
        split at hsz
        · rename_i hc
          rw [if_pos hc]
          exact Option.some.inj hsz
        · rename_i hc
          rw [if_neg hc]
          exact Option.some.inj hsz
      have hst : node.status = .NODE_FREE := by rw [hnode]
      have hds : node.data_size = 0 := by rw [hnode]
      obtain ⟨st, hw⟩ := file_node_fwrite_ok node none s.data_stream (by omega) (by omega)
        (fun e => by rw [hst] at e; cases e)
      have heq := file_node_fwrite_free_eq node none s.data_stream st hst hw
      rw [hno, hns, hds] at heq
      have hins : block_fs_insert_free_node (block_fs_install_node s node) s.file_nodes.length
          = .ok { block_fs_install_node s node with
              free_nodes := free_list_insert (s.file_nodes ++ [node]) s.file_nodes.length
                s.free_nodes,
              num_free_nodes := s.num_free_nodes + 1,
              free_size := s.free_size + ns } := by
        unfold block_fs_insert_free_node block_fs_install_node
        simp only [node_at_append_length, hno, hns, hfr, Bool.false_eq_true, if_false]
      refine ⟨{ block_fs_install_node s node with
          free_nodes := free_list_insert (s.file_nodes ++ [node]) s.file_nodes.length
            s.free_nodes,
          num_free_nodes := s.num_free_nodes + 1,
          free_size := s.free_size + ns,
          data_stream := st }, k2, node, ?_, ?_, rfl, hno, hns, hst, hds, rfl, rfl, ?_, rfl⟩
      · unfold block_fs_fix_node
        rw [fseek_ok _ h0]
        simp only [hparse2, ← hnode, hl, if_true, hins]
        have hw2 : file_node_fwrite node none (block_fs_install_node s node).data_stream
            = .ok st := hw
        simp only [hw2]
      · show st = _
        rw [heq]
        rfl
      · show util_size_t_max s.data_file_size (node.node_offset + node.node_size) = _
        rw [hno, hns]

theorem fix_regions_ge (f : List Byte) (limit : Int) (L : List Int) :
    ∀ lo fsz dsz : Int, fix_regions f limit lo fsz dsz L = true → ∀ off ∈ L, lo ≤ off := by
  induction L with
  | nil =>
    intro lo fsz dsz _ off hm
    cases hm
  | cons a rest ih =>
    intro lo fsz dsz hreg off hm
    simp only [fix_regions] at hreg
    cases hsz : fix_node_size f a with
    | none => rw [hsz] at hreg; cases hreg
    | some ns =>
      rw [hsz] at hreg
      simp only [Bool.and_eq_true, decide_eq_true_eq] at hreg
      obtain ⟨⟨⟨⟨h1, h2⟩, _⟩, _⟩, h5⟩ := hreg
      rcases List.mem_cons.mp hm with e | hm2
      · rw [e]
        exact h1
      · have := ih _ _ _ h5 off hm2
        omega

/-- An offset at which `block_fs_fix_nodes` reads a node lies four bytes or more in front of
the end of the file. -/
theorem fix_node_size_in_file (f : List Byte) (off ns : Int)
    (h : fix_node_size f off = some ns) : 0 ≤ off ∧ off + 4 ≤ f.length := by
  unfold fix_node_size file_node_fread_alloc at h
  simp only at h
  cases hr : fread f off 4 with
  | none =>
    rw [hr] at h
    simp at h
  | some bs =>
    unfold fread at hr
    split at hr
    · rename_i hc
      omega
    · cases hr

/-- The first offset of a list with `fix_regions` is read as a node and is not below the
bound. -/
theorem fix_regions_head (f : List Byte) (limit lo fsz dsz off : Int) (rest : List Int)
    (h : fix_regions f limit lo fsz dsz (off :: rest) = true) :
    ∃ ns, fix_node_size f off = some ns ∧ lo ≤ off := by
  simp only [fix_regions] at h
  cases hsz : fix_node_size f off with
  | none => rw [hsz] at h; cases h
  | some ns =>
    rw [hsz] at h
    simp only [Bool.and_eq_true, decide_eq_true_eq] at h
    exact ⟨ns, rfl, h.1.1.1.1⟩

theorem lookup_free_node_none (s : block_fs_type) (off : Int)
    (h : ∀ k ∈ s.free_nodes, (node_at s.file_nodes k).node_offset ≠ off) :
    block_fs_lookup_free_node s off = none := by
  unfold block_fs_lookup_free_node
  rw [List.find?_eq_none]
  intro k hk
  simp only [decide_eq_true_eq]
  exact h k hk

/-- The loop of `block_fs_fix_nodes` over offsets in ascending order whose regions, as the
file `f` in front of the loop gives them, have 16 bytes or more, a size in the range of a C
`int`, and do not meet: the loop returns, every region is a well-formed free region of the
stream afterwards, and the free list has a node for it. The region of the last offset may
end behind the end of the file. -/
theorem fix_nodes_loop_spec (f : List Byte) (limit : Int) (L : List Int) :
    ∀ (t : block_fs_type) (key : Option filename) (lo : Int), 0 ≤ lo →
      (L ≠ [] → agree_from lo f t.data_stream) → t.fragmentation_limit = limit →
      fix_regions f limit lo t.free_size t.data_file_size L = true →
      (∀ h ∈ t.free_nodes, h < t.file_nodes.length) →
      (∀ h ∈ t.free_nodes, ∀ off ∈ L, (node_at t.file_nodes h).node_offset ≠ off) →
      ∃ t1, block_fs_fix_nodes_loop t key L = .ok t1 ∧
        (∀ (q : Int) (n : Nat) (rs : List Byte), q + n ≤ lo →
          fread t.data_stream q n = some rs → fread t1.data_stream q n = some rs) ∧
        t.file_nodes.length ≤ t1.file_nodes.length ∧
        (∀ k, k < t.file_nodes.length → node_at t1.file_nodes k = node_at t.file_nodes k) ∧
        (∀ h ∈ t.free_nodes, h ∈ t1.free_nodes) ∧
        ∀ off ∈ L, ∃ ns, fix_node_size f off = some ns ∧ 16 ≤ ns ∧
          ns ≤ 2147483647 ∧ free_region t1.data_stream off ns ∧
          ∃ h ∈ t1.free_nodes, (node_at t1.file_nodes h).node_offset = off ∧
            (node_at t1.file_nodes h).node_size = ns ∧
            (node_at t1.file_nodes h).status = .NODE_FREE ∧
            (node_at t1.file_nodes h).data_size = 0 := by
  induction L with
  | nil =>
    intro t key lo _ _ _ _ _ _
    refine ⟨t, rfl, fun _ _ _ _ h => h, Nat.le_refl _, fun _ _ => rfl, fun _ h => h, ?_⟩
    intro off hm
    cases hm
  | cons off rest ih =>
    intro t key lo hlo hag0 hlim hreg hvalid hoffs
    have hag := hag0 (List.cons_ne_nil _ _)
    simp only [fix_regions] at hreg
    cases hsz : fix_node_size f off with
    | none => rw [hsz] at hreg; cases hreg
    | some ns =>
      rw [hsz] at hreg
      simp only [Bool.and_eq_true, decide_eq_true_eq, Bool.not_eq_true'] at hreg
      obtain ⟨⟨⟨⟨h1, h16⟩, hint⟩, hfr⟩, hrest⟩ := hreg
      have hsz2 : fix_node_size t.data_stream off = some ns := by
        rw [← fix_node_size_agree lo f t.data_stream hag off h1]
        exact hsz
      have hlk := lookup_free_node_none t off
        (fun k hk => hoffs k hk off (List.mem_cons_self _ _))
      obtain ⟨t2, key1, node, hfix, hstream, hnodes, hno, hns, hst, hds, hfree, hfs, hdfs,
        hlim2⟩ := fix_node_spec t key off ns (by omega) hsz2 h16 hlk (by rw [hlim]; exact hfr)
      have hwithin := unlink_writes_within_16 off ns (by omega)
      have hag2 : rest ≠ [] → agree_from (off + ns) f t2.data_stream := by
        intro hne
        have hin : off + ns ≤ f.length := by
          cases rest with
          | nil => exact absurd rfl hne
          | cons off2 rest2 =>
            obtain ⟨ns2, hsz3, hlo2⟩ := fix_regions_head f limit _ _ _ off2 rest2 hrest
            have := (fix_node_size_in_file f off2 ns2 hsz3).2
            omega
        apply agree_from_trans _ _ _ _ (agree_from_mono lo _ f t.data_stream hag (by omega))
        rw [hstream]
        apply agree_from_write_list
        · intro w hw
          have := hwithin w hw
          exact ⟨by omega, this.2⟩
        · rw [← hag.1]
          exact hin
      have hnew : t.file_nodes.length ∈ t2.free_nodes := by
        rw [hfree]
        exact (free_list_insert_perm _ _ _).mem_iff.mpr (List.mem_cons_self _ _)
      have hold : ∀ h ∈ t.free_nodes, h ∈ t2.free_nodes := by
        intro h hh
        rw [hfree]
        exact (free_list_insert_perm _ _ _).mem_iff.mpr (List.mem_cons_of_mem _ hh)
      have hlen2 : t2.file_nodes.length = t.file_nodes.length + 1 := by
        rw [hnodes, List.length_append, List.length_singleton]
      have hcases : ∀ h ∈ t2.free_nodes, h = t.file_nodes.length ∨ h ∈ t.free_nodes := by
        intro h hh
        rw [hfree] at hh
        exact List.mem_cons.mp ((free_list_insert_perm _ _ _).mem_iff.mp hh)
      have hvalid2 : ∀ h ∈ t2.free_nodes, h < t2.file_nodes.length := by
        intro h hh
        rcases hcases h hh with e | hm
        · omega
        · have := hvalid h hm
          omega
      have hge := fix_regions_ge f limit rest _ _ _ hrest
      have hoffs2 : ∀ h ∈ t2.free_nodes, ∀ off2 ∈ rest,
          (node_at t2.file_nodes h).node_offset ≠ off2 := by
        intro h hh off2 hm2
        rcases hcases h hh with e | hm
        · rw [e, hnodes, node_at_append_length, hno]
          have := hge off2 hm2
          omega
        · rw [hnodes, node_at_append_left _ _ _ (hvalid h hm)]
          exact hoffs h hm off2 (List.mem_cons_of_mem _ hm2)
      obtain ⟨t1, hloop, hkeep, hlen, hnk, hfk, hall⟩ := ih t2 key1 (off + ns) (by omega) hag2
        (hlim2.trans hlim) (by rw [hfs, hdfs]; exact hrest) hvalid2 hoffs2
      have hkeep2 : ∀ (q : Int) (n : Nat) (rs : List Byte), q + n ≤ off →
          fread t.data_stream q n = some rs → fread t2.data_stream q n = some rs := by
        intro q n rs hq hr
        rw [hstream]
        apply write_list_fread _ _ _ _ _ hr
        intro w hw
        have := hwithin w hw
        exact ⟨by omega, Or.inl (by omega)⟩
      refine ⟨t1, ?_, ?_, by omega, ?_, fun h hh => hfk h (hold h hh), ?_⟩
      · simp only [block_fs_fix_nodes_loop, hfix]
        exact hloop
      · intro q n rs hq hr
        exact hkeep q n rs (by omega) (hkeep2 q n rs (by omega) hr)
      · intro k hk
        rw [hnk k (by omega), hnodes, node_at_append_left _ _ _ hk]
      · intro off2 hm
        rcases List.mem_cons.mp hm with e | hm2
        · subst e
          have hreg2 : free_region t2.data_stream off2 ns := by
            rw [hstream]
            exact unlink_writes_free_region _ _ _ (by omega) h16
          have hnode1 : node_at t1.file_nodes t.file_nodes.length = node := by
            rw [hnk _ (by omega), hnodes, node_at_append_length]
          refine ⟨ns, hsz, h16, hint, ⟨?_, ?_, ?_, ?_⟩, t.file_nodes.length, hfk _ hnew, ?_⟩
          · exact hkeep _ _ _ (by push_cast; omega) hreg2.status
          · exact hkeep _ _ _ (by push_cast; omega) hreg2.node_size
          · exact hkeep _ _ _ (by push_cast; omega) hreg2.data_size
          · exact hkeep _ _ _ (by push_cast; omega) hreg2.tail
          · rw [hnode1]
            exact ⟨hno, hns, hst, hds⟩
        · exact hall off2 hm2

/-! ## Sizes and sentinel values -/

/-- C21: for a name of the length L `file_node_header_size` is L + 21, which is 4 for the
status, 4 for the length of the name, L + 1 for the name and its NUL, 4 for the node size,
4 for the data size and 4 for the end tag; and `block_fs_fwrite_file` compares the size of
the node of the name with L + 21 + the length of the payload, and asks
`block_fs_get_new_node` for that size. -/
theorem header_size_rule (nz : Bool) (s : block_fs_type) (name : filename) (ptr : List Byte) :
    file_node_header_size name = name.length + 21 ∧
    file_node_header_size name = 4 + 4 + (name.length + 1) + 4 + 4 + 4 ∧
    block_fs_fwrite_file nz s name ptr =
      (if s.data_owner = true then
        if block_fs_has_file s name = true then
          match hash_get s.index name with
          | .error e => .error e
          | .ok file_node =>
            if size_t_cast (node_at s.file_nodes file_node).node_size
                < (name.length : Int) + 21 + ptr.length then
              match block_fs_unlink_file__ s name with
              | .error e => .error e
              | .ok fs1 =>
                match block_fs_get_new_node fs1 ((name.length : Int) + 21 + ptr.length) with
                | .error e => .error e
                | .ok (fs2, new_node) =>
                  match block_fs_fwrite__ nz fs2 name new_node ptr with
                  | .error e => .error e
                  | .ok fs3 => .ok (block_fs_insert_index_node fs3 name new_node)
            else block_fs_fwrite__ nz s name file_node ptr
        else
          match block_fs_get_new_node s ((name.length : Int) + 21 + ptr.length) with
          | .error e => .error e
          | .ok (fs2, new_node) =>
            match block_fs_fwrite__ nz fs2 name new_node ptr with
            | .error e => .error e
            | .ok fs3 => .ok (block_fs_insert_index_node fs3 name new_node)
      else .error .read_only) := by
  have e : (ptr.length : Int) + file_node_header_size name
      = (name.length : Int) + 21 + ptr.length := by
    unfold file_node_header_size
    omega
  refine ⟨by unfold file_node_header_size; omega, by unfold file_node_header_size; omega, ?_⟩
  unfold block_fs_fwrite_file
  simp only [e]

/-- C22: the four bytes of `NODE_IN_USE` are `NODE_IN_USE_BYTE`, which is 0x55, the four
bytes of `NODE_FREE` are `NODE_FREE_BYTE`, which is 0xAA, `NODE_END_TAG` is 0x00FF00FF, the
end tag differs from the four status values, and the two tags of a write in progress differ
from `NODE_IN_USE`, from `NODE_FREE` and from `NODE_END_TAG`. -/
theorem sentinel_values :
    int_to_bytes node_status_type.NODE_IN_USE.toInt = List.replicate 4 NODE_IN_USE_BYTE ∧
    NODE_IN_USE_BYTE = 0x55 ∧
    int_to_bytes node_status_type.NODE_FREE.toInt = List.replicate 4 NODE_FREE_BYTE ∧
    NODE_FREE_BYTE = 0xAA ∧
    bytes_to_int (List.replicate 4 NODE_IN_USE_BYTE) = node_status_type.NODE_IN_USE.toInt ∧
    bytes_to_int (List.replicate 4 NODE_FREE_BYTE) = node_status_type.NODE_FREE.toInt ∧
    NODE_END_TAG = 0x00FF00FF ∧
    (∀ st : node_status_type, NODE_END_TAG ≠ st.toInt) ∧
    NODE_WRITE_ACTIVE_START = node_status_type.NODE_WRITE_ACTIVE.toInt ∧
    NODE_WRITE_ACTIVE_START ≠ node_status_type.NODE_IN_USE.toInt ∧
    NODE_WRITE_ACTIVE_START ≠ node_status_type.NODE_FREE.toInt ∧
    NODE_WRITE_ACTIVE_START ≠ NODE_END_TAG ∧
    NODE_WRITE_ACTIVE_END ≠ node_status_type.NODE_IN_USE.toInt ∧
    NODE_WRITE_ACTIVE_END ≠ node_status_type.NODE_FREE.toInt ∧
    NODE_WRITE_ACTIVE_END ≠ NODE_END_TAG := by
  refine ⟨by decide, by decide, by decide, by decide, by decide, by decide, by decide, ?_,
    by decide, by decide, by decide, by decide, by decide, by decide, by decide⟩
  intro st
  cases st <;> decide

/-! ## Immutable geometry -/

/-- C29: a node of the vector before a returning call of `block_fs_fwrite_file` or of
`block_fs_unlink_file` is in the vector after the call at the same place, with the same
`node_offset` and the same `node_size`; this holds of every store, whichever node the call
writes, takes from the free list or gives to it. -/
theorem geometry_immutable (nz : Bool) (s s1 : block_fs_type) (name : filename)
    (ptr : List Byte) (k : Nat) (hk : k < s.file_nodes.length)
    (hc : block_fs_fwrite_file nz s name ptr = .ok s1 ∨ block_fs_unlink_file s name = .ok s1) :
    k < s1.file_nodes.length ∧
    (node_at s1.file_nodes k).node_offset = (node_at s.file_nodes k).node_offset ∧
    (node_at s1.file_nodes k).node_size = (node_at s.file_nodes k).node_size := by
  rcases hc with hw | hu
  · exact geometry_prefix_node _ _ (fwrite_file_geometry nz s s1 name ptr hw) k hk
  · unfold block_fs_unlink_file at hu
    split at hu
    · have hg := unlink_file_geometry s s1 name hu
      exact geometry_prefix_node _ _ (by rw [hg]) k hk
    · cases hu

theorem geometry_immutable_witness :
    0 < store_a.file_nodes.length ∧
    (block_fs_fwrite_file true store_a [97] [] = .ok store_a_unlinked ∨
      block_fs_unlink_file store_a [97] = .ok store_a_unlinked) ∧
    0 < store_a_unlinked.file_nodes.length ∧
    (node_at store_a_unlinked.file_nodes 0).node_offset
      = (node_at store_a.file_nodes 0).node_offset ∧
    (node_at store_a_unlinked.file_nodes 0).node_size
      = (node_at store_a.file_nodes 0).node_size :=
  ⟨by decide, Or.inr (by decide),
    geometry_immutable true store_a store_a_unlinked [97] [] 0 (by decide)
      (Or.inr (by decide))⟩

/-! ## Header and payload inside the node -/

/-- C28: the store which `block_fs_mount` returns for a new mount file has the fragmentation
limit 1 whatever limit is passed, and it is the store from which the reachable stores start;
in every store reachable by writes and unlinks the limit is 1, and for every name of the
index, whose node `block_fs_unlink_file__` gives to `block_fs_insert_free_node`, the data file
size is positive, the free size with that node is at most the data file size, and the test
`free_size / data_file_size > fragmentation_limit`, with the quotient taken exactly, is
false; so no call of `block_fs_unlink_file` or of `block_fs_fwrite_file` gets to
`block_fs_rotate__`. -/
theorem rotation_never_fires (nz : Bool) (block_size max_cache_size : Int)
    (fragmentation_limit : Rat) (preload : Bool) (hb : 0 < block_size) (s : block_fs_type)
    (hr : reachable nz block_size max_cache_size s) :
    (block_fs_mount_new block_size max_cache_size fragmentation_limit preload).fragmentation_limit
      = 1 ∧
    block_fs_mount_new block_size max_cache_size fragmentation_limit preload
      = block_fs_mount_empty block_size max_cache_size ∧
    s.fragmentation_limit = 1 ∧
    (∀ name h, hash_lookup s.index name = some h →
      0 < s.data_file_size ∧
      s.free_size + (node_at s.file_nodes h).node_size ≤ s.data_file_size ∧
      fragmentation_exceeded (s.free_size + (node_at s.file_nodes h).node_size)
        s.data_file_size s.fragmentation_limit = false) ∧
    (∀ name, block_fs_unlink_file s name ≠ .error .rotate) ∧
    (∀ name ptr, block_fs_fwrite_file nz s name ptr ≠ .error .rotate) := by
  have hi := reachable_inv nz block_size max_cache_size hb s hr
  refine ⟨rfl, rfl, hi.limit, ?_, ?_, ?_⟩
  · intro name h hl
    have hv : h < s.file_nodes.length :=
      store_inv_valid s [] hi h (by simp [hash_lookup_mem _ _ _ hl])
    have hge := node_size_at_ge s.file_nodes 0 s.data_file_size hi.tiling h hv
    obtain ⟨s1, _, hi1, _, _, _, hd, _, hf, _⟩ := unlink_file_spec s name h hi hl
    have htot := store_inv_total s1 [] hi1
    have hnn := size_sum_nonneg s1.file_nodes 0 s1.data_file_size hi1.tiling (handles s1.index)
    have hnil : size_sum s1.file_nodes [] = 0 := rfl
    unfold node_size_at at hge hf
    have h1 : 0 < s.data_file_size := by omega
    have h2 : s.free_size + (node_at s.file_nodes h).node_size ≤ s.data_file_size := by omega
    refine ⟨h1, h2, ?_⟩
    unfold fragmentation_exceeded
    rw [if_pos h1, hi.limit]
    simp only [decide_eq_false_iff_not]
    omega
  · intro name
    unfold block_fs_unlink_file
    rw [if_pos hi.owner]
    cases hl : hash_lookup s.index name with
    | none =>
      unfold block_fs_unlink_file__ hash_get
      rw [hl]
      intro e
      cases e
    | some h =>
      obtain ⟨s1, hu, _⟩ := unlink_file_spec s name h hi hl
      rw [hu]
      intro e
      cases e
  · intro name ptr
    obtain ⟨s1, hw, _⟩ := fwrite_file_spec nz s name ptr hi
    rw [hw]
    intro e
    cases e

theorem rotation_never_fires_witness :
    (0 : Int) < 32 ∧ reachable true 32 0 store_a ∧
    (block_fs_mount_new 32 0 (1 / 4) false).fragmentation_limit = 1 ∧
    store_a.fragmentation_limit = 1 ∧ hash_lookup store_a.index [97] = some 0 ∧
    fragmentation_exceeded (store_a.free_size + (node_at store_a.file_nodes 0).node_size)
      store_a.data_file_size store_a.fragmentation_limit = false ∧
    block_fs_unlink_file store_a [97] ≠ .error .rotate :=
  have h := rotation_never_fires true 32 0 (1 / 4) false (by decide) store_a store_a_reachable
  ⟨by decide, store_a_reachable, h.1, h.2.2.1, by decide,
    (h.2.2.2.1 [97] 0 (by decide)).2.2, h.2.2.2.2.1 [97]⟩

/-! ## The resynchronisation -/

/-- C26, where the code departs from it: the data file of `store_a_unlinked` holds at the
offset 0 the word `NODE_FREE`, and `block_fs_fseek_valid_node`, started at 0, returns false
at the end of the file, because it compares the word with `NODE_FREE_BYTE`, the number 170;
and in a file with the word 170 at the offset 1, which is neither `NODE_IN_USE` nor
`NODE_FREE`, it returns true at that offset. -/
theorem resync_skips_free_word :
    fread store_a_unlinked.data_stream 0 4 = some [170, 170, 170, 170] ∧
    bytes_to_int [170, 170, 170, 170] = node_status_type.NODE_FREE.toInt ∧
    block_fs_fseek_valid_node store_a_unlinked.data_stream 0 = (false, 32) ∧
    fread [0, 170, 0, 0, 0, 0] 1 4 = some [170, 0, 0, 0] ∧
    bytes_to_int [170, 0, 0, 0] = (NODE_FREE_BYTE.val : Int) ∧
    bytes_to_int [170, 0, 0, 0] ≠ node_status_type.NODE_FREE.toInt ∧
    bytes_to_int [170, 0, 0, 0] ≠ node_status_type.NODE_IN_USE.toInt ∧
    block_fs_fseek_valid_node [0, 170, 0, 0, 0, 0] 0 = (true, 1) := by
  refine ⟨by decide, by decide, by decide, by decide, by decide, by decide, by decide,
    by decide⟩

/-! ## The round trip of a header -/

/-- C30, as stated for a free node: `file_node_fwrite` of a free node of the size 8 at the
offset 0 puts the end tag on the field of the node size, and `file_node_fread_alloc` reads
there a free node of the size 16711935, the number of `NODE_END_TAG`. -/
theorem small_free_node_not_read_back :
    ∃ st, file_node_fwrite (file_node_alloc .NODE_FREE 0 8) none [] = .ok st ∧
      st = [170, 170, 170, 170, 255, 0, 255, 0, 0, 0, 0, 0] ∧
      file_node_fread_alloc st 0 none
        = .ok (some (file_node_alloc .NODE_FREE 0 16711935), none, 8) ∧
      NODE_END_TAG = 16711935 :=
  ⟨_, rfl, by decide, by decide, by decide⟩

/-- C30, amended: for a node at an offset which is not negative, with a node size in the
range of a C `int`: when the node is in use, its data size is not negative, the name is a C
string and header and payload are within the node size, `file_node_fwrite` returns, and on
its file `file_node_fread_alloc` at the node offset returns a node in use with the same node
offset, node size and data size, the name, and as data offset and position of the stream
`node_offset + file_node_header_size name - 4`, which is the data offset which
`file_node_set_data_offset` computes, and `file_node_verify_end_tag` finds the end tag of the
node read; when the node is free and has twelve bytes or more, `file_node_fwrite` returns,
and on its file `file_node_fread_alloc` returns a free node of the same node size and no
name. -/
theorem header_round_trip (node : file_node_type) (name : filename)
    (key key0 : Option filename) (g : List Byte) (h0 : 0 ≤ node.node_offset)
    (hmax : node.node_size ≤ 2147483647) :
    (node.status = .NODE_IN_USE → (0 : Byte) ∉ name → 0 ≤ node.data_size →
      file_node_header_size name + node.data_size ≤ node.node_size →
      ∃ st, file_node_fwrite node (some name) g = .ok st ∧
        file_node_fread_alloc st node.node_offset key0
          = .ok (some { file_node_alloc .NODE_IN_USE node.node_offset node.node_size with
                        data_size := node.data_size,
                        data_offset := node.node_offset + file_node_header_size name - 4 },
                 some name, node.node_offset + file_node_header_size name - 4) ∧
        file_node_verify_end_tag
            { file_node_alloc .NODE_IN_USE node.node_offset node.node_size with
              data_size := node.data_size,
              data_offset := node.node_offset + file_node_header_size name - 4 } st
          = .ok (true, node.node_offset + node.node_size) ∧
        (file_node_set_data_offset node name).data_offset
          = node.node_offset + file_node_header_size name - 4) ∧
    (node.status = .NODE_FREE → 12 ≤ node.node_size →
      ∃ st, file_node_fwrite node key g = .ok st ∧
        file_node_fread_alloc st node.node_offset key0
          = .ok (some (file_node_alloc .NODE_FREE node.node_offset node.node_size), none,
                 node.node_offset + 4 + 4)) := by
  constructor
  · intro hs hz hd hfit
    have hhs : file_node_header_size name = name.length + 21 := by
      unfold file_node_header_size
      omega
    obtain ⟨st, hst⟩ := file_node_fwrite_ok node (some name) g h0 (by omega) (fun _ => rfl)
    have heq := file_node_fwrite_in_use_eq node name g st hs hst
    obtain ⟨r1, r2, r3, r4, r5, r6⟩ := in_use_fields_read g st node.node_offset
      node.node_size node.data_size name h0 hd (by omega) (by rw [heq]; rfl)
    have hname : util_fread_realloc_string st (node.node_offset + 4)
        = .ok (name, node.node_offset + 4 + 4 + ((name.length : Int) + 1)) := by
      unfold util_fread_realloc_string
      rw [util_fread_int_of_fread st _ _ r2 (by omega) (by omega)]
      simp only
      rw [if_neg (by omega)]
      have e : ((name.length : Int) + 1).toNat = name.length + 1 := by omega
      rw [e, r3]
      simp only [takeWhile_append_zero name hz]
    have hsz := util_fread_int_of_fread st _ _ r4 (by omega) (by omega)
    have hds := util_fread_int_of_fread st _ _ r5 (by omega) (by omega)
    have epos : node.node_offset + 4 + 4 + ((name.length : Int) + 1) + 4 + 4
        = node.node_offset + file_node_header_size name - 4 := by omega
    refine ⟨st, hst, ?_, ?_, rfl⟩
    · unfold file_node_fread_alloc
      simp only [r1]
      rw [if_pos (by decide)]
      simp only [hname, hsz, hds, epos]
    · have h := verify_end_tag_of_fread st
        { file_node_alloc .NODE_IN_USE node.node_offset node.node_size with
          data_size := node.data_size,
          data_offset := node.node_offset + file_node_header_size name - 4 }
        (by simp only [file_node_alloc]; omega) (by simp only [file_node_alloc]; exact r6)
      rw [h]
      simp only [file_node_alloc]
      congr 2
      omega
  · intro hs hns
    obtain ⟨st, hst⟩ := file_node_fwrite_ok node key g h0 (by omega)
      (fun e => by rw [hs] at e; cases e)
    have heq := file_node_fwrite_free_eq node key g st hs hst
    obtain ⟨r1, r2, _⟩ := free_fields_read g st node.node_offset node.node_size
      node.data_size h0 hns (by rw [heq]; rfl)
    have hsz := util_fread_int_of_fread st _ _ r2 (by omega) (by omega)
    refine ⟨st, hst, ?_⟩
    unfold file_node_fread_alloc
    simp only [r1]
    rw [if_neg (by decide), if_pos (by decide)]
    simp only [hsz]

theorem header_round_trip_witness :
    (0 : Int) ≤ (node_at store_a.file_nodes 0).node_offset ∧
    (node_at store_a.file_nodes 0).node_size ≤ 2147483647 ∧
    (∃ st, file_node_fwrite (node_at store_a.file_nodes 0) (some [97]) [] = .ok st ∧
      file_node_fread_alloc st 0 none
        = .ok (some { file_node_alloc .NODE_IN_USE 0 32 with data_size := 3, data_offset := 18 },
               some [97], 18) ∧
      file_node_verify_end_tag
          { file_node_alloc .NODE_IN_USE 0 32 with data_size := 3, data_offset := 18 } st
        = .ok (true, 32)) ∧
    (∃ st, file_node_fwrite (node_at store_a_unlinked.file_nodes 0) none [] = .ok st ∧
      file_node_fread_alloc st 0 none = .ok (some (file_node_alloc .NODE_FREE 0 32), none, 8)) := by
  refine ⟨by decide, by decide, ?_, ?_⟩
  · obtain ⟨st, h1, h2, h3, _⟩ := (header_round_trip (node_at store_a.file_nodes 0) [97]
      none none [] (by decide) (by decide)).1 (by decide) (by decide) (by decide) (by decide)
    exact ⟨st, h1, h2, h3⟩
  · exact (header_round_trip (node_at store_a_unlinked.file_nodes 0) [] none none []
      (by decide) (by decide)).2 (by decide) (by decide)

/-! ## The classification of the scan -/

/-- C25, where the code departs from it: `crash_status_image` is a damaged data file of 32
bytes whose first word is `NODE_IN_USE` and whose next 14 bytes are zero.
`file_node_fread_alloc` reads at the offset 0 a node in use with the node size 0, the test of
the end tag seeks to the offset -4 and `fseek__` aborts; so `block_fs_build_index` ends with
this error for every number of rounds, where the node is to be left out and its offset 0 is
to go to the list of the offsets in error. -/
theorem scan_aborts_before_file_start :
    file_node_fread_alloc crash_status_image 0 none
      = .ok (some { file_node_alloc .NODE_IN_USE 0 0 with data_offset := 17 }, some [], 17) ∧
    file_node_verify_end_tag { file_node_alloc .NODE_IN_USE 0 0 with data_offset := 17 }
      crash_status_image = .error .seek_failed ∧
    ∀ fuel, block_fs_mount_scan (fuel + 1) 32 0 true crash_status_image
      = .error .seek_failed := by
  refine ⟨by decide, by decide, ?_⟩
  intro fuel
  unfold block_fs_mount_scan block_fs_build_index
  rw [block_fs_build_index_loop]
  rfl

/-! ## The repair of the regions in error -/

/-- C27, as stated: in the damaged file `damaged_a_image` the node at the offset 0 has no end
tag, the scan puts the offset 0 on the list, and `block_fs_fseek_valid_node` finds no status
word behind it, so that the distance to the end of the file is 36; `block_fs_fix_nodes`
gives the free node the size 32 of the header, and the four bytes at the end of the file
belong to no node. -/
theorem fix_nodes_keeps_header_size :
    block_fs_mount_scan 10 32 0 true damaged_a_image
      = .ok ({ block_fs_alloc_empty 32 0 true with data_stream := damaged_a_image }, 36, [0]) ∧
    block_fs_fseek_valid_node damaged_a_image 4 = (false, 36) ∧
    block_fs_fseek_valid_node damaged_a_image 32 = (false, 36) ∧
    ∃ s1, block_fs_fix_nodes
        { block_fs_alloc_empty 32 0 true with data_stream := damaged_a_image } [0] = .ok s1 ∧
      s1.free_nodes = [0] ∧ geometry s1.file_nodes = [(0, 32)] ∧
      s1.data_file_size = 32 ∧ s1.data_stream.length = 36 :=
  ⟨by decide, by decide, by decide, _, rfl, by decide, by decide, by decide, by decide⟩

/-- The region of four bytes which a write leaves when it stops inside
`file_node_init_fwrite`: `block_fs_fix_nodes` gives it a free node of the size 4, whose end
tag it writes over the status word, and whose node size and data size it writes behind the
region; the file has at the offset 32 the word `NODE_END_TAG` and not the word `NODE_FREE`. -/
theorem fix_nodes_small_region :
    block_fs_mount_scan 10 32 0 true torn_start_image
      = .ok ({ store_a with data_stream := torn_start_image, write_count := 0 }, 36, [32]) ∧
    ∃ s1, block_fs_fix_nodes
        { store_a with data_stream := torn_start_image, write_count := 0 } [32] = .ok s1 ∧
      geometry s1.file_nodes = [(0, 32), (32, 4)] ∧ s1.free_nodes = [1] ∧
      s1.data_stream.drop 32 = [255, 0, 255, 0, 4, 0, 0, 0, 0, 0, 0, 0] ∧
      fread s1.data_stream 32 4 = some (int_to_bytes NODE_END_TAG) :=
  ⟨by decide, _, rfl, by decide, by decide, by decide, by decide⟩

/-- C27, amended: on an owner store whose free list refers to nodes of the vector, for a
list of offsets in ascending order at each of which `file_node_fread_alloc` reads a node and
at none of which the free list has a node, where the region of each offset has 16 bytes or
more and a size in the range of a C `int` and ends at or in front of the next offset, and no
insert meets the fragmentation test: `block_fs_fix_nodes` returns, and for every offset of
the list the data stream of the store holds afterwards at the offset a well-formed free
region (the status word `NODE_FREE`, the node size, the data size 0, and `NODE_END_TAG` in
the last word), and the free list holds a free node at that offset with that node size. The node size
is `fix_node_size`: the distance to the position where `block_fs_fseek_valid_node` stops when
the status word is not known or is that of a write in progress, and the node size of the
header when the status word is `NODE_IN_USE` or `NODE_FREE` and the end tag is missing. -/
theorem fix_nodes_frees_regions (s : block_fs_type) (offset_list : List Int)
    (ho : s.data_owner = true)
    (hreg : fix_regions s.data_stream s.fragmentation_limit 0 s.free_size s.data_file_size
      offset_list = true)
    (hvalid : ∀ h ∈ s.free_nodes, h < s.file_nodes.length)
    (hoffs : ∀ h ∈ s.free_nodes, ∀ off ∈ offset_list,
      (node_at s.file_nodes h).node_offset ≠ off) :
    ∃ s1, block_fs_fix_nodes s offset_list = .ok s1 ∧
      ∀ off ∈ offset_list, ∃ ns, fix_node_size s.data_stream off = some ns ∧
        16 ≤ ns ∧ ns ≤ 2147483647 ∧ free_region s1.data_stream off ns ∧
        ∃ h ∈ s1.free_nodes, (node_at s1.file_nodes h).node_offset = off ∧
          (node_at s1.file_nodes h).node_size = ns ∧
          (node_at s1.file_nodes h).status = .NODE_FREE ∧
          (node_at s1.file_nodes h).data_size = 0 := by
  obtain ⟨s1, hloop, _, _, _, _, hall⟩ := fix_nodes_loop_spec s.data_stream
    s.fragmentation_limit offset_list s none 0 (Int.le_refl _)
    (fun _ => ⟨rfl, fun _ _ _ => rfl⟩) rfl hreg hvalid hoffs
  refine ⟨s1, ?_, hall⟩
  unfold block_fs_fix_nodes
  rw [if_pos ho]
  exact hloop

set_option maxRecDepth 8000 in
theorem fix_nodes_frees_regions_witness :
    store_a_torn.data_owner = true ∧
    block_fs_mount_scan 10 32 0 true store_a_crash_payload = .ok (store_a_torn, 64, [32]) ∧
    fix_regions store_a_torn.data_stream store_a_torn.fragmentation_limit 0
      store_a_torn.free_size store_a_torn.data_file_size [32] = true ∧
    fix_node_size store_a_torn.data_stream 32 = some 32 ∧
    (∃ s1, block_fs_fix_nodes store_a_torn [32] = .ok s1 ∧
      free_region s1.data_stream 32 32 ∧
      ∃ h ∈ s1.free_nodes, (node_at s1.file_nodes h).node_offset = 32 ∧
        (node_at s1.file_nodes h).node_size = 32 ∧
        (node_at s1.file_nodes h).status = .NODE_FREE ∧
        (node_at s1.file_nodes h).data_size = 0) ∧
    block_fs_mount_scan 10 32 0 true short_node_image
      = .ok ({ store_a with data_stream := short_node_image, write_count := 0 }, 64, [32]) ∧
    fix_node_size short_node_image 32 = some 64 ∧
    ∃ s1, block_fs_fix_nodes
        { store_a with data_stream := short_node_image, write_count := 0 } [32] = .ok s1 ∧
      free_region s1.data_stream 32 64 ∧
      ∃ h ∈ s1.free_nodes, (node_at s1.file_nodes h).node_offset = 32 ∧
        (node_at s1.file_nodes h).node_size = 64 ∧
        (node_at s1.file_nodes h).status = .NODE_FREE ∧
        (node_at s1.file_nodes h).data_size = 0 := by
  have hsz : fix_node_size store_a_torn.data_stream 32 = some 32 := by decide
  have hsz2 : fix_node_size short_node_image 32 = some 64 := by decide
  refine ⟨rfl, by decide, by decide, hsz, ?_, by decide, hsz2, ?_⟩
  · obtain ⟨s1, h1, h2⟩ := fix_nodes_frees_regions store_a_torn [32] rfl
      (by decide) (fun h hh => absurd hh (List.not_mem_nil h))
      (fun h hh => absurd hh (List.not_mem_nil h))
    obtain ⟨ns, e, _, _, h3, h4⟩ := h2 32 (List.mem_singleton_self _)
    rw [hsz] at e
    cases e
    exact ⟨s1, h1, h3, h4⟩
  · obtain ⟨s1, h1, h2⟩ := fix_nodes_frees_regions
      { store_a with data_stream := short_node_image, write_count := 0 } [32] rfl
      (by decide) (fun h hh => absurd hh (List.not_mem_nil h))
      (fun h hh => absurd hh (List.not_mem_nil h))
    obtain ⟨ns, e, _, _, h3, h4⟩ := h2 32 (List.mem_singleton_self _)
    have e2 : fix_node_size short_node_image 32 = some ns := e
    rw [hsz2] at e2
    cases e2
    exact ⟨s1, h1, h3, h4⟩
/-! ## The scan on a node of the size zero -/

set_option maxRecDepth 8000 in
/-- On the data file `store_a_crash_status` the loop of `block_fs_build_index`, once at the
offset 32, stays there: every round reads the node of the size 0, finds the end tag of the
node in front of it, puts the node into the vector and the index and seeks to the offset 32
again; so no number of rounds is enough. -/
theorem scan_stays_at_offset (fuel : Nat) :
    ∀ (t : block_fs_type) (key : Option filename) (errs : List Int),
      t.data_stream = store_a_crash_status →
      block_fs_build_index_loop fuel t 32 key errs = .error .out_of_fuel := by
  induction fuel with
  | zero =>
    intro t key errs _
    rfl
  | succ fuel ih =>
    intro t key errs ht
    have hp0 : file_node_fread_alloc store_a_crash_status 32 none
        = .ok (some { file_node_alloc .NODE_IN_USE 32 0 with data_offset := 49 }, some [],
            49) := by decide
    obtain ⟨k2, hp⟩ := fread_alloc_key _ 32 key _ _ _ hp0
    rw [← ht] at hp
    rcases build_index_step t 32 key k2 errs fuel _ 49 hp (by decide) with
      ⟨_, huse, _⟩ | ⟨hneg, _⟩
    · obtain ⟨k, _, heq⟩ := huse rfl
      rw [heq]
      exact ih _ _ _ ht
    · exfalso
      apply hneg
      refine ⟨Or.inl rfl, [255, 0, 255, 0], ?_, by decide⟩
      rw [ht]
      decide

set_option maxRecDepth 8000 in
/-- C31, where the code departs from it: `store_a_crash_status` is a damaged data file of 64
bytes, the node of "a" of `store_a` and behind it the word `NODE_IN_USE` and 14 zero bytes.
At the offset 32 `file_node_fread_alloc` reads a node in use of the size 0,
`file_node_verify_end_tag` finds at the offset 28 the end tag of the node of "a", and the
round of the loop leaves the stream at the offset 32, where the node was read; so
`block_fs_build_index` does not end, whatever the number of rounds. -/
theorem scan_does_not_terminate :
    file_node_fread_alloc store_a_crash_status 32 (some [97])
      = .ok (some { file_node_alloc .NODE_IN_USE 32 0 with data_offset := 49 }, some [], 49) ∧
    file_node_verify_end_tag { file_node_alloc .NODE_IN_USE 32 0 with data_offset := 49 }
      store_a_crash_status = .ok (true, 32) ∧
    fseek__ (32 + 0) = .ok 32 ∧
    ∀ fuel, block_fs_mount_scan fuel 32 0 true store_a_crash_status
      = .error .out_of_fuel := by
  refine ⟨by decide, by decide, by decide, ?_⟩
  intro fuel
  cases fuel with
  | zero => rfl
  | succ fuel =>
    unfold block_fs_mount_scan block_fs_build_index
    have hp : file_node_fread_alloc
        ({ block_fs_alloc_empty 32 0 true with data_stream := store_a_crash_status } :
          block_fs_type).data_stream 0 none
        = .ok (some { file_node_alloc .NODE_IN_USE 0 32 with
                 data_size := 3, data_offset := 18 }, some [97], 18) := by decide
    rcases build_index_step _ 0 none _ [] fuel _ 18 hp (by decide) with
      ⟨_, huse, _⟩ | ⟨hneg, _⟩
    · obtain ⟨k, _, heq⟩ := huse rfl
      rw [heq]
      exact scan_stays_at_offset fuel _ _ _ rfl
    · exfalso
      apply hneg
      exact ⟨Or.inl rfl, [255, 0, 255, 0], by decide, by decide⟩

/-! ## The write which needs a larger node -/

end BlockFs
